import Mathlib

/-!
# hebench `ArgsParser`: a shallow embedding of `args_parser.cpp`

The C++ class `hebench::ArgsParser` is embedded as explicit state passing:

* a `std::string` is a Lean `String`; one `Char` stands for one C++ `char`, so
  `size()` is `String.length`.  The `std::string_view` code of `tokenize` and
  `fixHelpText` works on the character list of the string;
* `std::size_t` values are `Nat`, with the subtraction of `fixHelpText` taken modulo `2^64`;
  the `int` arithmetic of the check in `parse` is wrapped to 32 bits, and the cursor of
  `parse`, which is never negative, is a `Nat`;
* the associative containers are association lists, `std::ostream` output is the text
  written, and an operation returns its outcome (normal return, C++ exception, process
  exit, undefined behaviour) together with the state it leaves behind;
* the loops run on fuel that is enough for them to end: the length of the text for the
  loops of `tokenize` and `fixHelpText`, the number of tokens left for the loop of `parse`;
* memory is not modelled: a list has any length and no allocation fails.  Where the size
  of a C++ object matters, the bound of its type is a hypothesis of the theorem.

The definitions come first, then the lemmas on them, then the theorems for the claims
C1 to C20 of the specification.
-/

namespace hebench

/-! ## `std::string_view` operations -/

/-- The constant `args_parser::BlankTrim`: space, tab, newline, carriage return, form feed,
vertical tab. -/
def BlankTrim : List Char := [' ', '\t', '\n', '\r', '\x0c', '\x0b']

/-- The call `s.find_first_of(chars)`; `none` is `npos`. -/
def find_first_of (chars : List Char) : List Char → Option Nat
  | [] => none
  | c :: s => if c ∈ chars then some 0 else (find_first_of chars s).map (· + 1)

/-- The call `s.find_last_of(chars)`; `none` is `npos`. -/
def find_last_of (chars : List Char) : List Char → Option Nat
  | [] => none
  | c :: s =>
    match find_last_of chars s with
    | some p => some (p + 1)
    | none => if c ∈ chars then some 0 else none

/-- The call `s.find(delim)`: the first position at which `delim` starts; `none` is `npos`. -/
def find (delim : List Char) : List Char → Option Nat
  | [] => if delim = [] then some 0 else none
  | c :: s =>
    if delim.isPrefixOf (c :: s) then some 0 else (find delim s).map (· + 1)

/-- The call `s.substr(0, count)`, where the count `npos` (here `none`) takes the whole rest. -/
def substr0 (s : List Char) : Option Nat → List Char
  | none => s
  | some count => s.take count

/-! ## `args_parser::tokenize` -/

/-- One iteration of the loop of `tokenize`: the piece emitted and the rest of `s`. -/
def tokenizeStep (s delim : List Char) : List Char × List Char :=
  let pos := match find delim s with
    | none => s.length
    | some p => p
  let piece := s.take pos
  let s := s.drop pos
  (piece, if s.isEmpty then s else s.drop delim.length)

/-- The loop of `tokenize`, run for at most `fuel` iterations. -/
def tokenizeLoop (delim : List Char) : Nat → List Char → List (List Char) → List (List Char)
  | 0, _, retval => retval
  | fuel + 1, s, retval =>
    if s.isEmpty then retval
    else
      let r := tokenizeStep s delim
      tokenizeLoop delim fuel r.2 (retval ++ [r.1])

/-- The function `args_parser::tokenize`.  With a non-empty delimiter every iteration
removes at least one character, so `s.length` iterations empty `s` (`tokenizeStep_lt`,
`tokenizeLoop_fuel`). -/
def tokenize (s delim : List Char) : List (List Char) :=
  tokenizeLoop delim s.length s []

/-! ## `ArgsParser::fixHelpText` -/

/-- The `std::size_t` subtraction `a - b`, modulo `2^64`. -/
def size_t_sub (a b : Nat) : Nat := (a % 2 ^ 64 + 2 ^ 64 - b % 2 ^ 64) % 2 ^ 64

/-- The line cut off the front of a non-empty `token` (source lines 274 to 289). -/
def cutLine (actual_line_size : Nat) (token : List Char) : List Char :=
  if actual_line_size ≤ 0 ∨ token.length ≤ actual_line_size then token
  else
    let line := substr0 token (some actual_line_size)
    match find_last_of BlankTrim line with
    | none => substr0 token (find_first_of BlankTrim token)
    | some blank_pos => substr0 line (some blank_pos)

/-- The rest of `token` once `line` is cut off: the line is removed and, when a blank comes
next, that one blank too (source lines 294 to 296). -/
def dropLine (token line : List Char) : List Char :=
  let token := token.drop line.length
  if find_first_of BlankTrim token = some 0 then token.drop 1 else token

/-- The inner `while (!token.empty())` loop of `fixHelpText`, run for at most `fuel`
iterations; `retval` is the text written to the string stream so far. -/
def fixLoop (margin_size actual_line_size : Nat) :
    Nat → List Char → Bool → List Char → List Char
  | 0, _, _, retval => retval
  | fuel + 1, token, b_first_line, retval =>
    if token.isEmpty then retval
    else
      let line := cutLine actual_line_size token
      let token := dropLine token line
      let retval := if b_first_line then retval else retval ++ ['\n']
      let retval := retval ++ (List.replicate margin_size ' ' ++ line)
      fixLoop margin_size actual_line_size fuel token false retval

/-- The outer `for` loop of `fixHelpText` over the original lines; `started` is `i > 0`.
Every iteration of the inner loop removes at least one character of `token`, so
`token.length` iterations empty it (`dropLine_cutLine_lt`, `fixLoop_fuel`). -/
def fixTokens (margin_size actual_line_size : Nat) :
    List (List Char) → Bool → List Char → List Char
  | [], _, retval => retval
  | token :: tokens, started, retval =>
    let retval := if started then retval ++ ['\n'] else retval
    let retval := fixLoop margin_size actual_line_size token.length token true retval
    fixTokens margin_size actual_line_size tokens true retval

/-- The static function `ArgsParser::fixHelpText(original, margin_size, line_size)`. -/
def fixHelpText (original : String) (margin_size line_size : Nat) : String :=
  let tokens := tokenize original.data ['\n']
  let actual_line_size := if line_size > 0 then size_t_sub line_size margin_size else 0
  String.mk (fixTokens margin_size actual_line_size tokens false [])

/-! ## The lines and the words of a text -/

/-- The lines that the inner loop of `fixHelpText` cuts off `token`, in order: the values of
`line` in at most `fuel` iterations. -/
def cutLines (actual_line_size : Nat) : Nat → List Char → List (List Char)
  | 0, _ => []
  | fuel + 1, token =>
    if token.isEmpty then []
    else
      cutLine actual_line_size token
        :: cutLines actual_line_size fuel (dropLine token (cutLine actual_line_size token))

/-- The text that the string stream gets for `lines`: a line break goes before every line
but the first one, and before the first one too unless `first` holds. -/
def joinLines : Bool → List (List Char) → List Char
  | _, [] => []
  | first, line :: lines => (if first then [] else ['\n']) ++ line ++ joinLines false lines

/-- What is left of `token` after at most `fuel` iterations of the inner loop of
`fixHelpText`. -/
def fixLoopRest (actual_line_size : Nat) : Nat → List Char → List Char
  | 0, token => token
  | fuel + 1, token =>
    if token.isEmpty then token
    else fixLoopRest actual_line_size fuel (dropLine token (cutLine actual_line_size token))

/-- What is left of `s` after at most `fuel` iterations of the loop of `tokenize`. -/
def tokenizeLoopRest (delim : List Char) : Nat → List Char → List Char
  | 0, s => s
  | fuel + 1, s =>
    if s.isEmpty then s else tokenizeLoopRest delim fuel (tokenizeStep s delim).2

/-- The words of `s` that follow the word `word` under way, `word` first when it is not
empty: a character of `BlankTrim` ends the word under way, any other one extends it. -/
def wordsFrom : List Char → List Char → List (List Char)
  | [], word => if word.isEmpty then [] else [word]
  | c :: s, word =>
    if c ∈ BlankTrim then
      if word.isEmpty then wordsFrom s [] else word :: wordsFrom s []
    else wordsFrom s (word ++ [c])

/-- The words of a text: its maximal runs of characters other than space, tab, newline,
carriage return, form feed and vertical tab, in order. -/
def words (s : List Char) : List (List Char) := wordsFrom s []

/-- The result `m.find(k)` of a lookup in a `std::map`, held as an association list with
distinct keys: `none` is `m.end()`. -/
def mapFind {κ ν : Type} [DecidableEq κ] (k : κ) : List (κ × ν) → Option ν
  | [] => none
  | (k', v) :: m => if k' = k then some v else mapFind k m

/-- The assignment `m[k] = v`: the value of an existing key is replaced, a new key is added. -/
def mapAssign {κ ν : Type} [DecidableEq κ] (k : κ) (v : ν) : List (κ × ν) → List (κ × ν)
  | [] => [(k, v)]
  | (k', v') :: m => if k' = k then (k', v) :: m else (k', v') :: mapAssign k v m

/-- The call `set.insert(id)` on the set `m_set_args`. -/
def setInsert (id : Nat) (set : List Nat) : List Nat :=
  if id ∈ set then set else set ++ [id]

/-- Modelled from the spec: the exception classes `ArgsParser::InvalidArgument` and
`ArgsParser::HelpShown` are declared in the header `args_parser.h`, which is not among the
sources.  The spec has the unknown-argument failure and the "help was shown" signal as
kinds of their own, the second one going to the caller of `parse`; so the two classes are
kept apart from each other and from `std::invalid_argument`, `std::logic_error` and
`std::out_of_range`, and `catch (InvalidArgument &)` catches the first only. -/
inductive Exception where
  | invalid_argument (what : String)
  | logic_error (what : String)
  | out_of_range
  | InvalidArgument (what : String)
  | HelpShown (what : String)
  deriving DecidableEq, Repr

/-- How a call ends: it returns a value, throws, ends the process with `std::exit`, or runs
into undefined behaviour (a read of `argv` past its end). -/
inductive Outcome (α : Type) where
  | ok (value : α)
  | throw (e : Exception)
  | exit (status : Int)
  | undefined
  deriving DecidableEq, Repr

/-- The value `std::numeric_limits<std::size_t>::max()`. -/
def SIZE_MAX : Nat := 2 ^ 64 - 1

/-- A 32-bit `int` holding the integer `x` modulo `2^32`. -/
def int_wrap (x : Int) : Int := (x + 2147483648) % 4294967296 - 2147483648

/-- The conversion `static_cast<int>(n)` of a `std::size_t`. -/
def static_cast_int (n : Nat) : Int := int_wrap n

/-! ## The parser state -/

/-- The data members of `ArgsParser`, with the types that their use in the source shows
(the class is declared in the header, which is not among the sources): `m_map_args` maps
an alias to an identifier, `m_map_values` an identifier to its vector of value slots,
`m_set_args` is the set of the identifiers passed, `m_map_help` maps the first alias of an
option to the strings of its help entry.  `DefaultProgramName` is a static constant of the
class whose value is given in the header; it is carried along as a field. -/
structure ArgsParser where
  m_buse_exit : Bool
  m_margin_size : Nat
  m_line_size : Nat
  m_help_id : Nat
  m_program_name : String
  m_description : String
  m_epilogue : String
  m_positional_args : List (String × String)
  m_positional_values : List String
  m_map_args : List (String × Nat)
  m_map_values : List (Nat × List String)
  m_set_args : List Nat
  m_map_help : List (String × List String)
  DefaultProgramName : String
  deriving DecidableEq, Repr

/-- What a call that may write to `std::cout` leaves behind: how it ended, the state of the
parser at that point, and the text written. -/
structure Result where
  outcome : Outcome Unit
  state : ArgsParser
  out : String
  deriving DecidableEq, Repr

namespace ArgsParser

/-! ## Queries -/

/-- The member `isArgumentValid(arg)`. -/
def isArgumentValid (p : ArgsParser) (arg : String) : Bool :=
  (mapFind arg p.m_map_args).isSome

/-- The member `findArgID(arg)`. -/
def findArgID (p : ArgsParser) (arg : String) : Outcome Nat :=
  if !p.isArgumentValid arg then
    .throw (.InvalidArgument ("Invalid argument: \"" ++ arg ++ "\"."))
  else
    match mapFind arg p.m_map_args with
    | some id => .ok id
    | none => .throw .out_of_range

/-- The member `hasArgument(args_unique_id id)`. -/
def hasArgumentID (p : ArgsParser) (id : Nat) : Bool :=
  decide (id ∈ p.m_set_args)

/-- The member `hasArgument(const std::string &arg)`. -/
def hasArgument (p : ArgsParser) (arg : String) : Outcome Bool :=
  match p.findArgID arg with
  | .ok id => .ok (p.hasArgumentID id)
  | .throw e => .throw e
  | .exit c => .exit c
  | .undefined => .undefined

/-- The member `hasValue(arg)`; `&&` evaluates `m_map_values.at(id)` only for an identifier
that is present. -/
def hasValue (p : ArgsParser) (arg : String) : Outcome Bool :=
  match p.findArgID arg with
  | .ok id =>
    if p.hasArgumentID id then
      match mapFind id p.m_map_values with
      | some values => .ok (!values.isEmpty)
      | none => .throw .out_of_range
    else .ok false
  | .throw e => .throw e
  | .exit c => .exit c
  | .undefined => .undefined

/-- The member `getValue(arg)`. -/
def getValue (p : ArgsParser) (arg : String) : Outcome (List String) :=
  match p.findArgID arg with
  | .ok id =>
    match mapFind id p.m_map_values with
    | some values => .ok values
    | none => .throw .out_of_range
  | .throw e => .throw e
  | .exit c => .exit c
  | .undefined => .undefined

/-- The member `getPositionalValue(arg_position)`. -/
def getPositionalValue (p : ArgsParser) (arg_position : Nat) : Outcome String :=
  match p.m_positional_values[arg_position]? with
  | some v => .ok v
  | none => .throw .out_of_range

/-! ## Registration -/

/-- The loop `for (const std::string &s : args)` of `add`: the alias table, the aliases
collected for the help entry, and the alias at which the loop threw, if it did. -/
def addLoop (id : Nat) :
    List String → List (String × Nat) → List String →
      List (String × Nat) × List String × Option String
  | [], m_map_args, arr_help_text => (m_map_args, arr_help_text, none)
  | s :: args, m_map_args, arr_help_text =>
    if (mapFind s m_map_args).isSome then (m_map_args, arr_help_text, some s)
    else addLoop id args (mapAssign s id m_map_args) (arr_help_text ++ [s])

/-- The member `add(args, n, params_help, help_text)`, to which every overload of
`addArgument` forwards. -/
def add (p : ArgsParser) (args : List String) (n : Nat) (params_help help_text : String) :
    Outcome Unit × ArgsParser :=
  match args with
  | [] => (.throw (.invalid_argument "Invalid empty arguments."), p)
  | help_text_id :: _ =>
    let id := p.m_map_values.length
    match addLoop id args p.m_map_args [] with
    | (m_map_args, _, some s) =>
      (.throw (.invalid_argument ("Invalid duplicated argument: \"" ++ s ++ "\".")),
        { p with m_map_args := m_map_args })
    | (m_map_args, arr_help_text, none) =>
      let arr_help_text := arr_help_text ++ [""] ++ [params_help]
        ++ [fixHelpText help_text p.m_margin_size p.m_line_size]
      (.ok (),
        { p with
          m_map_args := m_map_args
          m_map_help := mapAssign help_text_id arr_help_text p.m_map_help
          m_map_values := mapAssign id (List.replicate n "") p.m_map_values })

/-- The overloads of `addArgument`. -/
def addArgument (p : ArgsParser) (args : List String) (n : Nat)
    (params_help help_text : String) : Outcome Unit × ArgsParser :=
  p.add args n params_help help_text

/-- The member `addPositionalArgument(arg_name, help_text)`: the index given and the state. -/
def addPositionalArgument (p : ArgsParser) (arg_name help_text : String) : Nat × ArgsParser :=
  let m_positional_args := p.m_positional_args
    ++ [(arg_name, fixHelpText help_text p.m_margin_size p.m_line_size)]
  (m_positional_args.length - 1, { p with m_positional_args := m_positional_args })

/-! ## Usage and help text -/

/-- The text `std::string(n, ' ')`. -/
def blanks (n : Nat) : String := String.mk (List.replicate n ' ')

/-- The member `printUsage(os)`: the text written to `os`. -/
def printUsage (p : ArgsParser) : String :=
  let os := "Usage:" ++ "\n"
  let os := if p.m_margin_size ≤ 0 then os ++ "    " else os ++ blanks p.m_margin_size
  let os := os ++ p.m_program_name
  let os := if !p.m_map_help.isEmpty then os ++ " OPTIONS" else os
  let os :=
    if p.m_positional_args.length > 0 then
      let s_margin := blanks (p.m_program_name.length + 1
        + (if p.m_margin_size ≤ 0 then 4 else p.m_margin_size))
      p.m_positional_args.foldl (fun os arg => os ++ " \\" ++ "\n" ++ s_margin ++ arg.1) os
    else os
  os ++ "\n"

/-- The loop of `showHelp` over the strings `arr_help_data[i]` of one help entry. -/
def showHelpEntry : List String → Nat → Int → Bool → String → String
  | [], _, _, _, os => os
  | x :: arr_help_data, i, help_idx, bhelp_text, os =>
    if !bhelp_text && x.isEmpty then showHelpEntry arr_help_data (i + 1) 0 true os
    else
      let os :=
        if help_idx < 0 ∧ i > 0 then os ++ ", "
        else if help_idx = 0 then os ++ " "
        else os
      let os := os ++ x
      if help_idx = 0 then showHelpEntry arr_help_data (i + 1) 1 bhelp_text (os ++ "\n")
      else showHelpEntry arr_help_data (i + 1) help_idx bhelp_text os

/-- Modelled from the spec: the order in which `showHelp` visits the entries of
`m_map_help`.  The container type of `m_map_help` is declared in the header, which is not
among the sources; the spec has the help entries "stored keyed by the first alias,
preserving insertion order for later display", which is the order of the association list. -/
def helpEntries (p : ArgsParser) : List (String × List String) := p.m_map_help

/-- The text `showHelp(os)` writes to `os`. -/
def showHelpText (p : ArgsParser) : String :=
  let os := if !p.m_description.isEmpty then p.m_description ++ "\n" ++ "\n" else ""
  let os := os ++ p.printUsage
  let os :=
    if p.m_positional_args.length > 0 then
      let os := os ++ "\n" ++ "POSITIONAL ARGUMENTS: " ++ toString p.m_positional_args.length
        ++ "\n"
      p.m_positional_args.foldl (fun os arg => os ++ arg.1 ++ "\n" ++ arg.2 ++ "\n" ++ "\n") os
    else os
  let os :=
    if !p.m_map_help.isEmpty then
      let os := os ++ "\n" ++ "OPTIONS:" ++ "\n"
      p.helpEntries.foldl
        (fun os help_data =>
          let arr_help_data := help_data.2
          if !(arr_help_data.getLastD "").isEmpty then
            showHelpEntry arr_help_data 0 (-1) false os ++ "\n" ++ "\n"
          else os)
        os
    else os
  if !p.m_epilogue.isEmpty then os ++ "\n" ++ p.m_epilogue ++ "\n" else os

/-- The member `showHelp(os)`: the text written, and how the call ends.  It never returns:
it ends the process with status 0 or throws `HelpShown`. -/
def showHelp (p : ArgsParser) : Outcome Unit × String :=
  (if p.m_buse_exit then .exit 0 else .throw (.HelpShown "Help requested."), p.showHelpText)

/-- The member `checkShowHelp(id)`: its result, the state and the text written. -/
def checkShowHelp (p : ArgsParser) (id : Nat) : Outcome Bool × ArgsParser × String :=
  if id = p.m_help_id then
    let p := { p with m_map_args := [], m_map_values := [], m_set_args := [] }
    match p.showHelp with
    | (.ok (), out) => (.ok true, p, out)
    | (.throw e, out) => (.throw e, p, out)
    | (.exit c, out) => (.exit c, p, out)
    | (.undefined, out) => (.undefined, p, out)
  else (.ok false, p, "")

/-! ## Parsing -/

/-- The read `argv[k]` of an array holding `argc` strings: reading past the end is
undefined (`none`). -/
def argvAt (argc : Nat) (argv : List String) (k : Nat) : Option String :=
  if k < argc then argv[k]? else none

/-- The loop `for (j = 0; j < values.size(); ++j) values[j] = argv[i + j + 1]`, from `j` on:
the new slots, or `none` when a read is past the end of `argv`. -/
def copyValues (argc : Nat) (argv : List String) (i : Nat) :
    List String → Nat → Option (List String)
  | [], _ => some []
  | _ :: values, j =>
    match argvAt argc argv (i + j + 1) with
    | none => none
    | some v => (copyValues argc argv i values (j + 1)).map (v :: ·)

/-- How one iteration of the loop of `parse` ends: the loop goes on with the cursor `i`, or
the call ends there. -/
inductive Step where
  | next (p : ArgsParser) (i : Nat) (out : String)
  | stop (r : Result)
  deriving DecidableEq, Repr

/-- The `try` block of the loop of `parse` (source lines 143 to 167), for the token `sarg`
at the cursor `i`. -/
def parseTry (p : ArgsParser) (argc : Nat) (argv : List String) (i : Nat) (sarg : String) :
    Step :=
  match p.findArgID sarg with
  | .ok id =>
    match p.checkShowHelp id with
    | (.ok true, p, out) => .next p argc out
    | (.ok false, p, out) =>
      let p := { p with m_set_args := setInsert id p.m_set_args }
      -- `m_map_values[id]` adds an empty vector for a key that is missing
      let p :=
        match mapFind id p.m_map_values with
        | some _ => p
        | none => { p with m_map_values := mapAssign id [] p.m_map_values }
      let values := (mapFind id p.m_map_values).getD []
      if !values.isEmpty then
        if int_wrap ((i : Int) + static_cast_int values.length) ≥ (argc : Int) then
          .stop ⟨.throw (.logic_error
            ("Insufficient number of parameters for argument \"" ++ sarg ++ "\".")), p, out⟩
        else
          match copyValues argc argv i values 0 with
          | none => .stop ⟨.undefined, p, out⟩
          | some values =>
            -- the reads succeeded, so `i + values.size() < argc` and `i +=` does not wrap
            .next { p with m_map_values := mapAssign id values p.m_map_values }
              (i + values.length) out
      else .next p i out
    | (.throw e, p, out) => .stop ⟨.throw e, p, out⟩
    | (.exit c, p, out) => .stop ⟨.exit c, p, out⟩
    | (.undefined, p, out) => .stop ⟨.undefined, p, out⟩
  | .throw e => .stop ⟨.throw e, p, ""⟩
  | .exit c => .stop ⟨.exit c, p, ""⟩
  | .undefined => .stop ⟨.undefined, p, ""⟩

/-- One iteration of the loop of `parse` at the cursor `i < argc`: the `try` block, the
handler `catch (InvalidArgument &)` and the final `++i`. -/
def parseStep (p : ArgsParser) (argc : Nat) (argv : List String) (i : Nat) : Step :=
  match argvAt argc argv i with
  | none => .stop ⟨.undefined, p, ""⟩
  | some sarg =>
    match parseTry p argc argv i sarg with
    | .stop ⟨.throw (.InvalidArgument what), p, out⟩ =>
      if p.m_positional_values.length ≥ p.m_positional_args.length then
        .stop ⟨.throw (.InvalidArgument what), p, out⟩
      else
        .next { p with m_positional_values := p.m_positional_values ++ [sarg] } (i + 1) out
    | .stop r => .stop r
    | .next p i out => .next p (i + 1) out

/-- The loop `while (i < argc)` of `parse`, run for at most `fuel` iterations; `out` is the
text written so far.  Every iteration moves the cursor forward, so `argc - i` iterations
end the loop and the last case is not reached from `parse` (`parseLoop_fuel`). -/
def parseLoop (argc : Nat) (argv : List String) : Nat → ArgsParser → Nat → String → Result
  | fuel, p, i, out =>
    if i < argc then
      match fuel with
      | fuel + 1 =>
        match parseStep p argc argv i with
        | .next p i out' => parseLoop argc argv fuel p i (out ++ out')
        | .stop r => ⟨r.outcome, r.state, out ++ r.out⟩
      | 0 => ⟨.undefined, p, out⟩
    else ⟨.ok (), p, out⟩

/-- The call `std::filesystem::path(s).filename()`: what follows the last `/`. -/
def filename (s : String) : String :=
  String.mk (s.data.reverse.takeWhile (· ≠ '/')).reverse

/-- The lines 128 to 136 of `parse`: an empty program name is taken from `argv[0]` or, when
it still is empty, from `DefaultProgramName`. -/
def setProgramName (p : ArgsParser) (argc : Int) (argv : List String) (start_index : Int) :
    ArgsParser :=
  let p :=
    if p.m_program_name.isEmpty then
      if argc > 0 ∧ start_index > 0 then
        match argvAt argc.toNat argv 0 with
        | some a => { p with m_program_name := filename a }
        | none => p
      else p
    else p
  if p.m_program_name.isEmpty then { p with m_program_name := p.DefaultProgramName }
  else p

/-- The member `parse(argc, argv, start_index)`. -/
def parse (p : ArgsParser) (argc : Int) (argv : List String) (start_index : Int) : Result :=
  let start_index := if start_index < 0 then 0 else start_index
  let argc := if argc < 0 then 0 else argc
  if argc < start_index then ⟨.throw (.invalid_argument "Not enough arguments."), p, ""⟩
  else
    let p := setProgramName p argc argv start_index
    parseLoop argc.toNat argv (argc.toNat - start_index.toNat) p start_index.toNat ""

/-- The iterations of the loop of `parse`: the state and the cursor at the head of each
iteration that the loop runs, in order. -/
def parseTrace (argc : Nat) (argv : List String) :
    Nat → ArgsParser → Nat → List (ArgsParser × Nat)
  | fuel, p, i =>
    if i < argc then
      match fuel with
      | fuel + 1 =>
        (p, i) ::
          match parseStep p argc argv i with
          | .next p i _ => parseTrace argc argv fuel p i
          | .stop _ => []
      | 0 => []
    else []

/-- The iterations of the loop in the call `parse(argc, argv, start_index)`: the token
`argv[i]` is in option position, met by the loop in the state `s`, when `(s, i)` is in this
list. -/
def parseVisits (p : ArgsParser) (argc : Int) (argv : List String) (start_index : Int) :
    List (ArgsParser × Nat) :=
  let start_index := if start_index < 0 then 0 else start_index
  let argc := if argc < 0 then 0 else argc
  if argc < start_index then []
  else
    let p := setProgramName p argc argv start_index
    parseTrace argc.toNat argv (argc.toNat - start_index.toNat) p start_index.toNat

/-- The state once `checkShowHelp` has cleared the tables (source lines 342 to 344). -/
def cleared (p : ArgsParser) : ArgsParser :=
  { p with m_map_args := [], m_map_values := [], m_set_args := [] }

/-- The state once the loop of `parse` has marked the option `id` as passed and has looked
up `m_map_values[id]` (source lines 155 to 157). -/
def markPresent (p : ArgsParser) (id : Nat) : ArgsParser :=
  match mapFind id p.m_map_values with
  | some _ => { p with m_set_args := setInsert id p.m_set_args }
  | none =>
    { p with
      m_set_args := setInsert id p.m_set_args
      m_map_values := mapAssign id [] p.m_map_values }

/-- The text of the exception `InvalidArgument` that `findArgID(arg)` throws. -/
def invalidArgumentText (arg : String) : String := "Invalid argument: \"" ++ arg ++ "\"."

/-- The text of the `std::logic_error` that `parse` throws at the option `sarg`. -/
def insufficientText (sarg : String) : String :=
  "Insufficient number of parameters for argument \"" ++ sarg ++ "\"."

/-- How `showHelp` ends: with `std::exit(0)` or with the exception `HelpShown`. -/
def helpOutcome (p : ArgsParser) : Outcome Unit :=
  if p.m_buse_exit then .exit 0 else .throw (.HelpShown "Help requested.")

/-- The ways in which one iteration of the loop of `parse` ends, for the token at the
cursor `i`. -/
inductive StepCase (p : ArgsParser) (argv : List String) (i : Nat) : Step → Prop
  | reject (sarg : String) (hread : argv[i]? = some sarg)
      (h : mapFind sarg p.m_map_args = none)
      (hfull : p.m_positional_values.length ≥ p.m_positional_args.length) :
      StepCase p argv i (.stop ⟨.throw (.InvalidArgument (invalidArgumentText sarg)), p, ""⟩)
  | positional (sarg : String) (hread : argv[i]? = some sarg)
      (h : mapFind sarg p.m_map_args = none)
      (hroom : p.m_positional_values.length < p.m_positional_args.length) :
      StepCase p argv i
        (.next { p with m_positional_values := p.m_positional_values ++ [sarg] } (i + 1) "")
  | help (sarg : String) (hread : argv[i]? = some sarg)
      (h : mapFind sarg p.m_map_args = some p.m_help_id) :
      StepCase p argv i (.stop ⟨p.helpOutcome, p.cleared, p.cleared.showHelpText⟩)
  | flag (sarg : String) (id : Nat) (hread : argv[i]? = some sarg)
      (h : mapFind sarg p.m_map_args = some id) (hid : id ≠ p.m_help_id)
      (hvalues : (mapFind id (p.markPresent id).m_map_values).getD [] = []) :
      StepCase p argv i (.next (p.markPresent id) (i + 1) "")
  | insufficient (sarg : String) (id : Nat) (hread : argv[i]? = some sarg)
      (h : mapFind sarg p.m_map_args = some id) (hid : id ≠ p.m_help_id)
      (values : List String)
      (hvalues : mapFind id p.m_map_values = some values) (hne : values ≠ [])
      (hcheck : int_wrap ((i : Int) + static_cast_int values.length) ≥ (argv.length : Int)) :
      StepCase p argv i
        (.stop ⟨.throw (.logic_error (insufficientText sarg)), p.markPresent id, ""⟩)
  | overrun (sarg : String) (id : Nat) (hread : argv[i]? = some sarg)
      (h : mapFind sarg p.m_map_args = some id) (hid : id ≠ p.m_help_id)
      (values : List String)
      (hvalues : mapFind id p.m_map_values = some values) (hne : values ≠ [])
      (hcheck : ¬ int_wrap ((i : Int) + static_cast_int values.length) ≥ (argv.length : Int))
      (hpast : argv.length ≤ i + values.length) :
      StepCase p argv i (.stop ⟨.undefined, p.markPresent id, ""⟩)
  | values (sarg : String) (id : Nat) (hread : argv[i]? = some sarg)
      (h : mapFind sarg p.m_map_args = some id) (hid : id ≠ p.m_help_id)
      (values : List String)
      (hvalues : mapFind id p.m_map_values = some values) (hne : values ≠ [])
      (hcheck : ¬ int_wrap ((i : Int) + static_cast_int values.length) ≥ (argv.length : Int))
      (hfit : i + values.length < argv.length) :
      StepCase p argv i
        (.next { p with
            m_set_args := setInsert id p.m_set_args
            m_map_values := mapAssign id ((argv.drop (i + 1)).take values.length)
              p.m_map_values }
          (i + values.length + 1) "")

/-! ## Construction -/

/-- The aliases of the help option that the constructor registers. -/
def helpAliases : List String := ["-h", "/h", "\\h", "--help", "/help", "\\help"]

/-- The constructor `ArgsParser(bshow_help, description, epilogue, program_name, buse_exit,
margin_size, line_size)`, to which the two shorter constructors forward with empty strings.
The registration of the help option on the empty tables cannot throw. -/
def construct (bshow_help : Bool) (description epilogue program_name : String)
    (buse_exit : Bool) (margin_size line_size : Nat) (DefaultProgramName : String) :
    ArgsParser :=
  let p : ArgsParser :=
    { m_buse_exit := buse_exit
      m_margin_size := margin_size
      m_line_size := line_size
      m_help_id := SIZE_MAX
      m_program_name := program_name
      m_description := description
      m_epilogue := epilogue
      m_positional_args := []
      m_positional_values := []
      m_map_args := []
      m_map_values := []
      m_set_args := []
      m_map_help := []
      DefaultProgramName := DefaultProgramName }
  let p :=
    if !p.m_description.isEmpty then
      { p with m_description := fixHelpText p.m_description 0 p.m_line_size }
    else p
  let p :=
    if !p.m_epilogue.isEmpty then
      { p with m_epilogue := fixHelpText p.m_epilogue 0 p.m_line_size }
    else p
  if bshow_help then
    let help_text := (if p.m_margin_size ≤ 0 then blanks 4 else "") ++ "Shows this help."
    let p := (p.addArgument helpAliases 0 "" help_text).2
    match p.findArgID "-h" with
    | .ok id => { p with m_help_id := id }
    | _ => p
  else p

/-- The states a parser can be in: the states the constructor gives and the states that
the registrations and `parse`, called on `argc` tokens, leave behind, however these calls
end. -/
inductive Reachable : ArgsParser → Prop
  | construct (bshow_help : Bool) (description epilogue program_name : String)
      (buse_exit : Bool) (margin_size line_size : Nat) (DefaultProgramName : String) :
      Reachable (construct bshow_help description epilogue program_name buse_exit margin_size
        line_size DefaultProgramName)
  | addArgument (p : ArgsParser) (args : List String) (n : Nat)
      (params_help help_text : String) :
      Reachable p → Reachable (p.addArgument args n params_help help_text).2
  | addPositionalArgument (p : ArgsParser) (arg_name help_text : String) :
      Reachable p → Reachable (p.addPositionalArgument arg_name help_text).2
  | parse (p : ArgsParser) (argv : List String) (start_index : Int) :
      Reachable p → Reachable (p.parse argv.length argv start_index).state

/-- Whether a call of `parse` has shown help: it ended with `std::exit` or with the
exception `HelpShown`. -/
def helpShown (r : Result) : Bool :=
  match r.outcome with
  | .exit _ => true
  | .throw (.HelpShown _) => true
  | _ => false

/-- The parsers whose registrations all succeeded and on which help has not been triggered:
`Registered p k` says that the state `p` is reached from a constructed parser by `k`
successful registrations of options (the help option of the constructor counts), by
registrations of positional arguments and by calls of `parse` that did not show help. -/
inductive Registered : ArgsParser → Nat → Prop
  | construct (bshow_help : Bool) (description epilogue program_name : String)
      (buse_exit : Bool) (margin_size line_size : Nat) (DefaultProgramName : String) :
      Registered (construct bshow_help description epilogue program_name buse_exit margin_size
        line_size DefaultProgramName) (if bshow_help then 1 else 0)
  | addArgument (p : ArgsParser) (k : Nat) (args : List String) (n : Nat)
      (params_help help_text : String) :
      Registered p k → (p.addArgument args n params_help help_text).1 = .ok () →
      Registered (p.addArgument args n params_help help_text).2 (k + 1)
  | addPositionalArgument (p : ArgsParser) (k : Nat) (arg_name help_text : String) :
      Registered p k → Registered (p.addPositionalArgument arg_name help_text).2 k
  | parse (p : ArgsParser) (k : Nat) (argv : List String) (start_index : Int) :
      Registered p k → helpShown (p.parse argv.length argv start_index) = false →
      Registered (p.parse argv.length argv start_index).state k

/-- Only the aliases that the constructor registers for help are bound to the help
identifier.  This holds as long as help has not been triggered: once `checkShowHelp` has
cleared the tables, the next registration gets the identifier 0 of the help option again. -/
def helpExclusive (p : ArgsParser) : Prop :=
  ∀ e ∈ p.m_map_args, e.2 = p.m_help_id → e.1 ∈ helpAliases

instance (p : ArgsParser) : Decidable p.helpExclusive :=
  inferInstanceAs (Decidable (∀ e ∈ p.m_map_args, e.2 = p.m_help_id → e.1 ∈ helpAliases))

/-- The aliases of the help option are bound to the help identifier: the parser was
constructed with `bshow_help` and help has not been triggered, which clears the table. -/
def helpRegistered (p : ArgsParser) : Prop :=
  ∀ h ∈ helpAliases, mapFind h p.m_map_args = some p.m_help_id

instance (p : ArgsParser) : Decidable p.helpRegistered :=
  inferInstanceAs (Decidable (∀ h ∈ helpAliases, mapFind h p.m_map_args = some p.m_help_id))

/-- The identifiers in use are the first natural numbers: the keys of `m_map_values` are
`0`, ..., `m_map_values.size() - 1`, and an alias is bound to one of them or, after a
registration that failed or before the slot of the option is looked up, to
`m_map_values.size()`. -/
def contiguous (p : ArgsParser) : Prop :=
  p.m_map_values.map Prod.fst = List.range p.m_map_values.length ∧
    ∀ e ∈ p.m_map_args, e.2 ≤ p.m_map_values.length

/-- The states that follow the state `p0`: `Follows p0 avoid q` says that `q` is reached
from `p0` by registrations, whether they succeed or fail, and by calls of `parse`, whether
they succeed or fail by an exception, that do not show help.  With `avoid = some id` the
calls of `parse` moreover meet no token bound to the option `id`, so that this option is
not parsed. -/
inductive Follows (p0 : ArgsParser) (avoid : Option Nat) : ArgsParser → Prop
  | refl : Follows p0 avoid p0
  | addArgument (q : ArgsParser) (args : List String) (n : Nat)
      (params_help help_text : String) :
      Follows p0 avoid q → Follows p0 avoid (q.addArgument args n params_help help_text).2
  | addPositionalArgument (q : ArgsParser) (arg_name help_text : String) :
      Follows p0 avoid q → Follows p0 avoid (q.addPositionalArgument arg_name help_text).2
  | parse (q : ArgsParser) (argv : List String) (start_index : Int) :
      Follows p0 avoid q → helpShown (q.parse argv.length argv start_index) = false →
      (q.parse argv.length argv start_index).outcome ≠ .undefined →
      (∀ id, avoid = some id → ∀ e ∈ q.parseVisits argv.length argv start_index,
        ∀ t, argv[e.2]? = some t → mapFind t q.m_map_args ≠ some id) →
      Follows p0 avoid (q.parse argv.length argv start_index).state

/-! ## Parsers used as concrete inputs -/

/-- A parser without help option, with the two positional arguments `input` and `output`. -/
def positionalParser : ArgsParser :=
  let p := construct false "" "" "prog" false 0 80 "program"
  let p := (p.addPositionalArgument "input" "The input file.").2
  (p.addPositionalArgument "output" "The output file.").2

/-- A parser without help option, with the flag `--verbose`. -/
def flagParser : ArgsParser :=
  let p := construct false "" "" "prog" false 0 80 "program"
  (p.addArgument ["--verbose"] 0 "" "Be verbose.").2

/-- The parser with the flag `--verbose` once it has parsed the token `--verbose`. -/
def flagParserParsed : ArgsParser :=
  (flagParser.parse 1 ["--verbose"] 0).state

/-- The parser of the spec: help option, the positional arguments `input` and `output`, and
the flag `--verbose` of arity 0. -/
def verboseParser : ArgsParser :=
  let p := construct true "" "" "prog" false 0 80 "program"
  let p := (p.addPositionalArgument "input" "The input file.").2
  let p := (p.addPositionalArgument "output" "The output file.").2
  (p.addArgument ["--verbose"] 0 "" "Be verbose.").2

/-- The parser with the flag `--verbose` once the registration of `-v` and `--verbose`
has failed, `--verbose` being registered already. -/
def failedParser : ArgsParser :=
  (flagParser.addArgument ["-v", "--verbose"] 0 "" "Be verbose.").2

/-- The parser on which the registration of `-v` and `--verbose` has failed once the
option `--size` of one value is registered. -/
def failedParserSize : ArgsParser :=
  (failedParser.addArgument ["--size"] 1 "<n>" "The size.").2

/-- A parser constructed with the help option; help throws `HelpShown`. -/
def helpParser : ArgsParser :=
  construct true "" "" "prog" false 0 80 "program"

/-- The parser with the help option once `parse` has shown help for the token `--help`. -/
def helpParserShown : ArgsParser :=
  (helpParser.parse 1 ["--help"] 0).state

/-- A parser without help option, with the option `-x` registered with `2^32` value
slots. -/
def hugeArityParser : ArgsParser :=
  let p := construct false "" "" "prog" false 0 80 "program"
  (p.addArgument ["-x"] 4294967296 "" "").2

/-- A parser with the help option, the positional arguments `input` and `output`, the flag
`--verbose` (also `-v`) and the option `--size` of two values; help throws `HelpShown`. -/
def sampleParser : ArgsParser :=
  let p := construct true "A sample." "" "prog" false 0 80 "program"
  let p := (p.addPositionalArgument "input" "The input file.").2
  let p := (p.addPositionalArgument "output" "The output file.").2
  let p := (p.addArgument ["--verbose", "-v"] 0 "" "Be verbose.").2
  (p.addArgument ["--size"] 2 "<w> <h>" "The size.").2

end ArgsParser

end hebench

namespace hebench

/-! ## Lemmas on the containers -/

theorem mapFind_mapAssign {κ ν : Type} [DecidableEq κ] (k k' : κ) (v : ν)
    (m : List (κ × ν)) :
    mapFind k' (mapAssign k v m) = if k = k' then some v else mapFind k' m := by
  induction m with
  | nil => simp [mapAssign, mapFind]
  | cons e m ih =>
    obtain ⟨a, b⟩ := e
    by_cases h1 : a = k
    · subst h1
      by_cases h2 : a = k' <;> simp [mapAssign, mapFind, h2]
    · by_cases h2 : a = k'
      · subst h2
        have h3 : ¬ k = a := fun h => h1 h.symm
        simp [mapAssign, mapFind, h1, h3]
      · simp [mapAssign, mapFind, h1, h2, ih]

theorem mapFind_mapAssign_self {κ ν : Type} [DecidableEq κ] (k : κ) (v : ν)
    (m : List (κ × ν)) : mapFind k (mapAssign k v m) = some v := by
  simp [mapFind_mapAssign]

theorem mapFind_mapAssign_ne {κ ν : Type} [DecidableEq κ] {k k' : κ} (v : ν)
    (m : List (κ × ν)) (h : k ≠ k') : mapFind k' (mapAssign k v m) = mapFind k' m := by
  simp [mapFind_mapAssign, h]

theorem mem_setInsert (id x : Nat) (set : List Nat) :
    x ∈ setInsert id set ↔ x = id ∨ x ∈ set := by
  unfold setInsert
  split
  · constructor
    · intro h; exact Or.inr h
    · rintro (h | h)
      · subst h; assumption
      · exact h
  · simp [or_comm]

/-! ## Lemmas on `fixHelpText` -/

theorem find_first_of_eq_none (chars s : List Char) (h : ∀ c ∈ s, c ∉ chars) :
    find_first_of chars s = none := by
  induction s with
  | nil => rfl
  | cons c s ih =>
    have hc : c ∉ chars := h c (List.mem_cons_self _ _)
    have hs := ih (fun d hd => h d (List.mem_cons_of_mem _ hd))
    simp [find_first_of, hc, hs]

theorem find_last_of_eq_none (chars s : List Char) (h : ∀ c ∈ s, c ∉ chars) :
    find_last_of chars s = none := by
  induction s with
  | nil => rfl
  | cons c s ih =>
    have hc : c ∉ chars := h c (List.mem_cons_self _ _)
    have hs := ih (fun d hd => h d (List.mem_cons_of_mem _ hd))
    simp [find_last_of, hc, hs]

theorem find_newline_eq_none (s : List Char) (h : '\n' ∉ s) : find ['\n'] s = none := by
  induction s with
  | nil => simp [find]
  | cons c s ih =>
    have hc : ¬ '\n' = c := fun e => h (e ▸ List.mem_cons_self _ _)
    have hs := ih (fun hd => h (List.mem_cons_of_mem _ hd))
    simp [find, hc, hs]

/-- A non-empty text without a line break is a single original line. -/
theorem tokenize_single (s : List Char) (hne : s ≠ []) (h : '\n' ∉ s) :
    tokenize s ['\n'] = [s] := by
  cases s with
  | nil => exact absurd rfl hne
  | cons c s =>
    have hf := find_newline_eq_none (c :: s) h
    unfold tokenize
    simp only [List.length_cons, tokenizeLoop, tokenizeStep, hf, List.isEmpty_cons,
      List.nil_append]
    simp only [← List.length_cons (a := c), List.take_length, List.drop_length,
      List.isEmpty_nil]
    cases s.length <;> simp [tokenizeLoop]

/-- When the whole of a non-empty original line is cut as one line, the inner loop writes
the margin and the line, once. -/
theorem fixLoop_whole (margin_size actual_line_size : Nat) (token retval : List Char)
    (b : Bool) (hne : token ≠ []) (hcut : cutLine actual_line_size token = token) :
    fixLoop margin_size actual_line_size token.length token b retval
      = (if b then retval else retval ++ ['\n'])
        ++ (List.replicate margin_size ' ' ++ token) := by
  cases token with
  | nil => exact absurd rfl hne
  | cons c s =>
    simp only [List.length_cons, fixLoop, List.isEmpty_cons, hcut, dropLine]
    simp only [← List.length_cons (a := c), List.drop_length, find_first_of]
    cases s.length <;> simp [fixLoop]

/-- A non-empty text without a line break whose only cut is the whole text comes back as
the margin followed by the text. -/
theorem fixHelpText_whole (text : String) (margin_size line_size : Nat)
    (hne : text ≠ "") (hnl : '\n' ∉ text.data)
    (hcut : ∀ w, w = (if line_size > 0 then size_t_sub line_size margin_size else 0) →
      cutLine w text.data = text.data) :
    fixHelpText text margin_size line_size
      = String.mk (List.replicate margin_size ' ' ++ text.data) := by
  have hne' : text.data ≠ [] := by
    intro h
    apply hne
    cases text
    simp_all
  unfold fixHelpText
  simp only [tokenize_single _ hne' hnl, fixTokens]
  rw [fixLoop_whole _ _ _ _ _ hne' (hcut _ rfl)]
  simp

theorem cutLine_short (w : Nat) (token : List Char) (h : token.length ≤ w) :
    cutLine w token = token := by
  simp [cutLine, h]

theorem cutLine_no_blank (w : Nat) (token : List Char) (h : ∀ c ∈ token, c ∉ BlankTrim) :
    cutLine w token = token := by
  unfold cutLine
  split
  · rfl
  · have h1 : find_last_of BlankTrim (substr0 token (some w)) = none :=
      find_last_of_eq_none _ _ (fun c hc => h c (List.mem_of_mem_take hc))
    simp only [substr0] at h1
    simp only [h1, find_first_of_eq_none _ _ h, substr0]

theorem size_t_sub_of_lt (a b : Nat) (hab : b < a) (ha : a < 2 ^ 64) :
    size_t_sub a b = a - b := by
  unfold size_t_sub
  have hb : b < 2 ^ 64 := lt_trans hab ha
  rw [Nat.mod_eq_of_lt ha, Nat.mod_eq_of_lt hb]
  have : a + 2 ^ 64 - b = (a - b) + 2 ^ 64 := by omega
  rw [this, Nat.add_mod_right]
  exact Nat.mod_eq_of_lt (by omega)

/-! ## The fuel of the loops of `tokenize` and `fixHelpText` -/

theorem find_first_of_zero_iff (chars : List Char) (c : Char) (s : List Char) :
    find_first_of chars (c :: s) = some 0 ↔ c ∈ chars := by
  unfold find_first_of
  by_cases h : c ∈ chars
  · simp [h]
  · simp only [h, if_false, iff_false]
    cases find_first_of chars s <;> simp

theorem find_first_of_lt (chars s : List Char) (p : Nat)
    (h : find_first_of chars s = some p) : p < s.length := by
  induction s generalizing p with
  | nil => simp [find_first_of] at h
  | cons c s ih =>
    unfold find_first_of at h
    by_cases hc : c ∈ chars
    · rw [if_pos hc] at h
      cases h
      simp
    · rw [if_neg hc] at h
      cases hf : find_first_of chars s with
      | none => rw [hf] at h; cases h
      | some q =>
        rw [hf] at h
        simp only [Option.map_some', Option.some.injEq] at h
        have := ih q hf
        simp only [List.length_cons]
        omega

theorem find_last_of_some (chars s : List Char) (b : Nat)
    (h : find_last_of chars s = some b) : ∃ c, s[b]? = some c ∧ c ∈ chars := by
  induction s generalizing b with
  | nil => simp [find_last_of] at h
  | cons c s ih =>
    unfold find_last_of at h
    cases hf : find_last_of chars s with
    | some q =>
      rw [hf] at h
      simp only [Option.some.injEq] at h
      obtain ⟨d, hd, hdc⟩ := ih q hf
      exact ⟨d, by rw [← h]; simpa using hd, hdc⟩
    | none =>
      rw [hf] at h
      by_cases hc : c ∈ chars
      · simp only [hc, if_true, Option.some.injEq] at h
        exact ⟨c, by rw [← h]; simp, hc⟩
      · simp [hc] at h

/-- Every iteration of the inner loop of `fixHelpText` shortens what is left of the line:
the line cut off is not empty, or it is empty and one blank is removed. -/
theorem dropLine_cutLine_lt (w : Nat) (token : List Char) (hne : token ≠ []) :
    (dropLine token (cutLine w token)).length < token.length := by
  have hpos : 0 < token.length := List.length_pos.mpr hne
  have hwhole : (dropLine token token).length < token.length := by
    simp [dropLine, find_first_of, hpos]
  have hdrop : ∀ line : List Char, 1 ≤ line.length → line.length ≤ token.length →
      (dropLine token line).length < token.length := by
    intro line h1 h2
    unfold dropLine
    simp only
    split
    · simp only [List.length_drop]; omega
    · simp only [List.length_drop]; omega
  unfold cutLine
  split
  · exact hwhole
  · rename_i hcond
    have hw : 1 ≤ w ∧ w < token.length := by omega
    simp only [substr0]
    cases hl : find_last_of BlankTrim (token.take w) with
    | none =>
      simp only
      cases hf : find_first_of BlankTrim token with
      | none => exact hwhole
      | some p =>
        have hp := find_first_of_lt _ _ _ hf
        have hp1 : 1 ≤ p := by
          cases token with
          | nil => exact absurd rfl hne
          | cons c s =>
            by_contra h0
            have hp0 : p = 0 := by omega
            rw [hp0] at hf
            have hc := (find_first_of_zero_iff _ _ _).mp hf
            have hnone := hl
            rw [show w = (w - 1) + 1 by omega, List.take_succ_cons] at hnone
            unfold find_last_of at hnone
            cases hq : find_last_of BlankTrim (List.take (w - 1) s) with
            | some q => rw [hq] at hnone; cases hnone
            | none => rw [hq] at hnone; simp [hc] at hnone
        exact hdrop _ (by simp only [List.length_take]; omega)
          (by simp only [List.length_take]; omega)
    | some b =>
      simp only
      obtain ⟨c, hc, hcb⟩ := find_last_of_some _ _ _ hl
      have hb : b < w := by
        have := (List.getElem?_eq_some.mp hc).1
        simp only [List.length_take] at this
        omega
      by_cases hb0 : b = 0
      · subst hb0
        cases token with
        | nil => exact absurd rfl hne
        | cons d s =>
          rw [show w = (w - 1) + 1 by omega, List.take_succ_cons] at hc
          simp only [List.getElem?_cons_zero, Option.some.injEq] at hc
          subst hc
          have hz := (find_first_of_zero_iff BlankTrim d s).mpr hcb
          simp [dropLine, hz]
      · exact hdrop _ (by simp only [List.length_take]; omega)
          (by simp only [List.length_take]; omega)

/-- The inner loop of `fixHelpText` ends before its fuel does: with at least as much fuel as
the line has characters, the text written does not depend on the fuel. -/
theorem fixLoop_fuel (margin_size actual_line_size : Nat) :
    ∀ n (token : List Char), token.length ≤ n → ∀ fuel fuel' b retval,
      token.length ≤ fuel → token.length ≤ fuel' →
      fixLoop margin_size actual_line_size fuel token b retval
        = fixLoop margin_size actual_line_size fuel' token b retval := by
  intro n
  induction n with
  | zero =>
    intro token hn fuel fuel' b retval _ _
    have : token = [] := List.length_eq_zero.mp (by omega)
    subst this
    cases fuel <;> cases fuel' <;> simp [fixLoop]
  | succ n ih =>
    intro token hn fuel fuel' b retval h1 h2
    cases token with
    | nil => cases fuel <;> cases fuel' <;> simp [fixLoop]
    | cons c s =>
      have hlt := dropLine_cutLine_lt actual_line_size (c :: s) (by simp)
      cases fuel with
      | zero => simp at h1
      | succ fuel =>
        cases fuel' with
        | zero => simp at h2
        | succ fuel' =>
          simp only [fixLoop, List.isEmpty_cons, Bool.false_eq_true, if_false]
          simp only [List.length_cons] at hlt hn h1 h2
          exact ih _ (by omega) fuel fuel' _ _ (by omega) (by omega)

/-- Every iteration of the loop of `tokenize` shortens its input, for a delimiter that is
not empty. -/
theorem tokenizeStep_lt (s delim : List Char) (hs : s ≠ []) (hd : delim ≠ []) :
    (tokenizeStep s delim).2.length < s.length := by
  have hpos : 0 < s.length := List.length_pos.mpr hs
  have hdpos : 0 < delim.length := List.length_pos.mpr hd
  unfold tokenizeStep
  simp only
  split
  · rename_i h
    rw [List.isEmpty_iff.mp h]
    exact hpos
  · simp only [List.length_drop]
    omega

/-- The loop of `tokenize` ends before its fuel does. -/
theorem tokenizeLoop_fuel (delim : List Char) (hd : delim ≠ []) :
    ∀ n (s : List Char), s.length ≤ n → ∀ fuel fuel' retval,
      s.length ≤ fuel → s.length ≤ fuel' →
      tokenizeLoop delim fuel s retval = tokenizeLoop delim fuel' s retval := by
  intro n
  induction n with
  | zero =>
    intro s hn fuel fuel' retval _ _
    have : s = [] := List.length_eq_zero.mp (by omega)
    subst this
    cases fuel <;> cases fuel' <;> simp [tokenizeLoop]
  | succ n ih =>
    intro s hn fuel fuel' retval h1 h2
    cases s with
    | nil => cases fuel <;> cases fuel' <;> simp [tokenizeLoop]
    | cons c t =>
      have hlt := tokenizeStep_lt (c :: t) delim (by simp) hd
      cases fuel with
      | zero => simp at h1
      | succ fuel =>
        cases fuel' with
        | zero => simp at h2
        | succ fuel' =>
          simp only [tokenizeLoop, List.isEmpty_cons, Bool.false_eq_true, if_false]
          simp only [List.length_cons] at hlt hn h1 h2
          exact ih _ (by omega) fuel fuel' _ (by omega) (by omega)

/-- What is left of an original line is empty after as many iterations of the inner loop of
`fixHelpText` as the line has characters. -/
theorem fixLoopRest_nil (w : Nat) : ∀ fuel (token : List Char), token.length ≤ fuel →
    fixLoopRest w fuel token = [] := by
  intro fuel
  induction fuel with
  | zero =>
    intro token h
    have : token = [] := List.length_eq_zero.mp (by omega)
    subst this
    rfl
  | succ fuel ih =>
    intro token h
    cases token with
    | nil => rfl
    | cons c s =>
      have hlt := dropLine_cutLine_lt w (c :: s) (by simp)
      simp only [fixLoopRest, List.isEmpty_cons, Bool.false_eq_true, if_false]
      exact ih _ (by simp only [List.length_cons] at h hlt; omega)

/-- What is left of the input of `tokenize` is empty after as many iterations as the input
has characters, for a delimiter that is not empty. -/
theorem tokenizeLoopRest_nil (delim : List Char) (hd : delim ≠ []) :
    ∀ fuel (s : List Char), s.length ≤ fuel → tokenizeLoopRest delim fuel s = [] := by
  intro fuel
  induction fuel with
  | zero =>
    intro s h
    have : s = [] := List.length_eq_zero.mp (by omega)
    subst this
    rfl
  | succ fuel ih =>
    intro s h
    cases s with
    | nil => rfl
    | cons c t =>
      have hlt := tokenizeStep_lt (c :: t) delim (by simp) hd
      simp only [tokenizeLoopRest, List.isEmpty_cons, Bool.false_eq_true, if_false]
      exact ih _ (by simp only [List.length_cons] at h hlt; omega)

/-! ## The lines that `fixHelpText` writes -/

theorem fixLoop_eq (m w : Nat) : ∀ fuel token b retval,
    fixLoop m w fuel token b retval
      = retval ++ joinLines b ((cutLines w fuel token).map (List.replicate m ' ' ++ ·)) := by
  intro fuel
  induction fuel with
  | zero => intro token b retval; simp [fixLoop, cutLines, joinLines]
  | succ fuel ih =>
    intro token b retval
    cases token with
    | nil => simp [fixLoop, cutLines, joinLines]
    | cons c s =>
      simp only [fixLoop, cutLines, List.isEmpty_cons, Bool.false_eq_true, if_false,
        List.map_cons, joinLines]
      rw [ih]
      cases b <;> simp

theorem fixTokens_eq (m w : Nat) : ∀ tokens started retval,
    fixTokens m w tokens started retval
      = retval ++ joinLines (!started) (tokens.map (fun t =>
          joinLines true ((cutLines w t.length t).map (List.replicate m ' ' ++ ·)))) := by
  intro tokens
  induction tokens with
  | nil => intro started retval; simp [fixTokens, joinLines]
  | cons t ts ih =>
    intro started retval
    simp only [fixTokens, List.map_cons, joinLines]
    rw [ih, fixLoop_eq]
    cases started <;> simp

theorem intercalate_cons_cons (sep x y : List Char) (ys : List (List Char)) :
    List.intercalate sep (x :: y :: ys) = x ++ sep ++ List.intercalate sep (y :: ys) := by
  simp [List.intercalate, List.intersperse]

theorem joinLines_false (ls : List (List Char)) :
    joinLines false ls = (ls.map (fun l => '\n' :: l)).flatten := by
  induction ls with
  | nil => rfl
  | cons l ls ih => simp [joinLines, ih]

theorem joinLines_true (ls : List (List Char)) :
    joinLines true ls = List.intercalate ['\n'] ls := by
  cases ls with
  | nil => rfl
  | cons l ls =>
    simp only [joinLines, if_true, List.nil_append]
    induction ls generalizing l with
    | nil => simp [joinLines, List.intercalate, List.intersperse]
    | cons k ks ih =>
      rw [intercalate_cons_cons, ← ih k]
      simp [joinLines]

theorem tokenizeLoop_acc (delim : List Char) : ∀ fuel s retval,
    tokenizeLoop delim fuel s retval = retval ++ tokenizeLoop delim fuel s [] := by
  intro fuel
  induction fuel with
  | zero => intro s retval; simp [tokenizeLoop]
  | succ fuel ih =>
    intro s retval
    cases s with
    | nil => simp [tokenizeLoop]
    | cons c t =>
      simp only [tokenizeLoop, List.isEmpty_cons, Bool.false_eq_true, if_false, List.nil_append]
      rw [ih, ih _ [_]]
      simp

theorem find_newline_pos (s : List Char) :
    (find ['\n'] s).getD s.length = (s.takeWhile (· != '\n')).length := by
  induction s with
  | nil => simp [find]
  | cons c s ih =>
    by_cases hc : c = '\n'
    · subst hc
      simp [find, List.isPrefixOf]
    · have hc' : ¬ '\n' = c := fun e => hc e.symm
      have : (c != '\n') = true := by simpa using hc
      simp only [find, List.isPrefixOf, List.takeWhile_cons, this, if_true, List.length_cons]
      rw [← ih]
      cases find ['\n'] s <;> simp [hc']

theorem tokenizeStep_newline (s : List Char) :
    tokenizeStep s ['\n']
      = (s.takeWhile (· != '\n'), (s.dropWhile (· != '\n')).drop 1) := by
  have hs := List.takeWhile_append_dropWhile (· != '\n') s
  have h1 := @List.take_left _ (s.takeWhile (· != '\n')) (s.dropWhile (· != '\n'))
  have h2 := @List.drop_left _ (s.takeWhile (· != '\n')) (s.dropWhile (· != '\n'))
  rw [hs] at h1 h2
  have hp := find_newline_pos s
  unfold tokenizeStep
  cases hf : find ['\n'] s with
  | none =>
    rw [hf] at hp
    simp only [Option.getD_none] at hp
    simp only [hp, h1, h2]
    cases s.dropWhile (· != '\n') <;> simp
  | some p =>
    rw [hf] at hp
    simp only [Option.getD_some] at hp
    simp only [hp, h1, h2]
    cases s.dropWhile (· != '\n') <;> simp

theorem tokenize_nil : tokenize [] ['\n'] = [] := rfl

theorem tokenize_ne_nil (s : List Char) (hs : s ≠ []) :
    tokenize s ['\n']
      = s.takeWhile (· != '\n') :: tokenize ((s.dropWhile (· != '\n')).drop 1) ['\n'] := by
  cases s with
  | nil => exact absurd rfl hs
  | cons c t =>
    have hlt := tokenizeStep_lt (c :: t) ['\n'] (by simp) (by simp)
    unfold tokenize
    simp only [List.length_cons, tokenizeLoop, List.isEmpty_cons, Bool.false_eq_true, if_false,
      List.nil_append]
    rw [tokenizeLoop_acc]
    simp only [List.length_cons] at hlt
    rw [tokenizeLoop_fuel ['\n'] (by simp) _ _ (le_refl _) t.length
      (tokenizeStep (c :: t) ['\n']).2.length [] (by omega) (le_refl _)]
    rw [tokenizeStep_newline]
    simp

theorem find_first_of_some (chars s : List Char) (p : Nat)
    (h : find_first_of chars s = some p) :
    (∃ c, s[p]? = some c ∧ c ∈ chars) ∧ ∀ d ∈ s.take p, d ∉ chars := by
  induction s generalizing p with
  | nil => simp [find_first_of] at h
  | cons c s ih =>
    unfold find_first_of at h
    by_cases hc : c ∈ chars
    · rw [if_pos hc] at h
      cases h
      exact ⟨⟨c, by simp, hc⟩, by simp⟩
    · rw [if_neg hc] at h
      cases hf : find_first_of chars s with
      | none => rw [hf] at h; cases h
      | some q =>
        rw [hf] at h
        simp only [Option.map_some', Option.some.injEq] at h
        subst h
        obtain ⟨⟨d, hd, hdc⟩, hall⟩ := ih q hf
        refine ⟨⟨d, by simpa using hd, hdc⟩, ?_⟩
        intro e he
        simp only [List.take_succ_cons, List.mem_cons] at he
        rcases he with rfl | he
        · exact hc
        · exact hall e he

theorem find_first_of_none (chars s : List Char) (h : find_first_of chars s = none) :
    ∀ c ∈ s, c ∉ chars := by
  induction s with
  | nil => simp
  | cons c s ih =>
    unfold find_first_of at h
    by_cases hc : c ∈ chars
    · rw [if_pos hc] at h; cases h
    · rw [if_neg hc] at h
      have hs : find_first_of chars s = none := by
        cases hf : find_first_of chars s with
        | none => rfl
        | some q => rw [hf] at h; cases h
      intro d hd
      rcases List.mem_cons.mp hd with rfl | hd
      · exact hc
      · exact ih hs d hd

/-- The line cut off an original line is a prefix of it, and what follows the cut is the
end of the original line or a blank. -/
theorem cutLine_split (w : Nat) (token : List Char) :
    ∃ rest, token = cutLine w token ++ rest
      ∧ (rest = [] ∨ ∃ c r, rest = c :: r ∧ c ∈ BlankTrim)
      ∧ dropLine token (cutLine w token) = rest.drop 1 := by
  have key : ∀ k c, token[k]? = some c → c ∈ BlankTrim →
      ∃ rest, token = token.take k ++ rest
        ∧ (rest = [] ∨ ∃ c r, rest = c :: r ∧ c ∈ BlankTrim)
        ∧ dropLine token (token.take k) = rest.drop 1 := by
    intro k c hk hc
    have hlt : k < token.length := (List.getElem?_eq_some.mp hk).1
    have hd : token.drop k = c :: token.drop (k + 1) := by
      rw [List.drop_eq_getElem_cons hlt]
      congr 1
      have := (List.getElem?_eq_some.mp hk).2
      exact this
    refine ⟨token.drop k, (List.take_append_drop _ _).symm, Or.inr ⟨c, _, hd, hc⟩, ?_⟩
    unfold dropLine
    simp only [List.length_take, Nat.min_eq_left (le_of_lt hlt)]
    rw [hd, (find_first_of_zero_iff BlankTrim c _).mpr hc]
    simp
  have whole : ∃ rest, token = token ++ rest
      ∧ (rest = [] ∨ ∃ c r, rest = c :: r ∧ c ∈ BlankTrim)
      ∧ dropLine token token = rest.drop 1 :=
    ⟨[], by simp, Or.inl rfl, by simp [dropLine, find_first_of]⟩
  unfold cutLine
  split
  · exact whole
  · rename_i hcond
    simp only [substr0]
    cases hl : find_last_of BlankTrim (token.take w) with
    | none =>
      simp only
      cases hf : find_first_of BlankTrim token with
      | none => exact whole
      | some p =>
        obtain ⟨⟨c, hc, hcb⟩, _⟩ := find_first_of_some _ _ _ hf
        exact key p c hc hcb
    | some b =>
      simp only
      obtain ⟨c, hc, hcb⟩ := find_last_of_some _ _ _ hl
      have hb : b < w := by
        have := (List.getElem?_eq_some.mp hc).1
        simp only [List.length_take] at this
        omega
      have hc' : token[b]? = some c := by
        rw [List.getElem?_take] at hc
        simpa [hb] using hc
      have ht : (token.take w).take b = token.take b := by
        rw [List.take_take, Nat.min_eq_left (le_of_lt hb)]
      rw [ht]
      exact key b c hc' hcb

/-- A line cut for a width of at least one fits the width, or it is one word without a
blank that is longer than the width. -/
theorem cutLine_width (w : Nat) (token : List Char) (hw : 1 ≤ w) :
    (cutLine w token).length ≤ w
      ∨ ((∀ c ∈ cutLine w token, c ∉ BlankTrim) ∧ w < (cutLine w token).length) := by
  unfold cutLine
  split
  · rename_i hcond
    exact Or.inl (by omega)
  · simp only [substr0]
    cases hl : find_last_of BlankTrim (token.take w) with
    | none =>
      simp only
      cases hf : find_first_of BlankTrim token with
      | none =>
        simp only
        by_cases h : token.length ≤ w
        · exact Or.inl h
        · exact Or.inr ⟨find_first_of_none _ _ hf, by omega⟩
      | some p =>
        simp only
        obtain ⟨_, hall⟩ := find_first_of_some _ _ _ hf
        by_cases h : (token.take p).length ≤ w
        · exact Or.inl h
        · exact Or.inr ⟨hall, by omega⟩
    | some b =>
      simp only
      obtain ⟨c, hc, hcb⟩ := find_last_of_some _ _ _ hl
      have := (List.getElem?_eq_some.mp hc).1
      simp only [List.length_take] at this
      refine Or.inl ?_
      simp only [List.length_take]
      omega

/-! ## The words of the text that `fixHelpText` writes -/

theorem wordsFrom_append_blank (x y : List Char) (c : Char) (hc : c ∈ BlankTrim) :
    ∀ word, wordsFrom (x ++ c :: y) word = wordsFrom x word ++ words y := by
  induction x with
  | nil =>
    intro word
    simp only [List.nil_append, wordsFrom, hc, if_true, words]
    split <;> simp
  | cons d x ih =>
    intro word
    simp only [List.cons_append, wordsFrom]
    split
    · split
      · exact ih _
      · simp only [List.append_eq, ih, List.cons_append]
    · exact ih _

theorem words_append_blank (x y : List Char) (c : Char) (hc : c ∈ BlankTrim) :
    words (x ++ c :: y) = words x ++ words y :=
  wordsFrom_append_blank x y c hc []

theorem words_blank_cons (y : List Char) (c : Char) (hc : c ∈ BlankTrim) :
    words (c :: y) = words y := by
  simp [words, wordsFrom, hc]

theorem words_append_of (x rest : List Char)
    (h : rest = [] ∨ ∃ c r, rest = c :: r ∧ c ∈ BlankTrim) :
    words (x ++ rest) = words x ++ words rest := by
  rcases h with rfl | ⟨c, r, rfl, hc⟩
  · simp [words, wordsFrom]
  · rw [words_append_blank x r c hc, words_blank_cons r c hc]

theorem words_replicate (m : Nat) (y : List Char) :
    words (List.replicate m ' ' ++ y) = words y := by
  induction m with
  | zero => simp
  | succ m ih =>
    rw [List.replicate_succ, List.cons_append, words_blank_cons _ _ (by decide), ih]

theorem joinLines_false_head (ls : List (List Char)) :
    joinLines false ls = [] ∨ ∃ c r, joinLines false ls = c :: r ∧ c ∈ BlankTrim := by
  cases ls with
  | nil => exact Or.inl rfl
  | cons l ls => exact Or.inr ⟨'\n', l ++ joinLines false ls, by simp [joinLines], by decide⟩

theorem words_joinLines (ls : List (List Char)) :
    ∀ b, words (joinLines b ls) = (ls.map words).flatten := by
  induction ls with
  | nil => intro b; simp [joinLines, words, wordsFrom]
  | cons l ls ih =>
    intro b
    have h : words (l ++ joinLines false ls) = words l ++ (ls.map words).flatten := by
      rw [words_append_of _ _ (joinLines_false_head ls), ih]
    cases b
    · simp only [joinLines, Bool.false_eq_true, if_false, List.append_assoc,
        List.singleton_append, List.map_cons, List.flatten_cons]
      rw [← h]
      exact words_blank_cons _ '\n' (by decide)
    · simp only [joinLines, if_true, List.nil_append, List.map_cons, List.flatten_cons]
      exact h

theorem words_cutLines (w : Nat) : ∀ fuel (token : List Char), token.length ≤ fuel →
    ((cutLines w fuel token).map words).flatten = words token := by
  intro fuel
  induction fuel with
  | zero =>
    intro token h
    have : token = [] := List.length_eq_zero.mp (by omega)
    subst this
    simp [cutLines, words, wordsFrom]
  | succ fuel ih =>
    intro token h
    cases token with
    | nil => simp [cutLines, words, wordsFrom]
    | cons c s =>
      have hlt := dropLine_cutLine_lt w (c :: s) (by simp)
      obtain ⟨rest, hsplit, hrest, hdrop⟩ := cutLine_split w (c :: s)
      simp only [cutLines, List.isEmpty_cons, Bool.false_eq_true, if_false, List.map_cons,
        List.flatten_cons]
      rw [ih _ (by simp only [List.length_cons] at h hlt; omega), hdrop]
      conv_rhs => rw [hsplit]
      rcases hrest with rfl | ⟨d, r, rfl, hd⟩
      · simp [words, wordsFrom]
      · rw [words_append_blank _ _ _ hd]
        simp

theorem dropWhile_newline (s : List Char) :
    s.dropWhile (· != '\n') = [] ∨ ∃ r, s.dropWhile (· != '\n') = '\n' :: r := by
  induction s with
  | nil => exact Or.inl rfl
  | cons c s ih =>
    by_cases hc : c = '\n'
    · subst hc
      exact Or.inr ⟨s, by simp⟩
    · have : (c != '\n') = true := by simpa using hc
      rw [List.dropWhile_cons, if_pos this]
      exact ih

theorem drop_dropWhile_lt (s : List Char) (hs : s ≠ []) :
    ((s.dropWhile (· != '\n')).drop 1).length < s.length := by
  have := tokenizeStep_lt s ['\n'] hs (by simp)
  rwa [tokenizeStep_newline] at this

theorem words_tokenize : ∀ n (s : List Char), s.length ≤ n →
    ((tokenize s ['\n']).map words).flatten = words s := by
  intro n
  induction n with
  | zero =>
    intro s h
    have : s = [] := List.length_eq_zero.mp (by omega)
    subst this
    simp [tokenize, tokenizeLoop, words, wordsFrom]
  | succ n ih =>
    intro s h
    by_cases hs : s = []
    · subst hs
      simp [tokenize, tokenizeLoop, words, wordsFrom]
    · have hlt := drop_dropWhile_lt s hs
      rw [tokenize_ne_nil s hs]
      simp only [List.map_cons, List.flatten_cons]
      rw [ih _ (by omega)]
      conv_rhs => rw [← List.takeWhile_append_dropWhile (· != '\n') s]
      rcases dropWhile_newline s with h0 | ⟨r, hr⟩
      · rw [h0]; simp [words, wordsFrom]
      · rw [hr, words_append_blank _ _ _ (by decide)]
        simp

/-! ## The text of `fixHelpText` split at its line breaks -/

theorem intercalate_append (sep : List Char) : ∀ (xs ys : List (List Char)), xs ≠ [] → ys ≠ [] →
    List.intercalate sep (xs ++ ys)
      = List.intercalate sep xs ++ sep ++ List.intercalate sep ys := by
  intro xs
  induction xs with
  | nil => intro ys h; exact absurd rfl h
  | cons x xs ih =>
    intro ys _ hys
    cases xs with
    | nil =>
      cases ys with
      | nil => exact absurd rfl hys
      | cons y ys => simp [intercalate_cons_cons, List.intercalate, List.intersperse]
    | cons z zs =>
      rw [List.cons_append, List.cons_append, intercalate_cons_cons, ← List.cons_append,
        ih ys (by simp) hys, intercalate_cons_cons]
      simp

theorem mem_tokenize : ∀ n (s : List Char), s.length ≤ n → ∀ t ∈ tokenize s ['\n'],
    '\n' ∉ t ∧ t.length ≤ s.length := by
  intro n
  induction n with
  | zero =>
    intro s h t ht
    have : s = [] := List.length_eq_zero.mp (by omega)
    subst this
    simp [tokenize, tokenizeLoop] at ht
  | succ n ih =>
    intro s h t ht
    by_cases hs : s = []
    · subst hs
      simp [tokenize, tokenizeLoop] at ht
    · have hlt := drop_dropWhile_lt s hs
      rw [tokenize_ne_nil s hs] at ht
      rcases List.mem_cons.mp ht with rfl | ht
      · constructor
        · intro hmem
          have := List.mem_takeWhile_imp hmem
          simp at this
        · have := congrArg List.length (List.takeWhile_append_dropWhile (· != '\n') s)
          simp only [List.length_append] at this
          omega
      · have := ih _ (by omega) t ht
        exact ⟨this.1, by omega⟩

theorem mem_cutLines (w : Nat) : ∀ fuel (token line : List Char),
    line ∈ cutLines w fuel token →
    ∃ rest, rest ≠ [] ∧ line = cutLine w rest ∧ ∀ c ∈ rest, c ∈ token := by
  intro fuel
  induction fuel with
  | zero => intro token line h; simp [cutLines] at h
  | succ fuel ih =>
    intro token line h
    cases token with
    | nil => simp [cutLines] at h
    | cons c s =>
      simp only [cutLines, List.isEmpty_cons, Bool.false_eq_true, if_false,
        List.mem_cons] at h
      rcases h with rfl | h
      · exact ⟨c :: s, by simp, rfl, fun _ h => h⟩
      · obtain ⟨rest, hne, hline, hsub⟩ := ih _ _ h
        refine ⟨rest, hne, hline, ?_⟩
        intro d hd
        obtain ⟨r, hsplit, _, hdrop⟩ := cutLine_split w (c :: s)
        have := hsub d hd
        rw [hdrop] at this
        rw [hsplit]
        exact List.mem_append_right _ (List.mem_of_mem_drop this)

theorem cutLine_subset (w : Nat) (token : List Char) : ∀ c ∈ cutLine w token, c ∈ token := by
  intro c hc
  obtain ⟨r, hsplit, _, _⟩ := cutLine_split w token
  rw [hsplit]
  exact List.mem_append_left _ hc

theorem intercalate_flatten (sep : List Char) (L : List (List (List Char))) :
    List.intercalate sep (L.map (List.intercalate sep))
      = List.intercalate sep (L.map (fun ls => if ls = [] then [[]] else ls)).flatten := by
  have happ := intercalate_append sep
  have hfix : ∀ ls : List (List Char),
      List.intercalate sep (if ls = [] then [[]] else ls) = List.intercalate sep ls := by
    intro ls
    split
    · rename_i h; subst h; simp [List.intercalate, List.intersperse]
    · rfl
  have hne : ∀ ls : List (List Char), (if ls = [] then [[]] else ls) ≠ [] := by
    intro ls
    split
    · simp
    · assumption
  induction L with
  | nil => rfl
  | cons ls L ih =>
    cases L with
    | nil =>
      simp only [List.map_cons, List.map_nil, List.flatten_cons, List.flatten_nil,
        List.append_nil, hfix]
      simp [List.intercalate, List.intersperse]
    | cons ks L =>
      have hne2 : (List.map (fun ls => if ls = [] then [[]] else ls) (ks :: L)).flatten ≠ [] := by
        simp only [List.map_cons, List.flatten_cons]
        intro h
        exact hne ks (List.append_eq_nil.mp h).1
      have hR : List.intercalate sep
          (List.map (fun ls => if ls = [] then [[]] else ls) (ls :: ks :: L)).flatten
          = List.intercalate sep ls ++ sep ++ List.intercalate sep
            (List.map (fun ls => if ls = [] then [[]] else ls) (ks :: L)).flatten := by
        rw [List.map_cons, List.flatten_cons, happ _ _ (hne ls) hne2, hfix]
      rw [hR, ← ih]
      simp [intercalate_cons_cons]

theorem fixTokens_data (m w : Nat) (tokens : List (List Char)) :
    fixTokens m w tokens false []
      = List.intercalate ['\n'] (tokens.map (fun t =>
          List.intercalate ['\n']
            ((cutLines w t.length t).map (List.replicate m ' ' ++ ·)))) := by
  simp only [fixTokens_eq, List.nil_append, Bool.not_false, joinLines_true]

/-- Every line of the text written for original lines without a line break is empty, or
it is the margin followed by a line cut off what is left of an original line. -/
theorem mem_lines_fixTokens (m w : Nat) (tokens : List (List Char))
    (htok : ∀ t ∈ tokens, '\n' ∉ t) :
    ∀ line ∈ (fixTokens m w tokens false []).splitOn '\n',
      line = [] ∨ ∃ rest, rest ≠ [] ∧ line = List.replicate m ' ' ++ cutLine w rest := by
  intro line hline
  have h := intercalate_flatten ['\n'] (List.map (fun t =>
    (cutLines w t.length t).map (List.replicate m ' ' ++ ·)) tokens)
  rw [List.map_map] at h
  rw [(fixTokens_data m w tokens).trans h] at hline
  obtain ⟨LL, hLL⟩ : ∃ LL, LL = (List.map (fun ls => if ls = [] then [[]] else ls)
      (List.map (fun t => (cutLines w t.length t).map
        (List.replicate m ' ' ++ ·)) tokens)).flatten := ⟨_, rfl⟩
  have hmem : ∀ x ∈ LL, x = [] ∨ ∃ t ∈ tokens, ∃ rest, rest ≠ [] ∧
      x = List.replicate m ' ' ++ cutLine w rest ∧ ∀ c ∈ rest, c ∈ t := by
    intro x hx
    rw [hLL] at hx
    simp only [List.mem_flatten, List.mem_map] at hx
    obtain ⟨ls1, ⟨ls, ⟨t, ht, hls⟩, hls1⟩, hx⟩ := hx
    subst hls1
    subst hls
    by_cases he : (cutLines w t.length t).map (List.replicate m ' ' ++ ·) = []
    · rw [if_pos he] at hx
      left
      simpa using hx
    · rw [if_neg he] at hx
      right
      simp only [List.mem_map] at hx
      obtain ⟨cl, hcl, rfl⟩ := hx
      obtain ⟨rest, hne, hcut, hsub⟩ := mem_cutLines _ _ _ _ hcl
      exact ⟨t, ht, rest, hne, by rw [hcut], hsub⟩
  have hnl : ∀ x ∈ LL, '\n' ∉ x := by
    intro x hx
    rcases hmem x hx with rfl | ⟨t, ht, rest, _, rfl, hsub⟩
    · simp
    · intro hin
      rcases List.mem_append.mp hin with h | h
      · have := List.eq_of_mem_replicate h
        exact absurd this (by decide)
      · exact htok t ht (hsub _ (cutLine_subset _ _ _ h))
  rw [← hLL] at hline
  by_cases hnil : LL = []
  · rw [hnil] at hline
    left
    simpa [List.intercalate, List.splitOn] using hline
  · rw [List.splitOn_intercalate LL '\n' hnl hnil] at hline
    rcases hmem line hline with h | ⟨_, _, rest, hne, h, _⟩
    · exact Or.inl h
    · exact Or.inr ⟨rest, hne, h⟩

theorem mem_lines_fixHelpText (text : String) (m l : Nat) :
    ∀ line ∈ (fixHelpText text m l).data.splitOn '\n',
      line = [] ∨ ∃ rest, rest ≠ [] ∧
        line = List.replicate m ' ' ++ cutLine (if l > 0 then size_t_sub l m else 0) rest :=
  mem_lines_fixTokens m _ _ (fun t ht => (mem_tokenize _ _ (le_refl _) t ht).1)

theorem cutLines_whole (w : Nat) (token : List Char) (hne : token ≠ [])
    (hcut : cutLine w token = token) : cutLines w token.length token = [token] := by
  cases token with
  | nil => exact absurd rfl hne
  | cons c s =>
    simp only [List.length_cons, cutLines, List.isEmpty_cons, Bool.false_eq_true, if_false,
      hcut, dropLine]
    simp only [← List.length_cons (a := c), List.drop_length, find_first_of]
    cases s.length <;> simp [cutLines]

theorem length_joinLines_margin (m : Nat) (ls : List (List Char)) : ∀ b,
    (joinLines b (ls.map (List.replicate m ' ' ++ ·))).length
      = (joinLines b ls).length + m * ls.length := by
  induction ls with
  | nil => intro b; simp [joinLines]
  | cons l ls ih =>
    intro b
    simp only [List.map_cons, joinLines, List.length_append, ih, List.length_replicate,
      List.length_cons]
    ring

theorem joinLines_false_length (ls : List (List Char)) (hne : ls ≠ []) :
    (joinLines false ls).length = (joinLines true ls).length + 1 := by
  cases ls with
  | nil => exact absurd rfl hne
  | cons l ls => simp [joinLines]

/-- The lines cut off an original line hold all its characters but the blanks at the cuts,
each replaced by a line break, and at most one blank at its end. -/
theorem length_cutLines (w : Nat) : ∀ fuel (token : List Char), token.length ≤ fuel →
    token ≠ [] → cutLines w fuel token ≠ []
      ∧ token.length ≤ (joinLines true (cutLines w fuel token)).length + 1 := by
  intro fuel
  induction fuel with
  | zero =>
    intro token h hne
    exact absurd (List.length_eq_zero.mp (by omega)) hne
  | succ fuel ih =>
    intro token h hne
    cases token with
    | nil => exact absurd rfl hne
    | cons c s =>
      have hlt := dropLine_cutLine_lt w (c :: s) (by simp)
      obtain ⟨rest, hsplit, hrest, hdrop⟩ := cutLine_split w (c :: s)
      have hlen := congrArg List.length hsplit
      simp only [List.length_append] at hlen
      simp only [cutLines, List.isEmpty_cons, Bool.false_eq_true, if_false, joinLines,
        if_true, List.nil_append, List.length_append]
      refine ⟨by simp, ?_⟩
      by_cases hr : dropLine (c :: s) (cutLine w (c :: s)) = []
      · have hr1 : rest.length ≤ 1 := by
          rw [hdrop] at hr
          have := congrArg List.length hr
          simp only [List.length_drop, List.length_nil] at this
          omega
        omega
      · obtain ⟨hne', hle⟩ := ih _ (by simp only [List.length_cons] at h hlt; omega) hr
        rw [joinLines_false_length _ hne']
        have : rest.length ≤ (dropLine (c :: s) (cutLine w (c :: s))).length + 1 := by
          rw [hdrop]
          simp only [List.length_drop]
          omega
        omega

theorem length_le_intercalate (sep : List Char) (ls : List (List Char)) :
    ∀ x ∈ ls, x.length ≤ (List.intercalate sep ls).length := by
  induction ls with
  | nil => intro x hx; simp at hx
  | cons l ls ih =>
    intro x hx
    cases ls with
    | nil =>
      rcases List.mem_singleton.mp hx with rfl
      simp [List.intercalate, List.intersperse]
    | cons k ks =>
      rw [intercalate_cons_cons]
      simp only [List.length_append]
      rcases List.mem_cons.mp hx with rfl | hx
      · omega
      · have := ih x hx
        omega

theorem fixHelpText_data (text : String) (m l : Nat) :
    (fixHelpText text m l).data
      = List.intercalate ['\n'] ((tokenize text.data ['\n']).map (fun t =>
          List.intercalate ['\n']
            ((cutLines (if l > 0 then size_t_sub l m else 0) t.length t).map
              (List.replicate m ' ' ++ ·)))) :=
  fixTokens_data m _ _

/-- The text written is at least as long as the margin and an original line that is not
empty, less one character. -/
theorem length_fixHelpText (text : String) (m l : Nat) :
    ∀ t ∈ tokenize text.data ['\n'], t ≠ [] →
      m + t.length ≤ (fixHelpText text m l).length + 1 := by
  intro t ht hne
  have hdata := fixHelpText_data text m l
  have hlen : (fixHelpText text m l).length = (fixHelpText text m l).data.length := rfl
  rw [hlen, hdata]
  have h1 := length_le_intercalate ['\n'] _ _ (List.mem_map_of_mem (fun t =>
    List.intercalate ['\n'] ((cutLines (if l > 0 then size_t_sub l m else 0) t.length t).map
      (List.replicate m ' ' ++ ·))) ht)
  obtain ⟨hne', hle⟩ := length_cutLines (if l > 0 then size_t_sub l m else 0) _ t (le_refl _) hne
  have h2 := length_joinLines_margin m
    (cutLines (if l > 0 then size_t_sub l m else 0) t.length t) true
  rw [joinLines_true, joinLines_true] at h2
  have h3 : 1 ≤ (cutLines (if l > 0 then size_t_sub l m else 0) t.length t).length :=
    List.length_pos.mpr hne'
  rw [joinLines_true] at hle
  have h4 : m ≤ m * (cutLines (if l > 0 then size_t_sub l m else 0) t.length t).length :=
    Nat.le_mul_of_pos_right _ h3
  simp only at h1
  omega

/-! ## Lines that are nearly full -/

/-- The words of a text with blanks of several kinds, at its ends too. -/
theorem words_example :
    words "  ab\tcd \n ef,gh\r".data = ["ab".data, "cd".data, "ef,gh".data] := by
  decide

/-- A margin size above the line size makes the width wrap: for the line size 3 and the
margin size `2^64 - 1` it is 4, and for a margin size up to `2^63` it is at least
`2^63`. -/
theorem size_t_sub_wraps :
    size_t_sub 3 (2 ^ 64 - 1) = 4
      ∧ ∀ l m, l < m → m ≤ 2 ^ 63 → 2 ^ 63 ≤ size_t_sub l m := by
  refine ⟨by decide, ?_⟩
  intro l m hlm hm
  unfold size_t_sub
  rw [Nat.mod_eq_of_lt (by omega), Nat.mod_eq_of_lt (by omega), Nat.mod_eq_of_lt (by omega)]
  omega

/-! ## The lines of the text written, one original line after the other -/

/-- The lines of the text written for original lines without a line break, of which there
is one at least: an original line gives the margin followed by each line cut off it, and
one empty line when no line is cut off it. -/
theorem lines_fixTokens (m w : Nat) (tokens : List (List Char)) (hne : tokens ≠ [])
    (htok : ∀ t ∈ tokens, '\n' ∉ t) :
    (fixTokens m w tokens false []).splitOn '\n'
      = (tokens.map (fun t =>
          if (cutLines w t.length t).map (List.replicate m ' ' ++ ·) = [] then [[]]
          else (cutLines w t.length t).map (List.replicate m ' ' ++ ·))).flatten := by
  have h := intercalate_flatten ['\n'] (List.map (fun t =>
    (cutLines w t.length t).map (List.replicate m ' ' ++ ·)) tokens)
  rw [List.map_map] at h
  rw [(fixTokens_data m w tokens).trans h, List.map_map]
  apply List.splitOn_intercalate
  · intro x hx
    simp only [List.mem_flatten, List.mem_map, Function.comp] at hx
    obtain ⟨ls, ⟨t, ht, hls⟩, hx⟩ := hx
    subst hls
    by_cases he : (cutLines w t.length t).map (List.replicate m ' ' ++ ·) = []
    · rw [if_pos he] at hx
      have : x = [] := by simpa using hx
      rw [this]
      simp
    · rw [if_neg he] at hx
      simp only [List.mem_map] at hx
      obtain ⟨cl, hcl, rfl⟩ := hx
      obtain ⟨rest, _, hcut, hsub⟩ := mem_cutLines _ _ _ _ hcl
      intro hin
      rcases List.mem_append.mp hin with h | h
      · have := List.eq_of_mem_replicate h
        exact absurd this (by decide)
      · rw [hcut] at h
        exact htok t ht (hsub _ (cutLine_subset _ _ _ h))
  · cases tokens with
    | nil => exact absurd rfl hne
    | cons t ts =>
      simp only [List.map_cons, List.flatten_cons, Function.comp]
      intro h
      have h1 := (List.append_eq_nil.mp h).1
      split at h1
      · cases h1
      · rename_i hn
        exact hn h1

theorem forall₂_map_of_forall {α β : Type} (R : α → β → Prop) (g : α → β) :
    ∀ l : List α, (∀ x ∈ l, R x (g x)) → List.Forall₂ R l (l.map g) := by
  intro l
  induction l with
  | nil => intro _; exact List.Forall₂.nil
  | cons a l ih =>
    intro h
    exact List.Forall₂.cons (h a (List.mem_cons_self _ _))
      (ih (fun x hx => h x (List.mem_cons_of_mem _ hx)))

theorem takeWhile_dropWhile_piece (piece rest : List Char) (h : ∀ c ∈ piece, c ≠ '\n') :
    (piece ++ '\n' :: rest).takeWhile (· != '\n') = piece
      ∧ (piece ++ '\n' :: rest).dropWhile (· != '\n') = '\n' :: rest := by
  induction piece with
  | nil => simp
  | cons c s ih =>
    have hc : (c != '\n') = true := by simpa using h c (List.mem_cons_self _ _)
    have := ih (fun d hd => h d (List.mem_cons_of_mem _ hd))
    simp [List.takeWhile_cons, List.dropWhile_cons, hc, this]

theorem tokenize_piece (piece rest : List Char) (h : ∀ c ∈ piece, c ≠ '\n') :
    tokenize (piece ++ '\n' :: rest) ['\n'] = piece :: tokenize rest ['\n'] := by
  rw [tokenize_ne_nil _ (by simp)]
  obtain ⟨h1, h2⟩ := takeWhile_dropWhile_piece piece rest h
  rw [h1, h2]
  rfl

/-- A text is one piece without a line break, or such a piece, a line break and more
text. -/
theorem piece_cases (s : List Char) :
    ∃ piece, (∀ c ∈ piece, c ≠ '\n') ∧ (s = piece ∨ ∃ rest, s = piece ++ '\n' :: rest) := by
  refine ⟨s.takeWhile (· != '\n'), ?_, ?_⟩
  · intro c hc
    simpa using List.mem_takeWhile_imp hc
  · have hs := List.takeWhile_append_dropWhile (· != '\n') s
    rcases dropWhile_newline s with h | ⟨r, h⟩
    · left
      rw [h, List.append_nil] at hs
      exact hs.symm
    · right
      rw [h] at hs
      exact ⟨r, hs.symm⟩

theorem tokenize_append : ∀ n (a b : List Char), a.length ≤ n → a ≠ [] →
    a.getLast? ≠ some '\n' → b ≠ [] →
    tokenize (a ++ '\n' :: b) ['\n'] = tokenize a ['\n'] ++ tokenize b ['\n'] := by
  intro n
  induction n with
  | zero =>
    intro a b h hne
    exact absurd (List.length_eq_zero.mp (by omega)) hne
  | succ n ih =>
    intro a b h hne hlast hb
    obtain ⟨piece, hpiece, rfl | ⟨rest, rfl⟩⟩ := piece_cases a
    · rw [tokenize_piece _ _ hpiece, tokenize_single _ hne]
      · rfl
      · intro hin
        exact hpiece _ hin rfl
    · rw [List.append_assoc, List.cons_append, tokenize_piece _ _ hpiece,
        tokenize_piece _ _ hpiece]
      have hrest : rest ≠ [] := by
        intro he
        subst he
        apply hlast
        simp
      have hlast' : rest.getLast? ≠ some '\n' := by
        intro he
        apply hlast
        rw [List.getLast?_append]
        cases rest with
        | nil => exact absurd rfl hrest
        | cons r rs => rw [List.getLast?_cons_cons, he]; rfl
      have hlen : rest.length ≤ n := by
        simp only [List.length_append, List.length_cons] at h
        omega
      rw [ih rest b hlen hrest hlast' hb]
      rfl

namespace ArgsParser

/-! ## One iteration of the loop of `parse` -/

theorem findArgID_of_none (p : ArgsParser) (arg : String)
    (h : mapFind arg p.m_map_args = none) :
    p.findArgID arg = .throw (.InvalidArgument (invalidArgumentText arg)) := by
  simp [findArgID, isArgumentValid, h, invalidArgumentText]

theorem findArgID_of_some (p : ArgsParser) (arg : String) (id : Nat)
    (h : mapFind arg p.m_map_args = some id) : p.findArgID arg = .ok id := by
  simp [findArgID, isArgumentValid, h]

/-- A token that is no alias is captured as the next positional value, or rejected when
every positional argument has its value. -/
theorem parseStep_unknown (p : ArgsParser) (argc : Nat) (argv : List String) (i : Nat)
    (sarg : String) (hread : argvAt argc argv i = some sarg)
    (h : mapFind sarg p.m_map_args = none) :
    parseStep p argc argv i =
      if p.m_positional_values.length ≥ p.m_positional_args.length then
        .stop ⟨.throw (.InvalidArgument (invalidArgumentText sarg)), p, ""⟩
      else .next { p with m_positional_values := p.m_positional_values ++ [sarg] } (i + 1) "" := by
  simp only [parseStep, hread, parseTry, findArgID_of_none p sarg h]

/-- An alias of the help identifier clears the tables, writes the help text and ends the
call. -/
theorem parseStep_help (p : ArgsParser) (argc : Nat) (argv : List String) (i : Nat)
    (sarg : String) (hread : argvAt argc argv i = some sarg)
    (h : mapFind sarg p.m_map_args = some p.m_help_id) :
    parseStep p argc argv i = .stop ⟨p.helpOutcome, p.cleared, p.cleared.showHelpText⟩ := by
  simp only [parseStep, hread, parseTry, findArgID_of_some p sarg _ h, checkShowHelp,
    if_true, showHelp, helpOutcome, cleared]
  cases p.m_buse_exit <;> simp

/-- An alias of another identifier marks its option as passed and, when the option has
value slots, fills them with the tokens that follow. -/
theorem parseStep_option (p : ArgsParser) (argc : Nat) (argv : List String) (i : Nat)
    (sarg : String) (id : Nat) (hread : argvAt argc argv i = some sarg)
    (h : mapFind sarg p.m_map_args = some id) (hid : id ≠ p.m_help_id) :
    parseStep p argc argv i =
      if (mapFind id (p.markPresent id).m_map_values).getD [] = [] then
        .next (p.markPresent id) (i + 1) ""
      else if int_wrap ((i : Int) + static_cast_int
          ((mapFind id (p.markPresent id).m_map_values).getD []).length) ≥ (argc : Int) then
        .stop ⟨.throw (.logic_error (insufficientText sarg)), p.markPresent id, ""⟩
      else
        match copyValues argc argv i ((mapFind id (p.markPresent id).m_map_values).getD []) 0
        with
        | none => .stop ⟨.undefined, p.markPresent id, ""⟩
        | some values =>
          .next { p.markPresent id with
              m_map_values := mapAssign id values (p.markPresent id).m_map_values }
            (i + values.length + 1) "" := by
  simp only [parseStep, hread, parseTry, findArgID_of_some p sarg _ h, checkShowHelp,
    if_neg hid]
  rw [show ({ p with m_set_args := setInsert id p.m_set_args } : ArgsParser).m_map_values
    = p.m_map_values from rfl]
  unfold markPresent
  cases hv : mapFind id p.m_map_values with
  | none =>
    simp [mapFind_mapAssign_self]
  | some values =>
    simp only [hv, Option.getD_some]
    cases values with
    | nil => simp
    | cons v vs =>
      simp only [List.isEmpty_cons, Bool.not_false, if_true, reduceCtorEq, if_false,
        insufficientText]
      by_cases hc : int_wrap ((i : Int) + static_cast_int (v :: vs).length) ≥ (argc : Int)
      · simp only [if_pos hc]
      · simp only [if_neg hc]
        cases copyValues argc argv i (v :: vs) 0 <;> rfl

theorem argvAt_length (argv : List String) (k : Nat) :
    argvAt argv.length argv k = argv[k]? := by
  unfold argvAt
  split
  · rfl
  · rename_i h
    exact (List.getElem?_eq_none (Nat.le_of_not_lt h)).symm

/-- The copy loop succeeds only when every slot has its token, and then the new slots are
the tokens that follow the cursor. -/
theorem copyValues_some (argv : List String) (i : Nat) (values : List String) (j : Nat)
    (w : List String) (h : copyValues argv.length argv i values j = some w) :
    w = (argv.drop (i + j + 1)).take values.length ∧
      (values ≠ [] → i + j + values.length < argv.length) := by
  induction values generalizing j w with
  | nil =>
    simp only [copyValues, Option.some.injEq] at h
    simp [← h]
  | cons v values ih =>
    simp only [copyValues, argvAt_length] at h
    cases hr : argv[i + j + 1]? with
    | none => simp [hr] at h
    | some t =>
      simp only [hr] at h
      cases hc : copyValues argv.length argv i values (j + 1) with
      | none => simp [hc] at h
      | some w' =>
        simp only [hc, Option.map_some', Option.some.injEq] at h
        obtain ⟨hw', hb⟩ := ih (j + 1) w' hc
        obtain ⟨hlt, ht⟩ := List.getElem?_eq_some.mp hr
        refine ⟨?_, fun _ => ?_⟩
        · rw [← h, List.drop_eq_getElem_cons hlt, List.length_cons, List.take_succ_cons, ht,
            hw']
          rfl
        · cases values with
          | nil => simp only [List.length_cons, List.length_nil]; omega
          | cons v' vs =>
            have := hb (by simp)
            simp only [List.length_cons] at this ⊢
            omega

theorem copyValues_of_lt (argv : List String) (i : Nat) (values : List String) (j : Nat)
    (h : i + j + values.length < argv.length) :
    copyValues argv.length argv i values j
      = some ((argv.drop (i + j + 1)).take values.length) := by
  induction values generalizing j with
  | nil => simp [copyValues]
  | cons v values ih =>
    simp only [List.length_cons] at h
    have hlt : i + j + 1 < argv.length := by omega
    have ih' := ih (j + 1) (by omega)
    simp only [copyValues, argvAt_length, List.getElem?_eq_getElem hlt, ih', Option.map_some',
      List.length_cons, List.take_succ_cons, List.drop_eq_getElem_cons hlt]
    rfl

theorem copyValues_none_of_ge (argv : List String) (i : Nat) (values : List String)
    (hne : values ≠ []) (h : argv.length ≤ i + values.length) :
    copyValues argv.length argv i values 0 = none := by
  cases hc : copyValues argv.length argv i values 0 with
  | none => rfl
  | some w =>
    have := (copyValues_some argv i values 0 w hc).2 hne
    omega

theorem markPresent_of_some (p : ArgsParser) (id : Nat) (values : List String)
    (h : mapFind id p.m_map_values = some values) :
    p.markPresent id = { p with m_set_args := setInsert id p.m_set_args } := by
  simp [markPresent, h]

theorem markPresent_values_of_none (p : ArgsParser) (id : Nat)
    (h : mapFind id p.m_map_values = none) :
    mapFind id (p.markPresent id).m_map_values = some [] := by
  simp [markPresent, h, mapFind_mapAssign_self]

/-- Every iteration of the loop of `parse` ends in one of the ways of `StepCase`. -/
theorem parseStep_case (p : ArgsParser) (argv : List String) (i : Nat)
    (hi : i < argv.length) : StepCase p argv i (parseStep p argv.length argv i) := by
  have hread : argv[i]? = some argv[i] := List.getElem?_eq_getElem hi
  have hread' : argvAt argv.length argv i = some argv[i] := by rw [argvAt_length, hread]
  cases hm : mapFind argv[i] p.m_map_args with
  | none =>
    rw [parseStep_unknown p _ argv i _ hread' hm]
    split
    · exact .reject _ hread hm (by assumption)
    · exact .positional _ hread hm (by omega)
  | some id =>
    by_cases hid : id = p.m_help_id
    · subst hid
      rw [parseStep_help p _ argv i _ hread' hm]
      exact .help _ hread hm
    · rw [parseStep_option p _ argv i _ id hread' hm hid]
      cases hv : mapFind id p.m_map_values with
      | none =>
        have h0 := markPresent_values_of_none p id hv
        rw [h0]
        simp only [Option.getD_some, if_true]
        exact .flag _ id hread hm hid (by rw [h0]; rfl)
      | some values =>
        have hmp := markPresent_of_some p id values hv
        have hv' : mapFind id (p.markPresent id).m_map_values = some values := by
          rw [hmp]; exact hv
        rw [hv']
        simp only [Option.getD_some]
        by_cases hne : values = []
        · rw [if_pos hne]
          exact .flag _ id hread hm hid (by rw [hv']; exact hne)
        · rw [if_neg hne]
          by_cases hc : int_wrap ((i : Int) + static_cast_int values.length)
              ≥ (argv.length : Int)
          · rw [if_pos hc]
            exact .insufficient _ id hread hm hid values hv hne hc
          · rw [if_neg hc]
            by_cases hfit : i + values.length < argv.length
            · rw [copyValues_of_lt argv i values 0 (by omega)]
              simp only [List.length_take, List.length_drop, Nat.add_zero]
              have hmin : min values.length (argv.length - (i + 1)) = values.length := by
                omega
              rw [hmin, hmp]
              exact .values _ id hread hm hid values hv hne hc hfit
            · rw [copyValues_none_of_ge argv i values hne (by omega)]
              exact .overrun _ id hread hm hid values hv hne hc (by omega)

/-! ## The loop of `parse` -/

/-- What an iteration of the loop leaves as it is, whether the loop goes on or not: the alias
table, the help identifier, the positional registrations and the settings. -/
theorem markPresent_frame (p : ArgsParser) (id : Nat) :
    (p.markPresent id).m_map_args = p.m_map_args ∧
    (p.markPresent id).m_help_id = p.m_help_id ∧
    (p.markPresent id).m_positional_args = p.m_positional_args ∧
    (p.markPresent id).m_positional_values = p.m_positional_values ∧
    (p.markPresent id).m_buse_exit = p.m_buse_exit ∧
    (p.markPresent id).m_set_args = setInsert id p.m_set_args := by
  unfold markPresent
  cases mapFind id p.m_map_values <;> simp

theorem parseStep_next (p : ArgsParser) (argv : List String) (i : Nat) (p' : ArgsParser)
    (i' : Nat) (o : String) (hi : i < argv.length)
    (h : parseStep p argv.length argv i = .next p' i' o) :
    i < i' ∧ i' ≤ argv.length ∧ o = "" ∧ p'.m_map_args = p.m_map_args ∧
      p'.m_help_id = p.m_help_id ∧ p'.m_positional_args = p.m_positional_args ∧
      p'.m_buse_exit = p.m_buse_exit := by
  have hc := parseStep_case p argv i hi
  rw [h] at hc
  cases hc with
  | positional sarg hread h hroom => simp; omega
  | flag sarg id hread h hid hvalues =>
    have := markPresent_frame p id
    simp [this]; omega
  | values sarg id hread h hid values hvalues hne hcheck hfit => simp; omega

theorem parseLoop_done (argc : Nat) (argv : List String) (fuel : Nat) (p : ArgsParser)
    (i : Nat) (out : String) (h : argc ≤ i) :
    parseLoop argc argv fuel p i out = ⟨.ok (), p, out⟩ := by
  unfold parseLoop
  rw [if_neg (by omega)]

theorem parseLoop_next (argv : List String) (fuel : Nat) (p : ArgsParser) (i : Nat)
    (out : String) (p' : ArgsParser) (i' : Nat) (o : String) (hi : i < argv.length)
    (h : parseStep p argv.length argv i = .next p' i' o) :
    parseLoop argv.length argv (fuel + 1) p i out = parseLoop argv.length argv fuel p' i' out := by
  have ho := (parseStep_next p argv i p' i' o hi h).2.2.1
  subst ho
  conv => lhs; unfold parseLoop
  simp only [if_pos hi, h, String.append_empty]

theorem parseLoop_stop (argv : List String) (fuel : Nat) (p : ArgsParser) (i : Nat)
    (out : String) (r : Result) (hi : i < argv.length)
    (h : parseStep p argv.length argv i = .stop r) :
    parseLoop argv.length argv (fuel + 1) p i out = ⟨r.outcome, r.state, out ++ r.out⟩ := by
  conv => lhs; unfold parseLoop
  simp only [if_pos hi, h]

/-- The rule of the loop of `parse`: a property `Inv` of the state and the cursor that every
iteration keeps, gives `Post` for the result when every way out of the loop gives it. -/
theorem parseLoop_rule (argv : List String) (out : String) (Inv : ArgsParser → Nat → Prop)
    (Post : Result → Prop)
    (hnext : ∀ p i p' i', Inv p i → i < argv.length →
      parseStep p argv.length argv i = .next p' i' "" → Inv p' i')
    (hstop : ∀ p i r, Inv p i → i < argv.length →
      parseStep p argv.length argv i = .stop r → Post ⟨r.outcome, r.state, out ++ r.out⟩)
    (hdone : ∀ p i, Inv p i → argv.length ≤ i → Post ⟨.ok (), p, out⟩) :
    ∀ fuel p i, Inv p i → argv.length - i ≤ fuel →
      Post (parseLoop argv.length argv fuel p i out) := by
  intro fuel
  induction fuel with
  | zero =>
    intro p i hinv hfuel
    rw [parseLoop_done _ _ _ _ _ _ (by omega)]
    exact hdone p i hinv (by omega)
  | succ fuel ih =>
    intro p i hinv hfuel
    by_cases hi : i < argv.length
    · cases hs : parseStep p argv.length argv i with
      | next p' i' o =>
        have hn := parseStep_next p argv i p' i' o hi hs
        rw [parseLoop_next argv fuel p i out p' i' o hi hs]
        have ho := hn.2.2.1
        subst ho
        exact ih p' i' (hnext p i p' i' hinv hi hs) (by omega)
      | stop r =>
        rw [parseLoop_stop argv fuel p i out r hi hs]
        exact hstop p i r hinv hi hs
    · rw [parseLoop_done _ _ _ _ _ _ (by omega)]
      exact hdone p i hinv (by omega)

/-- More fuel than the tokens that are left does not change the result of the loop. -/
theorem parseLoop_fuel (argv : List String) (out : String) :
    ∀ fuel fuel' p i, argv.length - i ≤ fuel → argv.length - i ≤ fuel' →
      parseLoop argv.length argv fuel p i out = parseLoop argv.length argv fuel' p i out := by
  intro fuel
  induction fuel with
  | zero =>
    intro fuel' p i h _
    rw [parseLoop_done _ _ _ _ _ _ (by omega), parseLoop_done _ _ _ _ _ _ (by omega)]
  | succ fuel ih =>
    intro fuel' p i h h'
    by_cases hi : i < argv.length
    · cases fuel' with
      | zero => omega
      | succ fuel' =>
        cases hs : parseStep p argv.length argv i with
        | next p' i' o =>
          have hn := parseStep_next p argv i p' i' o hi hs
          rw [parseLoop_next argv fuel p i out p' i' o hi hs,
            parseLoop_next argv fuel' p i out p' i' o hi hs]
          exact ih fuel' p' i' (by omega) (by omega)
        | stop r =>
          rw [parseLoop_stop argv fuel p i out r hi hs,
            parseLoop_stop argv fuel' p i out r hi hs]
    · rw [parseLoop_done _ _ _ _ _ _ (by omega), parseLoop_done _ _ _ _ _ _ (by omega)]

theorem parseTrace_done (argc : Nat) (argv : List String) (fuel : Nat) (p : ArgsParser)
    (i : Nat) (h : argc ≤ i) : parseTrace argc argv fuel p i = [] := by
  unfold parseTrace
  rw [if_neg (by omega)]

theorem parseTrace_next (argv : List String) (fuel : Nat) (p : ArgsParser) (i : Nat)
    (p' : ArgsParser) (i' : Nat) (o : String) (hi : i < argv.length)
    (h : parseStep p argv.length argv i = .next p' i' o) :
    parseTrace argv.length argv (fuel + 1) p i
      = (p, i) :: parseTrace argv.length argv fuel p' i' := by
  conv => lhs; unfold parseTrace
  simp only [if_pos hi, h]

theorem parseTrace_stop (argv : List String) (fuel : Nat) (p : ArgsParser) (i : Nat)
    (r : Result) (hi : i < argv.length) (h : parseStep p argv.length argv i = .stop r) :
    parseTrace argv.length argv (fuel + 1) p i = [(p, i)] := by
  conv => lhs; unfold parseTrace
  simp only [if_pos hi, h]

/-- A property of the state and the cursor that every iteration keeps holds at every
iteration of the loop. -/
theorem parseTrace_rule (argv : List String) (Inv : ArgsParser → Nat → Prop)
    (hnext : ∀ p i p' i', Inv p i → i < argv.length →
      parseStep p argv.length argv i = .next p' i' "" → Inv p' i') :
    ∀ fuel p i, Inv p i → ∀ s k, (s, k) ∈ parseTrace argv.length argv fuel p i →
      Inv s k ∧ k < argv.length := by
  intro fuel
  induction fuel with
  | zero =>
    intro p i _ s k hmem
    unfold parseTrace at hmem
    split at hmem <;> simp at hmem
  | succ fuel ih =>
    intro p i hinv s k hmem
    by_cases hi : i < argv.length
    · cases hs : parseStep p argv.length argv i with
      | next p' i' o =>
        have ho := (parseStep_next p argv i p' i' o hi hs).2.2.1
        subst ho
        rw [parseTrace_next argv fuel p i p' i' _ hi hs] at hmem
        rcases List.mem_cons.mp hmem with h | h
        · cases h; exact ⟨hinv, hi⟩
        · exact ih p' i' (hnext p i p' i' hinv hi hs) s k h
      | stop r =>
        rw [parseTrace_stop argv fuel p i r hi hs] at hmem
        simp only [List.mem_singleton] at hmem
        cases hmem; exact ⟨hinv, hi⟩
    · rw [parseTrace_done _ _ _ _ _ (by omega)] at hmem
      simp at hmem

/-- From an iteration of the loop on, the result of the loop is the result of the loop
started at that iteration. -/
theorem parseLoop_of_mem_trace (argv : List String) (out : String) :
    ∀ fuel p i s k, (s, k) ∈ parseTrace argv.length argv fuel p i → argv.length - i ≤ fuel →
      parseLoop argv.length argv fuel p i out
        = parseLoop argv.length argv (argv.length - k) s k out := by
  intro fuel
  induction fuel with
  | zero =>
    intro p i s k hmem
    unfold parseTrace at hmem
    split at hmem <;> simp at hmem
  | succ fuel ih =>
    intro p i s k hmem hfuel
    by_cases hi : i < argv.length
    · cases hs : parseStep p argv.length argv i with
      | next p' i' o =>
        have hn := parseStep_next p argv i p' i' o hi hs
        rw [parseTrace_next argv fuel p i p' i' _ hi hs] at hmem
        rcases List.mem_cons.mp hmem with h | h
        · cases h
          exact parseLoop_fuel argv out _ _ _ _ hfuel (le_refl _)
        · rw [parseLoop_next argv fuel p i out p' i' o hi hs]
          exact ih p' i' s k h (by omega)
      | stop r =>
        rw [parseTrace_stop argv fuel p i r hi hs] at hmem
        simp only [List.mem_singleton] at hmem
        cases hmem
        exact parseLoop_fuel argv out _ _ _ _ hfuel (le_refl _)
    · rw [parseTrace_done _ _ _ _ _ (by omega)] at hmem
      simp at hmem

/-- The iteration that follows an iteration of the loop is an iteration of the loop. -/
theorem parseTrace_step (argv : List String) :
    ∀ fuel p i s k s' k' o, (s, k) ∈ parseTrace argv.length argv fuel p i →
      argv.length - i ≤ fuel → parseStep s argv.length argv k = .next s' k' o →
      k' < argv.length → (s', k') ∈ parseTrace argv.length argv fuel p i := by
  intro fuel
  induction fuel with
  | zero =>
    intro p i s k s' k' o hmem
    unfold parseTrace at hmem
    split at hmem <;> simp at hmem
  | succ fuel ih =>
    intro p i s k s' k' o hmem hfuel hstep hk'
    by_cases hi : i < argv.length
    · cases hs : parseStep p argv.length argv i with
      | next p' i' o' =>
        have hn := parseStep_next p argv i p' i' o' hi hs
        rw [parseTrace_next argv fuel p i p' i' _ hi hs] at hmem ⊢
        rcases List.mem_cons.mp hmem with h | h
        · cases h
          rw [hs] at hstep
          cases hstep
          apply List.mem_cons_of_mem
          cases fuel with
          | zero => omega
          | succ fuel =>
            unfold parseTrace
            simp only [if_pos hk']
            exact List.mem_cons_self _ _
        · exact List.mem_cons_of_mem _ (ih p' i' s k s' k' o h (by omega) hstep hk')
      | stop r =>
        rw [parseTrace_stop argv fuel p i r hi hs] at hmem
        simp only [List.mem_singleton] at hmem
        cases hmem
        rw [hs] at hstep
        cases hstep
    · rw [parseTrace_done _ _ _ _ _ (by omega)] at hmem
      simp at hmem

/-- The loop starts with an iteration at the start index, when there is a token there. -/
theorem parseTrace_start (argv : List String) (fuel : Nat) (p : ArgsParser) (i : Nat)
    (hi : i < argv.length) (hfuel : argv.length - i ≤ fuel) :
    (p, i) ∈ parseTrace argv.length argv fuel p i := by
  cases fuel with
  | zero => omega
  | succ fuel =>
    unfold parseTrace
    simp only [if_pos hi]
    exact List.mem_cons_self _ _

theorem setProgramName_frame (p : ArgsParser) (argc : Int) (argv : List String)
    (start_index : Int) :
    ∃ name, p.setProgramName argc argv start_index = { p with m_program_name := name } := by
  unfold setProgramName
  simp only
  repeat' split
  all_goals exact ⟨_, rfl⟩

/-- The call `parse(argc, argv, start_index)` on `argc` tokens, from a start index within
them, is the loop run on the state with its program name set. -/
theorem parse_eq (p : ArgsParser) (argv : List String) (start : Nat)
    (hstart : start ≤ argv.length) :
    p.parse argv.length argv start
      = parseLoop argv.length argv (argv.length - start)
          (p.setProgramName argv.length argv start) start "" := by
  unfold parse
  have h1 : ¬ ((start : Int) < 0) := by omega
  have h2 : ¬ ((argv.length : Int) < 0) := by omega
  have h3 : ¬ ((argv.length : Int) < (start : Int)) := by omega
  simp only [if_neg h1, if_neg h2, if_neg h3, Int.toNat_ofNat]

theorem parseVisits_eq (p : ArgsParser) (argv : List String) (start : Nat)
    (hstart : start ≤ argv.length) :
    p.parseVisits argv.length argv start
      = parseTrace argv.length argv (argv.length - start)
          (p.setProgramName argv.length argv start) start := by
  unfold parseVisits
  have h1 : ¬ ((start : Int) < 0) := by omega
  have h2 : ¬ ((argv.length : Int) < 0) := by omega
  have h3 : ¬ ((argv.length : Int) < (start : Int)) := by omega
  simp only [if_neg h1, if_neg h2, if_neg h3, Int.toNat_ofNat]

theorem getElem?_drop_sub (argv : List String) (start i : Nat) (h : start ≤ i) :
    (argv.drop start)[i - start]? = argv[i]? := by
  rw [List.getElem?_drop]
  congr 1
  omega

theorem mem_drop_of_getElem? (argv : List String) (start i : Nat) (t : String)
    (h : start ≤ i) (ht : argv[i]? = some t) : t ∈ argv.drop start := by
  rw [← getElem?_drop_sub argv start i h] at ht
  exact List.mem_iff_getElem?.mpr ⟨_, ht⟩

theorem take_succ_sub (argv : List String) (start i : Nat) (t : String) (h : start ≤ i)
    (ht : argv[i]? = some t) :
    (argv.drop start).take (i + 1 - start) = (argv.drop start).take (i - start) ++ [t] := by
  have : i + 1 - start = (i - start) + 1 := by omega
  rw [this, List.take_succ, getElem?_drop_sub argv start i h, ht]
  rfl

/-- What an iteration that ends the call leaves as it is. -/
theorem parseStep_stop (p : ArgsParser) (argv : List String) (i : Nat) (r : Result)
    (hi : i < argv.length) (h : parseStep p argv.length argv i = .stop r) :
    r.state.m_positional_values = p.m_positional_values ∧
      r.state.m_positional_args = p.m_positional_args ∧
      r.state.m_help_id = p.m_help_id ∧ r.state.m_buse_exit = p.m_buse_exit ∧
      r.outcome ≠ .ok () := by
  have hc := parseStep_case p argv i hi
  rw [h] at hc
  cases hc with
  | reject sarg hread h hfull => simp
  | help sarg hread h =>
    simp only [cleared, helpOutcome, true_and]
    cases p.m_buse_exit <;> simp
  | insufficient sarg id hread h hid values hvalues hne hcheck =>
    have := markPresent_frame p id
    simp [this]
  | overrun sarg id hread h hid values hvalues hne hcheck hpast =>
    have := markPresent_frame p id
    simp [this]

/-- The call `parse(argc, argv, start_index)` on `argc` tokens either rejects the start
index or runs the loop from a start index within the tokens. -/
theorem parse_cases (p : ArgsParser) (argv : List String) (start_index : Int) :
    p.parse argv.length argv start_index
        = ⟨.throw (.invalid_argument "Not enough arguments."), p, ""⟩ ∨
      ∃ start : Nat, start ≤ argv.length ∧
        p.parse argv.length argv start_index = p.parse argv.length argv start := by
  by_cases hneg : start_index < 0
  · right
    refine ⟨0, Nat.zero_le _, ?_⟩
    unfold parse
    simp [hneg]
  · by_cases hbig : (argv.length : Int) < start_index
    · left
      unfold parse
      have h2 : ¬ ((argv.length : Int) < 0) := by omega
      simp only [if_neg hneg, if_neg h2, if_pos hbig]
    · right
      refine ⟨start_index.toNat, by omega, ?_⟩
      have : ((start_index.toNat : Nat) : Int) = start_index := Int.toNat_of_nonneg (by omega)
      rw [this]

theorem add_positional (p : ArgsParser) (args : List String) (n : Nat)
    (params_help help_text : String) :
    (p.add args n params_help help_text).2.m_positional_values = p.m_positional_values ∧
      (p.add args n params_help help_text).2.m_positional_args = p.m_positional_args := by
  unfold add
  cases args with
  | nil => simp
  | cons x xs =>
    simp only
    cases addLoop p.m_map_values.length (x :: xs) p.m_map_args [] with
    | mk m rest =>
      obtain ⟨arr, thrown⟩ := rest
      cases thrown <;> simp

theorem construct_positional (bshow_help : Bool) (description epilogue program_name : String)
    (buse_exit : Bool) (margin_size line_size : Nat) (DefaultProgramName : String) :
    (construct bshow_help description epilogue program_name buse_exit margin_size line_size
      DefaultProgramName).m_positional_values = [] := by
  unfold construct
  simp only
  split
  · have h := fun q a b c d => (add_positional q a b c d).1
    simp only [addArgument]
    split
    · simp only [h]
      split <;> split <;> rfl
    · simp only [h]
      split <;> split <;> rfl
  · split <;> split <;> rfl

theorem mapFind_some_mem {κ ν : Type} [DecidableEq κ] (k : κ) (v : ν) (m : List (κ × ν))
    (h : mapFind k m = some v) : (k, v) ∈ m := by
  induction m with
  | nil => simp [mapFind] at h
  | cons e m ih =>
    obtain ⟨a, b⟩ := e
    unfold mapFind at h
    by_cases hab : a = k
    · rw [if_pos hab] at h
      cases h
      subst hab
      exact List.mem_cons_self _ _
    · rw [if_neg hab] at h
      exact List.mem_cons_of_mem _ (ih h)

theorem mem_mapAssign {κ ν : Type} [DecidableEq κ] (k : κ) (v : ν) (m : List (κ × ν))
    (e : κ × ν) (h : e ∈ mapAssign k v m) : e ∈ m ∨ e = (k, v) := by
  induction m with
  | nil =>
    simp only [mapAssign, List.mem_singleton] at h
    exact Or.inr h
  | cons x m ih =>
    obtain ⟨a, b⟩ := x
    unfold mapAssign at h
    by_cases hab : a = k
    · rw [if_pos hab] at h
      rcases List.mem_cons.mp h with h | h
      · right; rw [h, hab]
      · left; exact List.mem_cons_of_mem _ h
    · rw [if_neg hab] at h
      rcases List.mem_cons.mp h with h | h
      · left; rw [h]; exact List.mem_cons_self _ _
      · rcases ih h with h | h
        · left; exact List.mem_cons_of_mem _ h
        · right; exact h

/-- Marking an option keeps every vector of value slots empty when all of them are. -/
theorem markPresent_all_empty (p : ArgsParser) (id : Nat)
    (h : ∀ e ∈ p.m_map_values, e.2 = []) : ∀ e ∈ (p.markPresent id).m_map_values, e.2 = [] := by
  unfold markPresent
  cases mapFind id p.m_map_values with
  | some v => exact h
  | none =>
    intro e he
    rcases mem_mapAssign _ _ _ _ he with he | he
    · exact h e he
    · rw [he]

theorem length_filter_take_le (f : String → Bool) (n : Nat) (l : List String) :
    ((l.take n).filter f).length ≤ (l.filter f).length :=
  ((List.take_sublist n l).filter f).length_le

/-! ## The loop on token lists that share their first tokens -/

theorem int_wrap_of_lt (x : Int) (h0 : 0 ≤ x) (h1 : x < 2147483648) : int_wrap x = x := by
  unfold int_wrap
  omega

/-- With fewer than `2^31` tokens, the check of `parse` lets through an option whose values
fit before the end of the tokens. -/
theorem check_of_fit (argc i n : Nat) (hfit : i + n < argc) (hargc : argc < 2147483648) :
    int_wrap ((i : Int) + static_cast_int n) = ((i + n : Nat) : Int) := by
  unfold static_cast_int
  rw [int_wrap_of_lt (n : Int) (by omega) (by omega), int_wrap_of_lt _ (by omega) (by omega)]
  omega

theorem getElem?_of_take_eq (A B : List String) (n j : Nat) (h : A.take n = B.take n)
    (hj : j < n) : A[j]? = B[j]? := by
  have := congrArg (fun l => l[j]?) h
  simpa [List.getElem?_take, hj] using this

theorem drop_take_of_take_eq (A B : List String) (m n : Nat)
    (h : A.take (m + n) = B.take (m + n)) : (A.drop m).take n = (B.drop m).take n := by
  rw [List.take_drop, List.take_drop, h]

/-- An iteration after which the loop goes on reads only the tokens before the new cursor:
it is the same iteration on every token list with the same tokens there. -/
theorem parseStep_local (A B : List String) (hA : A.length < 2147483648) (p : ArgsParser)
    (i : Nat) (p' : ArgsParser) (i' : Nat) (o : String) (hi : i < A.length)
    (hs : parseStep p A.length A i = .next p' i' o) (hB : i' ≤ B.length)
    (hAB : A.take i' = B.take i') : parseStep p B.length B i = .next p' i' o := by
  have hn := parseStep_next p A i p' i' o hi hs
  have hreadB : ∀ sarg, A[i]? = some sarg → argvAt B.length B i = some sarg := by
    intro sarg h
    rw [argvAt_length, ← getElem?_of_take_eq A B i' i hAB hn.1]
    exact h
  have hc := parseStep_case p A i hi
  rw [hs] at hc
  cases hc with
  | positional sarg hread h hroom =>
    rw [parseStep_unknown p _ B i sarg (hreadB sarg hread) h, if_neg (by omega)]
  | flag sarg id hread h hid hvalues =>
    rw [parseStep_option p _ B i sarg id (hreadB sarg hread) h hid, if_pos hvalues]
  | values sarg id hread h hid values hvalues hne hcheck hfit =>
    have hmp := markPresent_of_some p id values hvalues
    have hv' : mapFind id (p.markPresent id).m_map_values = some values := by
      rw [hmp]; exact hvalues
    rw [parseStep_option p _ B i sarg id (hreadB sarg hread) h hid, hv']
    simp only [Option.getD_some]
    have hchk : ¬ int_wrap ((i : Int) + static_cast_int values.length) ≥ (B.length : Int) := by
      rw [check_of_fit A.length i values.length hfit hA]
      omega
    rw [if_neg hne, if_neg hchk, copyValues_of_lt B i values 0 (by omega)]
    simp only [List.length_take, List.length_drop, Nat.add_zero]
    have hmin : min values.length (B.length - (i + 1)) = values.length := by omega
    have htk : (B.drop (i + 1)).take values.length = (A.drop (i + 1)).take values.length :=
      (drop_take_of_take_eq A B (i + 1) values.length
        (by rw [show i + 1 + values.length = i + values.length + 1 by omega]; exact hAB)).symm
    rw [hmin, hmp, htk]

/-- The cursors of the iterations of the loop do not go back. -/
theorem parseTrace_frame (argv : List String) (fuel : Nat) (p : ArgsParser) (i : Nat)
    (s : ArgsParser) (k : Nat) (h : (s, k) ∈ parseTrace argv.length argv fuel p i) :
    s.m_map_args = p.m_map_args ∧ s.m_help_id = p.m_help_id ∧
      s.m_buse_exit = p.m_buse_exit ∧ i ≤ k ∧ k < argv.length := by
  have := parseTrace_rule argv
    (fun q j => q.m_map_args = p.m_map_args ∧ q.m_help_id = p.m_help_id ∧
      q.m_buse_exit = p.m_buse_exit ∧ i ≤ j)
    (by
      intro q j q' j' ⟨h1, h2, h3, h4⟩ hj hs
      have hn := parseStep_next q argv j q' j' "" hj hs
      exact ⟨hn.2.2.2.1.trans h1, hn.2.2.2.2.1.trans h2, hn.2.2.2.2.2.2.trans h3, by omega⟩)
    fuel p i ⟨rfl, rfl, rfl, le_refl _⟩ s k h
  exact ⟨this.1.1, this.1.2.1, this.1.2.2.1, this.1.2.2.2, this.2⟩

/-- An iteration of the loop at the cursor `k` is an iteration of the loop on every token
list with the same tokens up to and including `k`. -/
theorem parseTrace_local (A B : List String) (hA : A.length < 2147483648) (k : Nat)
    (hk : k < B.length) (hAB : A.take (k + 1) = B.take (k + 1)) :
    ∀ fuel fuel' p i s, (s, k) ∈ parseTrace A.length A fuel p i → A.length - i ≤ fuel →
      B.length - i ≤ fuel' → (s, k) ∈ parseTrace B.length B fuel' p i := by
  intro fuel
  induction fuel with
  | zero =>
    intro fuel' p i s hmem
    unfold parseTrace at hmem
    split at hmem <;> simp at hmem
  | succ fuel ih =>
    intro fuel' p i s hmem hfuel hfuel'
    by_cases hi : i < A.length
    · cases hs : parseStep p A.length A i with
      | next p' i' o =>
        have hn := parseStep_next p A i p' i' o hi hs
        rw [parseTrace_next A fuel p i p' i' _ hi hs] at hmem
        rcases List.mem_cons.mp hmem with h | h
        · cases h
          exact parseTrace_start B fuel' _ _ hk hfuel'
        · have hfr := parseTrace_frame A fuel p' i' s k h
          have hAB' : A.take i' = B.take i' := by
            have := congrArg (List.take i') hAB
            simpa [List.take_take, Nat.min_eq_left (show i' ≤ k + 1 by omega)] using this
          have hsB := parseStep_local A B hA p i p' i' o hi hs (by omega) hAB'
          cases fuel' with
          | zero => omega
          | succ fuel' =>
            rw [parseTrace_next B fuel' p i p' i' _ (by omega) hsB]
            exact List.mem_cons_of_mem _ (ih fuel' p' i' s h (by omega) (by omega))
      | stop r =>
        rw [parseTrace_stop A fuel p i r hi hs] at hmem
        simp only [List.mem_singleton] at hmem
        cases hmem
        exact parseTrace_start B fuel' _ _ hk hfuel'
    · rw [parseTrace_done _ _ _ _ _ (by omega)] at hmem
      simp at hmem

theorem setProgramName_local (A B : List String) (p : ArgsParser) (start k : Nat)
    (hkA : k < A.length) (hkB : k < B.length) (hAB : A.take (k + 1) = B.take (k + 1)) :
    p.setProgramName A.length A start = p.setProgramName B.length B start := by
  have h0 : A[0]? = B[0]? := getElem?_of_take_eq A B (k + 1) 0 hAB (by omega)
  have hA0 : argvAt ((A.length : Int).toNat) A 0 = A[0]? := by
    rw [Int.toNat_ofNat, argvAt_length]
  have hB0 : argvAt ((B.length : Int).toNat) B 0 = B[0]? := by
    rw [Int.toNat_ofNat, argvAt_length]
  have hcA : ((A.length : Int) > 0 ∧ (start : Int) > 0) ↔ (start : Int) > 0 := by
    constructor
    · exact fun h => h.2
    · exact fun h => ⟨by omega, h⟩
  have hcB : ((B.length : Int) > 0 ∧ (start : Int) > 0) ↔ (start : Int) > 0 := by
    constructor
    · exact fun h => h.2
    · exact fun h => ⟨by omega, h⟩
  unfold setProgramName
  simp only [hA0, hB0, h0, hcA, hcB]

/-- When the loop of `parse` meets an alias of the help identifier at the cursor `k`, in the
state `s`, the call ends there: the tables are cleared, the help text is written, and the
call ends as `showHelp` does. -/
theorem parse_help_at (p : ArgsParser) (argv : List String) (start : Nat)
    (hstart : start ≤ argv.length) (s : ArgsParser) (k : Nat)
    (hvisit : (s, k) ∈ p.parseVisits argv.length argv start) (h : String)
    (htok : argv[k]? = some h) (hh : mapFind h p.m_map_args = some p.m_help_id) :
    p.parse argv.length argv start
      = ⟨if p.m_buse_exit then .exit 0 else .throw (.HelpShown "Help requested."),
          s.cleared, s.cleared.showHelpText⟩ := by
  rw [parseVisits_eq p argv start hstart] at hvisit
  rw [parse_eq p argv start hstart]
  obtain ⟨name, hname⟩ := setProgramName_frame p argv.length argv start
  rw [hname] at hvisit ⊢
  have hfr := parseTrace_frame argv _ _ _ s k hvisit
  rw [parseLoop_of_mem_trace argv "" _ _ _ s k hvisit (le_refl _)]
  have hk := hfr.2.2.2.2
  have hstep := parseStep_help s argv.length argv k h
    (by rw [argvAt_length]; exact htok) (by rw [hfr.1, hfr.2.1]; exact hh)
  obtain ⟨f, hf⟩ : ∃ f, argv.length - k = f + 1 := ⟨argv.length - k - 1, by omega⟩
  rw [hf, parseLoop_stop argv f s k "" _ hk hstep]
  simp only [helpOutcome, hfr.2.2.1, String.empty_append]

/-! ## The value slots along the loop -/

/-- An iteration after which the loop goes on keeps the number of value slots of every
option. -/
theorem parseStep_next_values (p : ArgsParser) (argv : List String) (i : Nat)
    (p' : ArgsParser) (i' : Nat) (o : String) (hi : i < argv.length)
    (hs : parseStep p argv.length argv i = .next p' i' o) (id : Nat) (vs : List String)
    (hvs : mapFind id p.m_map_values = some vs) :
    ∃ vs', mapFind id p'.m_map_values = some vs' ∧ vs'.length = vs.length := by
  have hc := parseStep_case p argv i hi
  rw [hs] at hc
  cases hc with
  | positional sarg hread h hroom => exact ⟨vs, hvs, rfl⟩
  | flag sarg id' hread h hid hvalues =>
    refine ⟨vs, ?_, rfl⟩
    unfold markPresent
    cases hv : mapFind id' p.m_map_values with
    | some v => exact hvs
    | none =>
      have hne : id' ≠ id := by
        intro e; rw [e, hvs] at hv; cases hv
      simp only [mapFind_mapAssign_ne _ _ hne, hvs]
  | values sarg id' hread h hid values hvalues hne hcheck hfit =>
    by_cases he : id' = id
    · subst he
      rw [hvs] at hvalues
      cases hvalues
      refine ⟨_, mapFind_mapAssign_self _ _ _, ?_⟩
      simp only [List.length_take, List.length_drop]
      omega
    · exact ⟨vs, by simp only [mapFind_mapAssign_ne _ _ he, hvs], rfl⟩

theorem parseTrace_values (argv : List String) (fuel : Nat) (p : ArgsParser) (i : Nat)
    (s : ArgsParser) (k : Nat) (h : (s, k) ∈ parseTrace argv.length argv fuel p i)
    (id : Nat) (vs : List String) (hvs : mapFind id p.m_map_values = some vs) :
    ∃ vs', mapFind id s.m_map_values = some vs' ∧ vs'.length = vs.length := by
  have := parseTrace_rule argv
    (fun q _ => ∃ vs', mapFind id q.m_map_values = some vs' ∧ vs'.length = vs.length)
    (by
      intro q j q' j' ⟨w, hw, hl⟩ hj hs
      obtain ⟨w', hw', hl'⟩ := parseStep_next_values q argv j q' j' "" hj hs id w hw
      exact ⟨w', hw', hl'.trans hl⟩)
    fuel p i ⟨vs, hvs, rfl⟩ s k h
  exact this.1

/-- The iteration at an alias of an option with `n ≥ 1` value slots that `n` tokens follow:
the option is marked, the `n` tokens are stored as its values, and the loop goes on after
them. -/
theorem parseStep_values (s : ArgsParser) (argv : List String) (i : Nat) (t : String)
    (id : Nat) (vs : List String) (hlen : argv.length < 2147483648)
    (htok : argv[i]? = some t) (ht : mapFind t s.m_map_args = some id)
    (hid : id ≠ s.m_help_id) (hvs : mapFind id s.m_map_values = some vs) (hne : vs ≠ [])
    (hfollow : i + vs.length < argv.length) :
    parseStep s argv.length argv i
      = .next { s with
          m_set_args := setInsert id s.m_set_args
          m_map_values := mapAssign id ((argv.drop (i + 1)).take vs.length) s.m_map_values }
        (i + vs.length + 1) "" := by
  have hmp := markPresent_of_some s id vs hvs
  have hv' : mapFind id (s.markPresent id).m_map_values = some vs := by
    rw [hmp]; exact hvs
  rw [parseStep_option s _ argv i t id (by rw [argvAt_length]; exact htok) ht hid, hv']
  simp only [Option.getD_some]
  have hchk : ¬ int_wrap ((i : Int) + static_cast_int vs.length) ≥ (argv.length : Int) := by
    rw [check_of_fit argv.length i vs.length hfollow hlen]
    omega
  rw [if_neg hne, if_neg hchk, copyValues_of_lt argv i vs 0 (by omega)]
  simp only [List.length_take, List.length_drop, Nat.add_zero]
  have hmin : min vs.length (argv.length - (i + 1)) = vs.length := by omega
  rw [hmin, hmp]

/-- An iteration at a token that is no alias of the option `id` keeps the mark and the
values of that option. -/
theorem parseStep_next_other (p : ArgsParser) (argv : List String) (i : Nat)
    (p' : ArgsParser) (i' : Nat) (o : String) (hi : i < argv.length)
    (hs : parseStep p argv.length argv i = .next p' i' o) (id : Nat) (vs : List String)
    (hother : ∀ t, argv[i]? = some t → mapFind t p.m_map_args ≠ some id)
    (hmark : id ∈ p.m_set_args) (hvs : mapFind id p.m_map_values = some vs) :
    id ∈ p'.m_set_args ∧ mapFind id p'.m_map_values = some vs := by
  have hc := parseStep_case p argv i hi
  rw [hs] at hc
  cases hc with
  | positional sarg hread h hroom => exact ⟨hmark, hvs⟩
  | flag sarg id' hread h hid hvalues =>
    have hne : id' ≠ id := fun e => hother sarg hread (by rw [h, e])
    have hfr := markPresent_frame p id'
    refine ⟨by rw [hfr.2.2.2.2.2, mem_setInsert]; exact Or.inr hmark, ?_⟩
    unfold markPresent
    cases hv : mapFind id' p.m_map_values with
    | some v => exact hvs
    | none => simp only [mapFind_mapAssign_ne _ _ hne, hvs]
  | values sarg id' hread h hid values hvalues hne' hcheck hfit =>
    have hne : id' ≠ id := fun e => hother sarg hread (by rw [h, e])
    exact ⟨by simp only [mem_setInsert]; exact Or.inr hmark,
      by simp only [mapFind_mapAssign_ne _ _ hne, hvs]⟩

/-! ## Options without enough tokens for their values -/

/-- The iteration at an alias of an option with value slots that too few tokens follow, when
the number of slots and the cursor add up to an `int`: the option is marked and the call
throws `std::logic_error` with the text naming the token. -/
theorem parseStep_insufficient (s : ArgsParser) (argv : List String) (i : Nat) (t : String)
    (id : Nat) (vs : List String) (htok : argv[i]? = some t)
    (ht : mapFind t s.m_map_args = some id) (hid : id ≠ s.m_help_id)
    (hvs : mapFind id s.m_map_values = some vs) (hne : vs ≠ [])
    (hfew : argv.length ≤ i + vs.length) (hint : i + vs.length < 2147483648) :
    parseStep s argv.length argv i
      = .stop ⟨.throw (.logic_error (insufficientText t)),
          { s with m_set_args := setInsert id s.m_set_args }, ""⟩ := by
  have hmp := markPresent_of_some s id vs hvs
  have hv' : mapFind id (s.markPresent id).m_map_values = some vs := by
    rw [hmp]; exact hvs
  rw [parseStep_option s _ argv i t id (by rw [argvAt_length]; exact htok) ht hid, hv']
  simp only [Option.getD_some]
  have hchk : int_wrap ((i : Int) + static_cast_int vs.length) ≥ (argv.length : Int) := by
    unfold static_cast_int
    rw [int_wrap_of_lt (vs.length : Int) (by omega) (by omega),
      int_wrap_of_lt _ (by omega) (by omega)]
    omega
  rw [if_neg hne, if_pos hchk, hmp]

/-- The iteration at an alias of an option with `2^32` value slots, as the only token: the
conversion `static_cast<int>` of the number of slots is 0, the check of `parse` passes, and
the copy loop reads `argv` past its end. -/
theorem parseStep_wrapped (s : ArgsParser) (t : String) (id : Nat) (vs : List String)
    (ht : mapFind t s.m_map_args = some id) (hid : id ≠ s.m_help_id)
    (hvs : mapFind id s.m_map_values = some vs) (hlen : vs.length = 4294967296) :
    parseStep s 1 [t] 0
      = .stop ⟨.undefined, { s with m_set_args := setInsert id s.m_set_args }, ""⟩ := by
  have hmp := markPresent_of_some s id vs hvs
  have hv' : mapFind id (s.markPresent id).m_map_values = some vs := by
    rw [hmp]; exact hvs
  have hne : vs ≠ [] := by
    intro e; rw [e] at hlen; simp at hlen
  rw [show (1 : Nat) = [t].length from rfl,
    parseStep_option s _ [t] 0 t id (by rw [argvAt_length]; rfl) ht hid, hv']
  simp only [Option.getD_some]
  have hchk : ¬ int_wrap (((0 : Nat) : Int) + static_cast_int vs.length)
      ≥ (([t].length : Nat) : Int) := by
    unfold static_cast_int int_wrap
    rw [hlen]
    simp only [List.length_singleton]
    omega
  rw [if_neg hne, if_neg hchk,
    copyValues_none_of_ge [t] 0 vs hne (by rw [hlen]; simp), hmp]

/-! ## The identifiers of the options -/

theorem mapAssign_keys_new {ν : Type} (k : Nat) (v : ν) (m : List (Nat × ν))
    (h : k ∉ m.map Prod.fst) : (mapAssign k v m).map Prod.fst = m.map Prod.fst ++ [k] := by
  induction m with
  | nil => rfl
  | cons e m ih =>
    obtain ⟨a, b⟩ := e
    simp only [List.map_cons, List.mem_cons, not_or] at h
    have hne : ¬ a = k := fun e => h.1 e.symm
    simp only [mapAssign, if_neg hne, List.map_cons, ih h.2, List.cons_append]

theorem mapAssign_keys_old {ν : Type} (k : Nat) (v : ν) (m : List (Nat × ν))
    (h : k ∈ m.map Prod.fst) : (mapAssign k v m).map Prod.fst = m.map Prod.fst := by
  induction m with
  | nil => simp at h
  | cons e m ih =>
    obtain ⟨a, b⟩ := e
    by_cases hak : a = k
    · simp only [mapAssign, if_pos hak, List.map_cons]
    · simp only [List.map_cons, List.mem_cons] at h
      rcases h with h | h
      · exact absurd h.symm hak
      · simp only [mapAssign, if_neg hak, List.map_cons, ih h]

theorem mapFind_of_mem_keys {ν : Type} (k : Nat) (m : List (Nat × ν))
    (h : k ∈ m.map Prod.fst) : ∃ v, mapFind k m = some v := by
  induction m with
  | nil => simp at h
  | cons e m ih =>
    obtain ⟨a, b⟩ := e
    by_cases hak : a = k
    · exact ⟨b, by simp only [mapFind, if_pos hak]⟩
    · simp only [List.map_cons, List.mem_cons] at h
      rcases h with h | h
      · exact absurd h.symm hak
      · obtain ⟨v, hv⟩ := ih h
        exact ⟨v, by simp only [mapFind, if_neg hak, hv]⟩

/-- The loop of `add` leaves the aliases that are in the table bound as they are. -/
theorem addLoop_persist (id : Nat) (args : List String) (m : List (String × Nat))
    (arr : List String) (b : String) (j : Nat) (h : mapFind b m = some j) :
    mapFind b (addLoop id args m arr).1 = some j := by
  induction args generalizing m arr with
  | nil => exact h
  | cons s args ih =>
    unfold addLoop
    by_cases hs : (mapFind s m).isSome = true
    · rw [if_pos hs]; exact h
    · rw [if_neg hs]
      apply ih
      have hne : s ≠ b := by
        intro e; rw [e, h] at hs; exact hs rfl
      rw [mapFind_mapAssign_ne _ _ hne]
      exact h

/-- When the loop of `add` runs through, every alias of the list is bound to `id`. -/
theorem addLoop_bound (id : Nat) (args : List String) (m : List (String × Nat))
    (arr : List String) (h : (addLoop id args m arr).2.2 = none) :
    ∀ a ∈ args, mapFind a (addLoop id args m arr).1 = some id := by
  induction args generalizing m arr with
  | nil => intro a ha; cases ha
  | cons s args ih =>
    intro a ha
    unfold addLoop at h ⊢
    by_cases hs : (mapFind s m).isSome = true
    · rw [if_pos hs] at h; cases h
    · rw [if_neg hs] at h ⊢
      rcases List.mem_cons.mp ha with e | hmem
      · subst e
        exact addLoop_persist id args _ _ a id (mapFind_mapAssign_self _ _ _)
      · exact ih _ _ h a hmem

/-- The entries of the alias table after the loop of `add` are the entries before and
aliases of the list bound to `id`. -/
theorem addLoop_mem (id : Nat) (args : List String) (m : List (String × Nat))
    (arr : List String) (e : String × Nat) (h : e ∈ (addLoop id args m arr).1) :
    e ∈ m ∨ (e.2 = id ∧ e.1 ∈ args) := by
  induction args generalizing m arr with
  | nil => exact Or.inl h
  | cons s args ih =>
    unfold addLoop at h
    by_cases hs : (mapFind s m).isSome = true
    · rw [if_pos hs] at h; exact Or.inl h
    · rw [if_neg hs] at h
      rcases ih _ _ h with h1 | ⟨h1, h2⟩
      · rcases mem_mapAssign _ _ _ _ h1 with h3 | h3
        · exact Or.inl h3
        · right; rw [h3]; exact ⟨rfl, List.mem_cons_self _ _⟩
      · exact Or.inr ⟨h1, List.mem_cons_of_mem _ h2⟩

/-- The state that a successful `add` leaves. -/
theorem add_ok (p : ArgsParser) (args : List String) (n : Nat)
    (params_help help_text : String) (h : (p.add args n params_help help_text).1 = .ok ()) :
    (addLoop p.m_map_values.length args p.m_map_args []).2.2 = none ∧
    (p.add args n params_help help_text).2.m_map_args
      = (addLoop p.m_map_values.length args p.m_map_args []).1 ∧
    (p.add args n params_help help_text).2.m_map_values
      = mapAssign p.m_map_values.length (List.replicate n "") p.m_map_values ∧
    (p.add args n params_help help_text).2.m_set_args = p.m_set_args ∧
    (p.add args n params_help help_text).2.m_help_id = p.m_help_id := by
  unfold add at h ⊢
  cases args with
  | nil => simp at h
  | cons x xs =>
    simp only at h ⊢
    cases hres : addLoop p.m_map_values.length (x :: xs) p.m_map_args [] with
    | mk m rest =>
      obtain ⟨arr, thrown⟩ := rest
      rw [hres] at h
      cases thrown with
      | some s => simp at h
      | none => simp

/-! ## The tables of a parser whose registrations succeeded -/

theorem construct_tables (b : Bool) (d e n : String) (x : Bool) (m l : Nat) (dn : String) :
    (construct b d e n x m l dn).m_map_values = (if b then [(0, [])] else []) ∧
    (construct b d e n x m l dn).m_map_args
      = (if b then helpAliases.map (fun a => (a, 0)) else []) ∧
    (construct b d e n x m l dn).m_help_id = (if b then 0 else SIZE_MAX) ∧
    (construct b d e n x m l dn).m_set_args = [] := by
  cases b <;> cases hd : d.isEmpty <;> cases he : e.isEmpty <;>
    simp [construct, hd, he, addArgument, add, helpAliases, addLoop, mapFind, mapAssign,
      findArgID, isArgumentValid]

theorem markPresent_keys (q : ArgsParser) (id : Nat)
    (h : id ∈ q.m_map_values.map Prod.fst) :
    (q.markPresent id).m_map_values = q.m_map_values := by
  obtain ⟨v, hv⟩ := mapFind_of_mem_keys id q.m_map_values h
  rw [markPresent_of_some q id v hv]

/-- An iteration that does not show help keeps the alias table and the identifiers that
have value slots, when every alias is bound to such an identifier. -/
theorem parseStep_tables (q : ArgsParser) (argv : List String) (i : Nat)
    (hi : i < argv.length)
    (hslots : ∀ e ∈ q.m_map_args, e.2 ∈ q.m_map_values.map Prod.fst) :
    (∀ q' i' o, parseStep q argv.length argv i = .next q' i' o →
      q'.m_map_values.map Prod.fst = q.m_map_values.map Prod.fst) ∧
    (∀ r, parseStep q argv.length argv i = .stop r → helpShown r = false →
      r.state.m_map_args = q.m_map_args ∧
      r.state.m_map_values.map Prod.fst = q.m_map_values.map Prod.fst) := by
  have hc := parseStep_case q argv i hi
  constructor
  · intro q' i' o hs
    rw [hs] at hc
    cases hc with
    | positional sarg hread h hroom => rfl
    | flag sarg id hread h hid hvalues =>
      rw [markPresent_keys q id (hslots _ (mapFind_some_mem _ _ _ h))]
    | values sarg id hread h hid values hvalues hne hcheck hfit =>
      exact mapAssign_keys_old _ _ _ (hslots _ (mapFind_some_mem _ _ _ h))
  · intro r hs hno
    rw [hs] at hc
    cases hc with
    | reject sarg hread h hfull => exact ⟨rfl, rfl⟩
    | help sarg hread h =>
      exfalso
      simp only [helpShown, helpOutcome] at hno
      cases hb : q.m_buse_exit <;> simp [hb] at hno
    | insufficient sarg id hread h hid values hvalues hne hcheck =>
      exact ⟨(markPresent_frame q id).1,
        by rw [markPresent_keys q id (hslots _ (mapFind_some_mem _ _ _ h))]⟩
    | overrun sarg id hread h hid values hvalues hne hcheck hpast =>
      exact ⟨(markPresent_frame q id).1,
        by rw [markPresent_keys q id (hslots _ (mapFind_some_mem _ _ _ h))]⟩

/-- A call of `parse` that does not show help keeps the alias table and the identifiers that
have value slots, when every alias is bound to such an identifier. -/
theorem parse_tables (p : ArgsParser) (argv : List String) (start_index : Int)
    (hslots : ∀ e ∈ p.m_map_args, e.2 ∈ p.m_map_values.map Prod.fst)
    (hno : helpShown (p.parse argv.length argv start_index) = false) :
    (p.parse argv.length argv start_index).state.m_map_args = p.m_map_args ∧
    (p.parse argv.length argv start_index).state.m_map_values.map Prod.fst
      = p.m_map_values.map Prod.fst := by
  rcases parse_cases p argv start_index with h | ⟨start, hstart, h⟩
  · rw [h]; exact ⟨rfl, rfl⟩
  · rw [h] at hno ⊢
    rw [parse_eq p argv start hstart] at hno ⊢
    obtain ⟨name, hname⟩ := setProgramName_frame p argv.length argv start
    rw [hname] at hno ⊢
    obtain ⟨Post, hPost⟩ : ∃ Post : Result → Prop, Post = fun r =>
        helpShown r = false → r.state.m_map_args = p.m_map_args ∧
          r.state.m_map_values.map Prod.fst = p.m_map_values.map Prod.fst := ⟨_, rfl⟩
    have main : Post (parseLoop argv.length argv (argv.length - start)
        { p with m_program_name := name } start "") := by
      refine parseLoop_rule argv ""
        (fun q _ => q.m_map_args = p.m_map_args ∧
          q.m_map_values.map Prod.fst = p.m_map_values.map Prod.fst)
        Post ?_ ?_ ?_ _ _ _ ⟨rfl, rfl⟩ (le_refl _)
      · intro q i q' i' ⟨h1, h2⟩ hi hs
        have hsl : ∀ e ∈ q.m_map_args, e.2 ∈ q.m_map_values.map Prod.fst := by
          rw [h1, h2]; exact hslots
        exact ⟨(parseStep_next q argv i q' i' "" hi hs).2.2.2.1.trans h1,
          ((parseStep_tables q argv i hi hsl).1 q' i' "" hs).trans h2⟩
      · intro q i r ⟨h1, h2⟩ hi hs
        subst hPost
        intro hno'
        have hsl : ∀ e ∈ q.m_map_args, e.2 ∈ q.m_map_values.map Prod.fst := by
          rw [h1, h2]; exact hslots
        have := (parseStep_tables q argv i hi hsl).2 r hs hno'
        exact ⟨this.1.trans h1, this.2.trans h2⟩
      · intro q i h _
        subst hPost
        exact fun _ => h
    subst hPost
    exact main hno

/-- The alias table and the value slots of a parser whose registrations all succeeded: the
identifiers with value slots are `0 .. k-1`, in this order, and every alias is bound to one of
them. -/
theorem registered_tables (p : ArgsParser) (k : Nat) (h : Registered p k) :
    p.m_map_values.map Prod.fst = List.range k ∧ ∀ e ∈ p.m_map_args, e.2 < k := by
  induction h with
  | construct b d e n x m l dn =>
    have := construct_tables b d e n x m l dn
    rw [this.1, this.2.1]
    cases b
    · simp
    · simp only [if_true]
      exact ⟨by decide, by decide⟩
  | addArgument p k args n ph ht _ hok ih =>
    have hadd := add_ok p args n ph ht hok
    have hlen : p.m_map_values.length = k := by
      have := congrArg List.length ih.1
      simpa using this
    simp only [addArgument]
    rw [hadd.2.2.1, hadd.2.1, hlen]
    constructor
    · rw [mapAssign_keys_new _ _ _ (by rw [ih.1]; simp), ih.1, List.range_succ]
    · intro e he
      rcases addLoop_mem _ _ _ _ e he with h1 | ⟨h1, _⟩
      · exact Nat.lt_succ_of_lt (ih.2 e h1)
      · omega
  | addPositionalArgument p k name ht _ ih => exact ih
  | parse p k argv start_index _ hno ih =>
    have := parse_tables p argv start_index
      (by intro e he; rw [ih.1]; exact List.mem_range.mpr (ih.2 e he)) hno
    rw [this.1, this.2]
    exact ih

/-- A call of `parse` leaves the alias table as it is or, when it shows help, empty. -/
theorem parse_map_args (p : ArgsParser) (argv : List String) (start_index : Int) :
    (p.parse argv.length argv start_index).state.m_map_args = p.m_map_args ∨
    (p.parse argv.length argv start_index).state.m_map_args = [] := by
  rcases parse_cases p argv start_index with h | ⟨start, hstart, h⟩
  · rw [h]; exact Or.inl rfl
  · rw [h, parse_eq p argv start hstart]
    obtain ⟨name, hname⟩ := setProgramName_frame p argv.length argv start
    rw [hname]
    refine parseLoop_rule argv "" (fun q _ => q.m_map_args = p.m_map_args)
      (fun r => r.state.m_map_args = p.m_map_args ∨ r.state.m_map_args = [])
      ?_ ?_ ?_ _ _ _ rfl (le_refl _)
    · intro q i q' i' h1 hi hs
      exact (parseStep_next q argv i q' i' "" hi hs).2.2.2.1.trans h1
    · intro q i r h1 hi hs
      have hc := parseStep_case q argv i hi
      rw [hs] at hc
      cases hc with
      | reject sarg hread h hfull => exact Or.inl h1
      | help sarg hread h => exact Or.inr rfl
      | insufficient sarg id hread h hid values hvalues hne hcheck =>
        exact Or.inl ((markPresent_frame q id).1.trans h1)
      | overrun sarg id hread h hid values hvalues hne hcheck hpast =>
        exact Or.inl ((markPresent_frame q id).1.trans h1)
    · intro q i h1 _
      exact Or.inl h1

/-- A call of `parse` marks only identifiers to which a token of the call is bound. -/
theorem parse_marks (p : ArgsParser) (argv : List String) (start : Nat)
    (hstart : start ≤ argv.length) :
    ∀ y ∈ (p.parse argv.length argv start).state.m_set_args,
      y ∈ p.m_set_args ∨ ∃ t ∈ argv.drop start, mapFind t p.m_map_args = some y := by
  rw [parse_eq p argv start hstart]
  obtain ⟨name, hname⟩ := setProgramName_frame p argv.length argv start
  rw [hname]
  refine parseLoop_rule argv ""
    (fun q i => start ≤ i ∧ q.m_map_args = p.m_map_args ∧ ∀ y ∈ q.m_set_args,
      y ∈ p.m_set_args ∨ ∃ t ∈ argv.drop start, mapFind t p.m_map_args = some y)
    (fun r => ∀ y ∈ r.state.m_set_args,
      y ∈ p.m_set_args ∨ ∃ t ∈ argv.drop start, mapFind t p.m_map_args = some y)
    ?_ ?_ ?_ _ _ _ ⟨le_refl _, rfl, fun y hy => Or.inl hy⟩ (le_refl _)
  · intro q i q' i' ⟨h0, h1, h2⟩ hi hs
    have hn := parseStep_next q argv i q' i' "" hi hs
    refine ⟨by omega, hn.2.2.2.1.trans h1, ?_⟩
    have hc := parseStep_case q argv i hi
    rw [hs] at hc
    cases hc with
    | positional sarg hread h hroom => exact h2
    | flag sarg id hread h hid hvalues =>
      intro y hy
      rw [(markPresent_frame q id).2.2.2.2.2, mem_setInsert] at hy
      rcases hy with hy | hy
      · exact Or.inr ⟨sarg, mem_drop_of_getElem? argv start i sarg h0 hread,
          by rw [← h1, h, hy]⟩
      · exact h2 y hy
    | values sarg id hread h hid values hvalues hne hcheck hfit =>
      intro y hy
      simp only [mem_setInsert] at hy
      rcases hy with hy | hy
      · exact Or.inr ⟨sarg, mem_drop_of_getElem? argv start i sarg h0 hread,
          by rw [← h1, h, hy]⟩
      · exact h2 y hy
  · intro q i r ⟨h0, h1, h2⟩ hi hs
    have hc := parseStep_case q argv i hi
    rw [hs] at hc
    cases hc with
    | reject sarg hread h hfull => exact h2
    | help sarg hread h =>
      intro y hy
      simp [cleared] at hy
    | insufficient sarg id hread h hid values hvalues hne hcheck =>
      intro y hy
      simp only [(markPresent_frame q id).2.2.2.2.2, mem_setInsert] at hy
      rcases hy with hy | hy
      · exact Or.inr ⟨sarg, mem_drop_of_getElem? argv start i sarg h0 hread,
          by rw [← h1, h, hy]⟩
      · exact h2 y hy
    | overrun sarg id hread h hid values hvalues hne hcheck hpast =>
      intro y hy
      simp only [(markPresent_frame q id).2.2.2.2.2, mem_setInsert] at hy
      rcases hy with hy | hy
      · exact Or.inr ⟨sarg, mem_drop_of_getElem? argv start i sarg h0 hread,
          by rw [← h1, h, hy]⟩
      · exact h2 y hy
  · intro q i ⟨_, _, h2⟩ _
    exact h2

/-- A call of `parse` keeps the help identifier. -/
theorem parse_help_id (p : ArgsParser) (argv : List String) (start_index : Int) :
    (p.parse argv.length argv start_index).state.m_help_id = p.m_help_id := by
  rcases parse_cases p argv start_index with h | ⟨start, hstart, h⟩
  · rw [h]
  · rw [h, parse_eq p argv start hstart]
    obtain ⟨name, hname⟩ := setProgramName_frame p argv.length argv start
    rw [hname]
    refine parseLoop_rule argv "" (fun q _ => q.m_help_id = p.m_help_id)
      (fun r => r.state.m_help_id = p.m_help_id) ?_ ?_ ?_ _ _ _ rfl (le_refl _)
    · intro q i q' i' h1 hi hs
      exact (parseStep_next q argv i q' i' "" hi hs).2.2.2.2.1.trans h1
    · intro q i r h1 hi hs
      exact (parseStep_stop q argv i r hi hs).2.2.1.trans h1
    · intro q i h1 _
      exact h1

/-- On a parser whose registrations all succeeded and on which help has not been triggered,
either there is no help option, or the help aliases, and only they, are bound to the help
identifier 0. -/
theorem registered_help (p : ArgsParser) (k : Nat) (h : Registered p k) :
    p.m_help_id = SIZE_MAX ∨
    (p.m_help_id = 0 ∧ 1 ≤ k ∧ p.helpRegistered ∧
      ∀ e ∈ p.m_map_args, e.2 = 0 → e.1 ∈ helpAliases) := by
  induction h with
  | construct b d e n x m l dn =>
    have := construct_tables b d e n x m l dn
    cases b
    · left; rw [this.2.2.1]; rfl
    · right
      refine ⟨by rw [this.2.2.1]; rfl, le_refl _, ?_, ?_⟩
      · unfold helpRegistered
        rw [this.2.1, this.2.2.1]
        decide
      · rw [this.2.1]
        decide
  | addArgument p k args n ph ht hreg hok ih =>
    have hadd := add_ok p args n ph ht hok
    have htab := registered_tables p k hreg
    have hlen : p.m_map_values.length = k := by
      have := congrArg List.length htab.1
      simpa using this
    simp only [addArgument]
    rcases ih with ih | ⟨h1, h2, h3, h4⟩
    · left; rw [hadd.2.2.2.2]; exact ih
    · right
      refine ⟨by rw [hadd.2.2.2.2]; exact h1, by omega, ?_, ?_⟩
      · intro a ha
        rw [hadd.2.1, hadd.2.2.2.2]
        exact addLoop_persist _ _ _ _ a _ (h3 a ha)
      · intro e he he0
        rw [hadd.2.1] at he
        rcases addLoop_mem _ _ _ _ e he with h5 | ⟨h5, _⟩
        · exact h4 e h5 he0
        · omega
  | addPositionalArgument p k name ht _ ih => exact ih
  | parse p k argv start_index hreg hno ih =>
    have htab := registered_tables p k hreg
    have hpt := parse_tables p argv start_index
      (by intro e he; rw [htab.1]; exact List.mem_range.mpr (htab.2 e he)) hno
    have hid := parse_help_id p argv start_index
    rcases ih with ih | ⟨h1, h2, h3, h4⟩
    · left; rw [hid]; exact ih
    · right
      refine ⟨by rw [hid]; exact h1, h2, ?_, by rw [hpt.1]; exact h4⟩
      intro a ha
      rw [hpt.1, hid]
      exact h3 a ha

/-- On a parser whose registrations all succeeded and on which help has not been triggered,
only the help aliases are bound to the help identifier, as long as the options are fewer than
the largest `std::size_t`. -/
theorem registered_helpExclusive (p : ArgsParser) (k : Nat) (h : Registered p k)
    (hk : k < SIZE_MAX) : p.helpExclusive := by
  intro e he heq
  rcases registered_help p k h with h1 | ⟨h1, _, _, h4⟩
  · have := (registered_tables p k h).2 e he
    omega
  · exact h4 e he (by rw [heq, h1])

/-- When the loop of `parse` meets, at the cursor `i` and in the state `s`, an alias of an
option with value slots that too few tokens follow, and the number of slots and the cursor
add up to an `int`, the call marks the option and throws `std::logic_error` with the text
naming the token; the value slots are as before. -/
theorem parse_insufficient_at (p : ArgsParser) (argv : List String) (start : Nat)
    (hstart : start ≤ argv.length) (s : ArgsParser) (i : Nat)
    (hvisit : (s, i) ∈ p.parseVisits argv.length argv start) (t : String) (id : Nat)
    (vs : List String) (htok : argv[i]? = some t) (ht : mapFind t p.m_map_args = some id)
    (hid : id ≠ p.m_help_id) (hvs : mapFind id s.m_map_values = some vs) (hne : vs ≠ [])
    (hfew : argv.length ≤ i + vs.length) (hint : i + vs.length < 2147483648) :
    p.parse argv.length argv start
      = ⟨.throw (.logic_error (insufficientText t)),
          { s with m_set_args := setInsert id s.m_set_args }, ""⟩ := by
  rw [parseVisits_eq p argv start hstart] at hvisit
  rw [parse_eq p argv start hstart]
  obtain ⟨name, hname⟩ := setProgramName_frame p argv.length argv start
  rw [hname] at hvisit ⊢
  have hfr := parseTrace_frame argv _ _ _ s i hvisit
  rw [parseLoop_of_mem_trace argv "" _ _ _ s i hvisit (le_refl _)]
  have hstep := parseStep_insufficient s argv i t id vs htok (by rw [hfr.1]; exact ht)
    (by rw [hfr.2.1]; exact hid) hvs hne hfew hint
  obtain ⟨f, hf⟩ : ∃ f, argv.length - i = f + 1 := ⟨argv.length - i - 1, by omega⟩
  rw [hf, parseLoop_stop argv f s i "" _ hfr.2.2.2.2 hstep]
  rfl

end ArgsParser

namespace ArgsParser

/-! ## Lemmas on registration -/

/-- The loop of `add` runs through exactly when the aliases are pairwise distinct and none
is in the table. -/
theorem addLoop_none_iff (id : Nat) (args : List String) (m : List (String × Nat))
    (arr : List String) :
    (addLoop id args m arr).2.2 = none ↔ args.Nodup ∧ ∀ a ∈ args, mapFind a m = none := by
  induction args generalizing m arr with
  | nil => simp [addLoop]
  | cons s args ih =>
    unfold addLoop
    by_cases hs : (mapFind s m).isSome = true
    · rw [if_pos hs]
      constructor
      · intro h; cases h
      · rintro ⟨_, h2⟩
        have := h2 s (List.mem_cons_self _ _)
        rw [this] at hs; cases hs
    · rw [if_neg hs, ih]
      have hs' : mapFind s m = none := by
        cases h : mapFind s m with
        | none => rfl
        | some v => rw [h] at hs; simp at hs
      constructor
      · rintro ⟨hnd, hall⟩
        refine ⟨List.nodup_cons.mpr ⟨?_, hnd⟩, ?_⟩
        · intro hmem
          have := hall s hmem
          rw [mapFind_mapAssign_self] at this; cases this
        · intro a ha
          rcases List.mem_cons.mp ha with h | h
          · subst h; exact hs'
          · have := hall a h
            rw [mapFind_mapAssign] at this
            split at this
            · cases this
            · exact this
      · rintro ⟨hnd, hall⟩
        have hnd' := List.nodup_cons.mp hnd
        refine ⟨hnd'.2, ?_⟩
        intro a ha
        have hne : s ≠ a := by
          intro h; subst h; exact hnd'.1 ha
        rw [mapFind_mapAssign_ne _ _ hne]
        exact hall a (List.mem_cons_of_mem _ ha)

/-- When the loop of `add` throws, it throws at the first alias that is in the table already
or repeats an earlier alias of the list. -/
theorem addLoop_some (id : Nat) (args : List String) (m : List (String × Nat))
    (arr : List String) (s : String) (h : (addLoop id args m arr).2.2 = some s) :
    ∃ pre post, args = pre ++ s :: post ∧ pre.Nodup ∧ (∀ a ∈ pre, mapFind a m = none) ∧
      ((mapFind s m).isSome = true ∨ s ∈ pre) := by
  induction args generalizing m arr with
  | nil => simp [addLoop] at h
  | cons x args ih =>
    unfold addLoop at h
    by_cases hx : (mapFind x m).isSome = true
    · rw [if_pos hx] at h
      cases h
      exact ⟨[], args, rfl, List.nodup_nil, by simp, Or.inl hx⟩
    · rw [if_neg hx] at h
      have hx' : mapFind x m = none := by
        cases h' : mapFind x m with
        | none => rfl
        | some v => rw [h'] at hx; simp at hx
      obtain ⟨pre, post, hargs, hnd, hall, hs⟩ := ih _ _ h
      have hxpre : x ∉ pre := by
        intro hmem
        have := hall x hmem
        rw [mapFind_mapAssign_self] at this; cases this
      refine ⟨x :: pre, post, by simp [hargs], List.nodup_cons.mpr ⟨hxpre, hnd⟩, ?_, ?_⟩
      · intro a ha
        rcases List.mem_cons.mp ha with h1 | h1
        · subst h1; exact hx'
        · have := hall a h1
          rw [mapFind_mapAssign] at this
          split at this
          · cases this
          · exact this
      · rw [mapFind_mapAssign] at hs
        by_cases hxs : x = s
        · subst hxs; exact Or.inr (List.mem_cons_self _ _)
        · simp only [hxs, if_false] at hs
          rcases hs with hs | hs
          · exact Or.inl hs
          · exact Or.inr (List.mem_cons_of_mem _ hs)

end ArgsParser

/-! ## The bound on the positional values -/

/-- In every state a parser can be in, no more positional values are captured than there
are positional registrations. -/
theorem reachable_positional_bound (q : ArgsParser) (hq : ArgsParser.Reachable q) :
    q.m_positional_values.length ≤ q.m_positional_args.length := by
  induction hq with
  | construct b d e n x m l dn =>
    rw [ArgsParser.construct_positional]
    exact Nat.zero_le _
  | addArgument p args n ph ht _ ih =>
    have := ArgsParser.add_positional p args n ph ht
    simp only [ArgsParser.addArgument, this]
    exact ih
  | addPositionalArgument p name ht _ ih =>
    simp only [ArgsParser.addPositionalArgument, List.length_append, List.length_singleton]
    omega
  | parse p argv start_index _ ih =>
    rcases ArgsParser.parse_cases p argv start_index with h | ⟨start, hstart, h⟩
    · rw [h]; exact ih
    · rw [h, ArgsParser.parse_eq p argv start hstart]
      obtain ⟨name, hname⟩ := ArgsParser.setProgramName_frame p argv.length argv start
      rw [hname]
      refine ArgsParser.parseLoop_rule argv ""
        (fun q _ => q.m_positional_values.length ≤ q.m_positional_args.length)
        (fun r => r.state.m_positional_values.length ≤ r.state.m_positional_args.length)
        ?_ ?_ ?_ _ _ _ ih (le_refl _)
      · intro q i q' i' hinv hi hs
        have hc := ArgsParser.parseStep_case q argv i hi
        rw [hs] at hc
        cases hc with
        | positional sarg hread h hroom =>
          simp only [List.length_append, List.length_singleton]
          omega
        | flag sarg id hread h hid hvalues =>
          have := ArgsParser.markPresent_frame q id
          rw [this.2.2.1, this.2.2.2.1]
          exact hinv
        | values sarg id hread h hid values hvalues hne hcheck hfit => exact hinv
      · intro q i r hinv hi hs
        have := ArgsParser.parseStep_stop q argv i r hi hs
        simp only [this.1, this.2.1]
        exact hinv
      · intro q i hinv _
        exact hinv

namespace ArgsParser

/-! ## Registrations that fail -/

/-- The registration of an empty list of aliases throws and leaves the state as it is. -/
theorem add_empty_state (p : ArgsParser) (n : Nat) (params_help help_text : String) :
    p.add [] n params_help help_text
      = (.throw (.invalid_argument "Invalid empty arguments."), p) := rfl

/-- A registration whose first alias is registered already throws and leaves the state as
it is: no alias of the list has been entered yet. -/
theorem add_duplicate_first (p : ArgsParser) (a : String) (args : List String) (n : Nat)
    (params_help help_text : String) (h : p.isArgumentValid a = true) :
    p.add (a :: args) n params_help help_text
      = (.throw (.invalid_argument ("Invalid duplicated argument: \"" ++ a ++ "\".")), p) := by
  unfold isArgumentValid at h
  unfold add
  simp only [addLoop, h, if_true]

/-! ## The identifiers and the value slots in every state -/

theorem length_mapAssign_new {ν : Type} (k : Nat) (v : ν) (m : List (Nat × ν))
    (h : k ∉ m.map Prod.fst) : (mapAssign k v m).length = m.length + 1 := by
  have := congrArg List.length (mapAssign_keys_new k v m h)
  simpa using this

theorem length_mapAssign_old {ν : Type} (k : Nat) (v : ν) (m : List (Nat × ν))
    (h : k ∈ m.map Prod.fst) : (mapAssign k v m).length = m.length := by
  have := congrArg List.length (mapAssign_keys_old k v m h)
  simpa using this

theorem mem_keys_of_mapFind {ν : Type} (k : Nat) (v : ν) (m : List (Nat × ν))
    (h : mapFind k m = some v) : k ∈ m.map Prod.fst :=
  List.mem_map.mpr ⟨(k, v), mapFind_some_mem k v m h, rfl⟩

theorem contiguous_insert (q : ArgsParser) (v : List String) (h : q.contiguous) :
    (mapAssign q.m_map_values.length v q.m_map_values).map Prod.fst
        = List.range (q.m_map_values.length + 1)
      ∧ (mapAssign q.m_map_values.length v q.m_map_values).length
        = q.m_map_values.length + 1 := by
  have hnew : q.m_map_values.length ∉ q.m_map_values.map Prod.fst := by
    rw [h.1]; simp
  exact ⟨by rw [mapAssign_keys_new _ _ _ hnew, h.1, List.range_succ],
    length_mapAssign_new _ _ _ hnew⟩

theorem markPresent_contiguous (q : ArgsParser) (id : Nat) (h : q.contiguous)
    (hid : id ≤ q.m_map_values.length) : (q.markPresent id).contiguous := by
  unfold markPresent
  cases hv : mapFind id q.m_map_values with
  | some v => exact h
  | none =>
    have hnot : id ∉ q.m_map_values.map Prod.fst := by
      intro hin
      obtain ⟨v, hv'⟩ := mapFind_of_mem_keys id _ hin
      rw [hv] at hv'
      cases hv'
    have heq : id = q.m_map_values.length := by
      rw [h.1, List.mem_range] at hnot
      omega
    subst heq
    obtain ⟨h1, h2⟩ := contiguous_insert q [] h
    refine ⟨?_, ?_⟩
    · show (mapAssign _ _ _).map Prod.fst = List.range (mapAssign _ _ _).length
      rw [h1, h2]
    · intro e he
      show e.2 ≤ (mapAssign _ _ _).length
      rw [h2]
      exact Nat.le_succ_of_le (h.2 e he)

theorem add_contiguous (p : ArgsParser) (args : List String) (n : Nat)
    (params_help help_text : String) (h : p.contiguous) :
    (p.add args n params_help help_text).2.contiguous := by
  cases args with
  | nil => exact h
  | cons a args =>
    have hmem := addLoop_mem p.m_map_values.length (a :: args) p.m_map_args []
    unfold add
    simp only
    rcases hA : addLoop p.m_map_values.length (a :: args) p.m_map_args [] with ⟨m, arr, o⟩
    rw [hA] at hmem
    cases o with
    | some s =>
      refine ⟨h.1, ?_⟩
      intro e he
      rcases hmem e he with h1 | ⟨h1, _⟩
      · exact h.2 e h1
      · exact le_of_eq h1
    | none =>
      obtain ⟨h1, h2⟩ := contiguous_insert p (List.replicate n "") h
      refine ⟨?_, ?_⟩
      · show (mapAssign _ _ _).map Prod.fst = List.range (mapAssign _ _ _).length
        rw [h1, h2]
      · intro e he
        show e.2 ≤ (mapAssign _ _ _).length
        rw [h2]
        rcases hmem e he with h1 | ⟨h1, _⟩
        · exact Nat.le_succ_of_le (h.2 e h1)
        · omega

theorem parse_contiguous (p : ArgsParser) (argv : List String) (start_index : Int)
    (h : p.contiguous) : (p.parse argv.length argv start_index).state.contiguous := by
  rcases parse_cases p argv start_index with h0 | ⟨start, hstart, h0⟩
  · rw [h0]; exact h
  · rw [h0, parse_eq p argv start hstart]
    obtain ⟨name, hname⟩ := setProgramName_frame p argv.length argv start
    rw [hname]
    refine parseLoop_rule argv "" (fun q _ => q.contiguous) (fun r => r.state.contiguous)
      ?_ ?_ ?_ _ _ _ h (le_refl _)
    · intro q i q' i' h1 hi hs
      have hc := parseStep_case q argv i hi
      rw [hs] at hc
      cases hc with
      | positional sarg hread h hroom => exact h1
      | flag sarg id hread h hid hvalues =>
        exact markPresent_contiguous q id h1 (h1.2 _ (mapFind_some_mem _ _ _ h))
      | values sarg id hread h hid values hvalues hne hcheck hfit =>
        have hk := mem_keys_of_mapFind _ _ _ hvalues
        refine ⟨?_, ?_⟩
        · show (mapAssign _ _ _).map Prod.fst = List.range (mapAssign _ _ _).length
          rw [mapAssign_keys_old _ _ _ hk, length_mapAssign_old _ _ _ hk]
          exact h1.1
        · intro e he
          show e.2 ≤ (mapAssign _ _ _).length
          rw [length_mapAssign_old _ _ _ hk]
          exact h1.2 e he
    · intro q i r h1 hi hs
      have hc := parseStep_case q argv i hi
      rw [hs] at hc
      cases hc with
      | reject sarg hread h hfull => exact h1
      | help sarg hread h => exact ⟨rfl, by intro e he; cases he⟩
      | insufficient sarg id hread h hid values hvalues hne hcheck =>
        exact markPresent_contiguous q id h1 (h1.2 _ (mapFind_some_mem _ _ _ h))
      | overrun sarg id hread h hid values hvalues hne hcheck hpast =>
        exact markPresent_contiguous q id h1 (h1.2 _ (mapFind_some_mem _ _ _ h))
    · intro q i h1 _
      exact h1

theorem reachable_contiguous (p : ArgsParser) (h : Reachable p) : p.contiguous := by
  induction h with
  | construct b d e n x m l dn =>
    have := construct_tables b d e n x m l dn
    unfold contiguous
    rw [this.1, this.2.1]
    cases b
    · simp
    · simp only [if_true]
      exact ⟨by decide, by decide⟩
  | addArgument p args n ph ht _ ih => exact add_contiguous p args n ph ht ih
  | addPositionalArgument p name ht _ ih => exact ih
  | parse p argv start_index _ ih => exact parse_contiguous p argv start_index ih

theorem markPresent_values (q : ArgsParser) (id id' : Nat) (vs : List String)
    (h : mapFind id q.m_map_values = some vs) :
    mapFind id (q.markPresent id').m_map_values = some vs := by
  unfold markPresent
  cases hv : mapFind id' q.m_map_values with
  | some v => exact h
  | none =>
    have hne : id' ≠ id := by
      intro e
      rw [e, h] at hv
      cases hv
    simp only [mapFind_mapAssign_ne _ _ hne, h]

theorem helpShown_helpOutcome (q : ArgsParser) (s : ArgsParser) (o : String) :
    helpShown ⟨q.helpOutcome, s, o⟩ = true := by
  unfold helpShown helpOutcome
  cases q.m_buse_exit <;> rfl

/-- A call of `parse` that does not show help keeps the alias table and the number of the
value slots of every option. -/
theorem parse_slots (p : ArgsParser) (argv : List String) (start_index : Int)
    (hno : helpShown (p.parse argv.length argv start_index) = false) :
    (p.parse argv.length argv start_index).state.m_map_args = p.m_map_args ∧
    ∀ id vs, mapFind id p.m_map_values = some vs →
      ∃ vs', mapFind id (p.parse argv.length argv start_index).state.m_map_values = some vs'
        ∧ vs'.length = vs.length := by
  rcases parse_cases p argv start_index with h0 | ⟨start, hstart, h0⟩
  · rw [h0]; exact ⟨rfl, fun id vs h => ⟨vs, h, rfl⟩⟩
  · rw [h0] at hno ⊢
    rw [parse_eq p argv start hstart] at hno ⊢
    obtain ⟨name, hname⟩ := setProgramName_frame p argv.length argv start
    rw [hname] at hno ⊢
    obtain ⟨Post, hPost⟩ : ∃ Post : Result → Prop, Post = fun r => helpShown r = false →
        r.state.m_map_args = p.m_map_args ∧
        ∀ id vs, mapFind id p.m_map_values = some vs →
          ∃ vs', mapFind id r.state.m_map_values = some vs' ∧ vs'.length = vs.length :=
      ⟨_, rfl⟩
    have key := parseLoop_rule argv ""
      (fun q _ => q.m_map_args = p.m_map_args ∧
        ∀ id vs, mapFind id p.m_map_values = some vs →
          ∃ vs', mapFind id q.m_map_values = some vs' ∧ vs'.length = vs.length)
      Post ?_ ?_ ?_ (argv.length - start) { p with m_program_name := name } start
      ⟨rfl, fun id vs h => ⟨vs, h, rfl⟩⟩ (le_refl _)
    · rw [hPost] at key
      exact key hno
    · intro q i q' i' h1 hi hs
      refine ⟨(parseStep_next q argv i q' i' "" hi hs).2.2.2.1.trans h1.1, ?_⟩
      intro id vs hvs
      obtain ⟨vs1, hvs1, hl1⟩ := h1.2 id vs hvs
      obtain ⟨vs2, hvs2, hl2⟩ := parseStep_next_values q argv i q' i' "" hi hs id vs1 hvs1
      exact ⟨vs2, hvs2, hl2.trans hl1⟩
    · intro q i r h1 hi hs
      subst hPost
      intro hno'
      have hc := parseStep_case q argv i hi
      rw [hs] at hc
      cases hc with
      | reject sarg hread h hfull => exact h1
      | help sarg hread h =>
        rw [helpShown_helpOutcome] at hno'
        cases hno'
      | insufficient sarg id hread h hid values hvalues hne hcheck =>
        refine ⟨(markPresent_frame q id).1.trans h1.1, ?_⟩
        intro id' vs hvs
        obtain ⟨vs1, hvs1, hl1⟩ := h1.2 id' vs hvs
        exact ⟨vs1, markPresent_values q id' id vs1 hvs1, hl1⟩
      | overrun sarg id hread h hid values hvalues hne hcheck hpast =>
        refine ⟨(markPresent_frame q id).1.trans h1.1, ?_⟩
        intro id' vs hvs
        obtain ⟨vs1, hvs1, hl1⟩ := h1.2 id' vs hvs
        exact ⟨vs1, markPresent_values q id' id vs1 hvs1, hl1⟩
    · intro q i h1 _
      subst hPost
      intro _
      exact h1

theorem parse_visits_cases (p : ArgsParser) (argv : List String) (start_index : Int) :
    p.parse argv.length argv start_index
        = ⟨.throw (.invalid_argument "Not enough arguments."), p, ""⟩ ∨
      ∃ start : Nat, start ≤ argv.length ∧
        p.parse argv.length argv start_index = p.parse argv.length argv start ∧
        p.parseVisits argv.length argv start_index = p.parseVisits argv.length argv start := by
  by_cases hneg : start_index < 0
  · right
    refine ⟨0, Nat.zero_le _, ?_, ?_⟩
    · unfold parse
      simp [hneg]
    · unfold parseVisits
      simp [hneg]
  · by_cases hbig : (argv.length : Int) < start_index
    · left
      unfold parse
      have h2 : ¬ ((argv.length : Int) < 0) := by omega
      simp only [if_neg hneg, if_neg h2, if_pos hbig]
    · right
      refine ⟨start_index.toNat, by omega, ?_⟩
      have : ((start_index.toNat : Nat) : Int) = start_index := Int.toNat_of_nonneg (by omega)
      rw [this]
      exact ⟨rfl, rfl⟩

theorem parseStep_next_unmet (p : ArgsParser) (argv : List String) (i : Nat)
    (p' : ArgsParser) (i' : Nat) (o : String) (hi : i < argv.length)
    (hs : parseStep p argv.length argv i = .next p' i' o) (id : Nat) (vs : List String)
    (hother : ∀ t, argv[i]? = some t → mapFind t p.m_map_args ≠ some id)
    (hvs : mapFind id p.m_map_values = some vs) :
    mapFind id p'.m_map_values = some vs := by
  have hc := parseStep_case p argv i hi
  rw [hs] at hc
  cases hc with
  | positional sarg hread h hroom => exact hvs
  | flag sarg id' hread h hid hvalues => exact markPresent_values p id id' vs hvs
  | values sarg id' hread h hid values hvalues hne' hcheck hfit =>
    have hne : id' ≠ id := fun e => hother sarg hread (by rw [h, e])
    simp only [mapFind_mapAssign_ne _ _ hne, hvs]

/-- A call of `parse` that does not show help and meets no token bound to the option `id`
keeps the values of that option. -/
theorem parse_unmet (p : ArgsParser) (argv : List String) (start_index : Int)
    (hno : helpShown (p.parse argv.length argv start_index) = false)
    (id : Nat) (vs : List String) (hvs : mapFind id p.m_map_values = some vs)
    (hunmet : ∀ e ∈ p.parseVisits argv.length argv start_index,
      ∀ t, argv[e.2]? = some t → mapFind t p.m_map_args ≠ some id) :
    mapFind id (p.parse argv.length argv start_index).state.m_map_values = some vs := by
  rcases parse_visits_cases p argv start_index with h0 | ⟨start, hstart, h0, h1⟩
  · rw [h0]; exact hvs
  · rw [h1, parseVisits_eq p argv start hstart] at hunmet
    rw [h0] at hno ⊢
    rw [parse_eq p argv start hstart] at hno ⊢
    obtain ⟨name, hname⟩ := setProgramName_frame p argv.length argv start
    rw [hname] at hno hunmet ⊢
    obtain ⟨Post, hPost⟩ : ∃ Post : Result → Prop, Post = fun r => helpShown r = false →
        mapFind id r.state.m_map_values = some vs := ⟨_, rfl⟩
    have key := parseLoop_rule argv ""
      (fun q i => mapFind id q.m_map_values = some vs ∧ q.m_map_args = p.m_map_args ∧
        (i < argv.length → (q, i) ∈ parseTrace argv.length argv (argv.length - start)
          { p with m_program_name := name } start))
      Post ?_ ?_ ?_ (argv.length - start) { p with m_program_name := name } start
      ⟨hvs, rfl, fun hi => parseTrace_start argv _ _ _ hi (le_refl _)⟩ (le_refl _)
    · rw [hPost] at key
      exact key hno
    · intro q i q' i' hinv hi hs
      obtain ⟨hq, hargs, htr⟩ := hinv
      have hmem := htr hi
      refine ⟨?_, (parseStep_next q argv i q' i' "" hi hs).2.2.2.1.trans hargs, ?_⟩
      · apply parseStep_next_unmet q argv i q' i' "" hi hs id vs _ hq
        intro t ht
        rw [hargs]
        exact hunmet _ hmem t ht
      · intro hi'
        exact parseTrace_step argv _ _ _ q i q' i' "" hmem (le_refl _) hs hi'
    · intro q i r hinv hi hs
      subst hPost
      intro hno'
      obtain ⟨hq, hargs, htr⟩ := hinv
      have hc := parseStep_case q argv i hi
      rw [hs] at hc
      cases hc with
      | reject sarg hread h hfull => exact hq
      | help sarg hread h =>
        rw [helpShown_helpOutcome] at hno'
        cases hno'
      | insufficient sarg id' hread h hid values hvalues hne hcheck =>
        exact markPresent_values q id id' vs hq
      | overrun sarg id' hread h hid values hvalues hne hcheck hpast =>
        exact markPresent_values q id id' vs hq
    · intro q i hinv _
      subst hPost
      intro _
      exact hinv.1

theorem add_persist (p : ArgsParser) (args : List String) (n : Nat)
    (params_help help_text : String) (b : String) (j : Nat)
    (h : mapFind b p.m_map_args = some j) :
    mapFind b (p.add args n params_help help_text).2.m_map_args = some j := by
  cases args with
  | nil => exact h
  | cons a args =>
    have hp := addLoop_persist p.m_map_values.length (a :: args) p.m_map_args [] b j h
    unfold add
    simp only
    rcases hA : addLoop p.m_map_values.length (a :: args) p.m_map_args [] with ⟨m, arr, o⟩
    rw [hA] at hp
    cases o <;> exact hp

theorem add_values (p : ArgsParser) (args : List String) (n : Nat)
    (params_help help_text : String) (id : Nat) (vs : List String) (hc : p.contiguous)
    (h : mapFind id p.m_map_values = some vs) :
    mapFind id (p.add args n params_help help_text).2.m_map_values = some vs := by
  cases args with
  | nil => exact h
  | cons a args =>
    unfold add
    simp only
    rcases hA : addLoop p.m_map_values.length (a :: args) p.m_map_args [] with ⟨m, arr, o⟩
    cases o with
    | some s => exact h
    | none =>
      have hk := mem_keys_of_mapFind _ _ _ h
      rw [hc.1, List.mem_range] at hk
      have hne : p.m_map_values.length ≠ id := by omega
      show mapFind id (mapAssign _ _ _) = some vs
      rw [mapFind_mapAssign_ne _ _ hne]
      exact h

theorem follows_reachable (p0 : ArgsParser) (avoid : Option Nat) (q : ArgsParser)
    (h0 : Reachable p0) (h : Follows p0 avoid q) : Reachable q := by
  induction h with
  | refl => exact h0
  | addArgument q args n ph ht _ ih => exact Reachable.addArgument q args n ph ht ih
  | addPositionalArgument q name ht _ ih => exact Reachable.addPositionalArgument q name ht ih
  | parse q argv start_index _ _ _ _ ih => exact Reachable.parse q argv start_index ih

/-- The value slots of an alias in the states that follow. -/
theorem follows_slots (p0 : ArgsParser) (avoid : Option Nat) (q : ArgsParser)
    (h0 : Reachable p0) (h : Follows p0 avoid q) (a : String) (id : Nat) (vs : List String)
    (ha : mapFind a p0.m_map_args = some id) (hvs : mapFind id p0.m_map_values = some vs) :
    mapFind a q.m_map_args = some id ∧
    ∃ vs', mapFind id q.m_map_values = some vs' ∧ vs'.length = vs.length ∧
      (avoid = some id → vs' = vs) := by
  induction h with
  | refl => exact ⟨ha, vs, hvs, rfl, fun _ => rfl⟩
  | addArgument q args n ph ht hq ih =>
    obtain ⟨ha', vs', hvs', hlen, hsame⟩ := ih
    have hc := reachable_contiguous q (follows_reachable p0 avoid q h0 hq)
    exact ⟨add_persist q args n ph ht a id ha',
      vs', add_values q args n ph ht id vs' hc hvs', hlen, hsame⟩
  | addPositionalArgument q name ht _ ih => exact ih
  | parse q argv start_index hq hno _ hav ih =>
    obtain ⟨ha', vs', hvs', hlen, hsame⟩ := ih
    have hs := parse_slots q argv start_index hno
    refine ⟨by rw [hs.1]; exact ha', ?_⟩
    by_cases hid : avoid = some id
    · exact ⟨vs', parse_unmet q argv start_index hno id vs' hvs' (hav id hid), hlen, hsame⟩
    · obtain ⟨vs2, hvs2, hl2⟩ := hs.2 id vs' hvs'
      exact ⟨vs2, hvs2, hl2.trans hlen, fun h => absurd h hid⟩

theorem getValue_of_slots (q : ArgsParser) (a : String) (id : Nat) (vs : List String)
    (ha : mapFind a q.m_map_args = some id) (hvs : mapFind id q.m_map_values = some vs) :
    q.getValue a = .ok vs := by
  unfold getValue
  rw [findArgID_of_some q a id ha]
  simp only [hvs]

/-! ## Calls of `parse` one after the other -/

theorem setProgramName_named (p : ArgsParser) (argc : Int) (argv : List String)
    (start_index : Int) (h : p.m_program_name.isEmpty = false) :
    p.setProgramName argc argv start_index = p := by
  unfold setProgramName
  simp [h]

theorem markPresent_program_name (p : ArgsParser) (id : Nat) :
    (p.markPresent id).m_program_name = p.m_program_name := by
  unfold markPresent
  cases mapFind id p.m_map_values <;> rfl

theorem parseStep_next_program_name (p : ArgsParser) (argv : List String) (i : Nat)
    (p' : ArgsParser) (i' : Nat) (o : String) (hi : i < argv.length)
    (hs : parseStep p argv.length argv i = .next p' i' o) :
    p'.m_program_name = p.m_program_name := by
  have hc := parseStep_case p argv i hi
  rw [hs] at hc
  cases hc with
  | positional sarg hread h hroom => rfl
  | flag sarg id hread h hid hvalues => exact markPresent_program_name p id
  | values sarg id hread h hid values hvalues hne hcheck hfit => rfl

/-- An iteration of the loop that goes on is the same iteration on a token list with
tokens put in front, the cursor moved by their number. -/
theorem parseStep_shift (A B : List String) (hlen : (A ++ B).length < 2147483648)
    (p : ArgsParser) (j : Nat) (p' : ArgsParser) (j' : Nat) (o : String) (hj : j < B.length)
    (hs : parseStep p B.length B j = .next p' j' o) :
    parseStep p (A ++ B).length (A ++ B) (A.length + j) = .next p' (A.length + j') o := by
  have hread : ∀ sarg, B[j]? = some sarg →
      argvAt (A ++ B).length (A ++ B) (A.length + j) = some sarg := by
    intro sarg h
    rw [argvAt_length, List.getElem?_append_right (Nat.le_add_right _ _)]
    simpa using h
  have hread' : ∀ sarg, B[j]? = some sarg → (A ++ B)[A.length + j]? = some sarg := by
    intro sarg h
    rw [← argvAt_length]
    exact hread sarg h
  have hc := parseStep_case p B j hj
  rw [hs] at hc
  cases hc with
  | positional sarg hr h hroom =>
    rw [parseStep_unknown p _ _ _ sarg (hread sarg hr) h, if_neg (by omega)]
    simp only [Nat.add_assoc]
  | flag sarg id hr h hid hvalues =>
    rw [parseStep_option p _ _ _ sarg id (hread sarg hr) h hid, if_pos hvalues]
    simp only [Nat.add_assoc]
  | values sarg id hr h hid values hvalues hne hcheck hfit =>
    have hfit' : A.length + j + values.length < (A ++ B).length := by
      rw [List.length_append]
      omega
    rw [parseStep_values p (A ++ B) (A.length + j) sarg id values hlen (hread' sarg hr) h hid
      hvalues hne hfit']
    have hd : (A ++ B).drop (A.length + j + 1) = B.drop (j + 1) := by
      rw [Nat.add_assoc, List.drop_append]
    rw [hd]
    simp only [Nat.add_assoc]


/-- A call of the loop that ends well on the tokens `A` is the first part of the loop on
`A` followed by `B`, which goes on at the first token of `B` in the state reached. -/
theorem parseLoop_append_left (A B : List String) (hlen : (A ++ B).length < 2147483648)
    (out : String) (R : Result) :
    ∀ fuel p i, i ≤ A.length → A.length - i ≤ fuel →
      parseLoop (A ++ B).length (A ++ B) ((A ++ B).length - i) p i out = R →
      (parseLoop A.length A fuel p i out).outcome = .ok () →
      parseLoop (A ++ B).length (A ++ B) B.length (parseLoop A.length A fuel p i out).state
        A.length out = R
      ∧ (parseLoop A.length A fuel p i out).state.m_program_name = p.m_program_name := by
  have hAB := List.length_append A B
  have hA : A.length < 2147483648 := by omega
  intro fuel
  induction fuel with
  | zero =>
    intro p i hi hfuel hR _
    have hi' : i = A.length := by omega
    subst hi'
    rw [parseLoop_done _ _ _ _ _ _ (le_refl _)]
    refine ⟨?_, rfl⟩
    rw [← hR]
    exact parseLoop_fuel (A ++ B) out _ _ _ _ (by omega) (le_refl _)
  | succ fuel ih =>
    intro p i hi hfuel hR hok
    by_cases hiA : i < A.length
    · cases hs : parseStep p A.length A i with
      | next p' i' o =>
        have hn := parseStep_next p A i p' i' o hiA hs
        have hs' : parseStep p (A ++ B).length (A ++ B) i = .next p' i' o :=
          parseStep_local A (A ++ B) hA p i p' i' o hiA hs
            (by omega)
            (by rw [List.take_append_of_le_length hn.2.1])
        rw [parseLoop_next A fuel p i out p' i' o hiA hs] at hok ⊢
        have hiAB : i < (A ++ B).length := by omega
        have hR' : parseLoop (A ++ B).length (A ++ B) ((A ++ B).length - i') p' i' out = R := by
          rw [← hR, show (A ++ B).length - i = ((A ++ B).length - i - 1) + 1 by omega,
            parseLoop_next (A ++ B) _ p i out p' i' o hiAB hs']
          exact parseLoop_fuel (A ++ B) out _ _ _ _ (le_refl _) (by omega)
        obtain ⟨h1, h2⟩ := ih p' i' hn.2.1 (by omega) hR' hok
        exact ⟨h1, h2.trans (parseStep_next_program_name p A i p' i' o hiA hs)⟩
      | stop r =>
        rw [parseLoop_stop A fuel p i out r hiA hs] at hok
        exact absurd hok (parseStep_stop p A i r hiA hs).2.2.2.2
    · have hi' : i = A.length := by omega
      subst hi'
      rw [parseLoop_done _ _ _ _ _ _ (le_refl _)]
      refine ⟨?_, rfl⟩
      rw [← hR]
      exact parseLoop_fuel (A ++ B) out _ _ _ _ (by omega) (le_refl _)

/-- A call of the loop that ends well on the tokens `B` is the loop on `A` followed by `B`
from the first token of `B` on. -/
theorem parseLoop_append_right (A B : List String) (hlen : (A ++ B).length < 2147483648)
    (out : String) :
    ∀ fuel p j, B.length - j ≤ fuel →
      (parseLoop B.length B fuel p j out).outcome = .ok () →
      parseLoop (A ++ B).length (A ++ B) fuel p (A.length + j) out
        = parseLoop B.length B fuel p j out := by
  have hAB := List.length_append A B
  intro fuel
  induction fuel with
  | zero =>
    intro p j hfuel _
    rw [parseLoop_done _ _ _ _ _ _ (by omega),
      parseLoop_done _ _ _ _ _ _ (by omega)]
  | succ fuel ih =>
    intro p j hfuel hok
    by_cases hj : j < B.length
    · cases hs : parseStep p B.length B j with
      | next p' j' o =>
        have hn := parseStep_next p B j p' j' o hj hs
        have hs' := parseStep_shift A B hlen p j p' j' o hj hs
        have hjAB : A.length + j < (A ++ B).length := by
          simp only [List.length_append]; omega
        rw [parseLoop_next B fuel p j out p' j' o hj hs] at hok ⊢
        rw [parseLoop_next (A ++ B) fuel p (A.length + j) out p' (A.length + j') o hjAB hs']
        exact ih p' j' (by omega) hok
      | stop r =>
        rw [parseLoop_stop B fuel p j out r hj hs] at hok
        exact absurd hok (parseStep_stop p B j r hj hs).2.2.2.2
    · rw [parseLoop_done _ _ _ _ _ _ (by omega),
        parseLoop_done _ _ _ _ _ _ (by omega)]

end ArgsParser

/-! ## The claims -/

namespace ArgsParser

/-- C1. For every parser state and every alias list, `addArgument` (every overload of which
forwards to `add`) succeeds if and only if the list is non-empty, its aliases are pairwise distinct
and none of them is a valid alias already.  Otherwise it throws `std::invalid_argument`:
"Invalid empty arguments." for the empty list, and else the duplicated-argument message
naming the offending alias, which is the first alias of the list that is valid already or
repeats an earlier alias of the list. -/
theorem add_succeeds_iff (p : ArgsParser) (args : List String) (n : Nat)
    (params_help help_text : String) :
    ((p.addArgument args n params_help help_text).1 = .ok () ↔
      (args ≠ [] ∧ args.Nodup ∧ ∀ a ∈ args, p.isArgumentValid a = false)) ∧
    (args = [] →
      (p.addArgument args n params_help help_text).1
        = .throw (.invalid_argument "Invalid empty arguments.")) ∧
    (args ≠ [] → ¬ (args.Nodup ∧ ∀ a ∈ args, p.isArgumentValid a = false) →
      ∃ pre s post, args = pre ++ s :: post ∧ pre.Nodup ∧
        (∀ a ∈ pre, p.isArgumentValid a = false) ∧
        (p.isArgumentValid s = true ∨ s ∈ pre) ∧
        (p.addArgument args n params_help help_text).1
          = .throw (.invalid_argument ("Invalid duplicated argument: \"" ++ s ++ "\"."))) := by
  unfold addArgument
  have hvalid : ∀ a, p.isArgumentValid a = false ↔ mapFind a p.m_map_args = none := by
    intro a
    unfold isArgumentValid
    cases mapFind a p.m_map_args <;> simp
  cases args with
  | nil => simp [add]
  | cons x xs =>
    have hiff := addLoop_none_iff p.m_map_values.length (x :: xs) p.m_map_args []
    cases hres : addLoop p.m_map_values.length (x :: xs) p.m_map_args [] with
    | mk m rest =>
      obtain ⟨arr, thrown⟩ := rest
      rw [hres] at hiff
      cases thrown with
      | none =>
        have hcond := hiff.mp rfl
        refine ⟨?_, by simp, ?_⟩
        · simp only [add, hres, true_iff]
          exact ⟨by simp, hcond.1, fun a ha => (hvalid a).mpr (hcond.2 a ha)⟩
        · intro _ hnot
          exact absurd ⟨hcond.1, fun a ha => (hvalid a).mpr (hcond.2 a ha)⟩ hnot
      | some s =>
        have hsome := addLoop_some p.m_map_values.length (x :: xs) p.m_map_args [] s
          (by rw [hres])
        obtain ⟨pre, post, hargs, hnd, hall, hs⟩ := hsome
        refine ⟨?_, by simp, ?_⟩
        · simp only [add, hres]
          constructor
          · intro h; cases h
          · rintro ⟨_, hnd', hall'⟩
            have := hiff.mpr ⟨hnd', fun a ha => (hvalid a).mp (hall' a ha)⟩
            cases this
        · intro _ _
          refine ⟨pre, s, post, hargs, hnd, fun a ha => (hvalid a).mpr (hall a ha), ?_, ?_⟩
          · rcases hs with hs | hs
            · exact Or.inl hs
            · exact Or.inr hs
          · simp only [add, hres]

end ArgsParser

/-- C2, as amended.  For a parser on which help has not been triggered (only the help
aliases are bound to the help identifier), with `k` positional registrations, no positional
value captured yet and options that all have arity 0, and for a token list (from the start
index on) without help alias and with at most `k` tokens that are no registered alias:
`parse` succeeds, the captured positional values are exactly the tokens that are no
registered alias, in input order (so `getPositionalValue i` is the `i`-th of them), and after
the call `hasArgument a` is true exactly for the aliases `a` whose option was marked present
before the call or has some alias among the tokens. -/
theorem parse_flags_and_positionals (p : ArgsParser) (argv : List String) (start : Nat)
    (hstart : start ≤ argv.length) (hhelp : p.helpExclusive)
    (hnone : p.m_positional_values = []) (harity : ∀ e ∈ p.m_map_values, e.2 = [])
    (hnohelp : ∀ t ∈ argv.drop start, t ∉ ArgsParser.helpAliases)
    (hcount : ((argv.drop start).filter (fun t => !p.isArgumentValid t)).length
      ≤ p.m_positional_args.length) :
    (p.parse argv.length argv start).outcome = .ok () ∧
    (p.parse argv.length argv start).state.m_positional_values
      = (argv.drop start).filter (fun t => !p.isArgumentValid t) ∧
    (∀ i v, ((argv.drop start).filter (fun t => !p.isArgumentValid t))[i]? = some v →
      (p.parse argv.length argv start).state.getPositionalValue i = .ok v) ∧
    (∀ a id, mapFind a p.m_map_args = some id →
      (p.parse argv.length argv start).state.hasArgument a
        = .ok (decide (id ∈ p.m_set_args ∨
            ∃ t ∈ argv.drop start, mapFind t p.m_map_args = some id))) := by
  obtain ⟨Post, hPost⟩ : ∃ Post : Result → Prop, Post = fun r =>
      r.outcome = .ok () ∧ r.state.m_map_args = p.m_map_args ∧
      r.state.m_positional_values = (argv.drop start).filter (fun t => !p.isArgumentValid t) ∧
      ∀ x, x ∈ r.state.m_set_args ↔
        x ∈ p.m_set_args ∨ ∃ t ∈ argv.drop start, mapFind t p.m_map_args = some x :=
    ⟨_, rfl⟩
  have hvalid : ∀ t, p.isArgumentValid t = (mapFind t p.m_map_args).isSome := fun _ => rfl
  have main : Post (p.parse argv.length argv start) := by
    rw [ArgsParser.parse_eq p argv start hstart]
    obtain ⟨name, hname⟩ := ArgsParser.setProgramName_frame p argv.length argv start
    rw [hname]
    refine ArgsParser.parseLoop_rule argv ""
      (fun q i => start ≤ i ∧ i ≤ argv.length ∧ q.m_map_args = p.m_map_args ∧
        q.m_help_id = p.m_help_id ∧ q.m_positional_args = p.m_positional_args ∧
        (∀ e ∈ q.m_map_values, e.2 = []) ∧
        q.m_positional_values
          = ((argv.drop start).take (i - start)).filter (fun t => !p.isArgumentValid t) ∧
        ∀ x, x ∈ q.m_set_args ↔ x ∈ p.m_set_args ∨
          ∃ t ∈ (argv.drop start).take (i - start), mapFind t p.m_map_args = some x)
      Post ?_ ?_ ?_ _ _ _
      ⟨le_refl _, hstart, rfl, rfl, rfl, harity, by simp [hnone], by simp⟩ (le_refl _)
    all_goals subst hPost
    -- the loop goes on
    · intro q i q' i' ⟨h1, h2, h3, h4, h5, h6, h7, h8⟩ hi hs
      have hc := ArgsParser.parseStep_case q argv i hi
      rw [hs] at hc
      cases hc with
      | positional sarg hread h hroom =>
        rw [h3] at h
        have hf : (!p.isArgumentValid sarg) = true := by simp [hvalid, h]
        refine ⟨by omega, by omega, h3, h4, h5, h6, ?_, ?_⟩
        · simp only [h7, ArgsParser.take_succ_sub argv start i sarg h1 hread,
            List.filter_append, List.filter_cons, hf, if_true, List.filter_nil]
        · intro x
          simp only [h8 x, ArgsParser.take_succ_sub argv start i sarg h1 hread,
            List.mem_append, List.mem_singleton]
          constructor
          · rintro (hx | ⟨t, ht, hx⟩)
            · exact Or.inl hx
            · exact Or.inr ⟨t, Or.inl ht, hx⟩
          · rintro (hx | ⟨t, ht | ht, hx⟩)
            · exact Or.inl hx
            · exact Or.inr ⟨t, ht, hx⟩
            · rw [ht, h] at hx; cases hx
      | flag sarg id hread h hid hvalues =>
        rw [h3] at h
        have hf : (!p.isArgumentValid sarg) = false := by simp [hvalid, h]
        have hfr := ArgsParser.markPresent_frame q id
        refine ⟨by omega, by omega, hfr.1.trans h3, hfr.2.1.trans h4, hfr.2.2.1.trans h5,
          ArgsParser.markPresent_all_empty q id h6, ?_, ?_⟩
        · rw [hfr.2.2.2.1, h7]
          simp only [ArgsParser.take_succ_sub argv start i sarg h1 hread,
            List.filter_append, List.filter_cons, hf, List.filter_nil, List.append_nil]
          simp
        · intro x
          rw [hfr.2.2.2.2.2, mem_setInsert, h8 x]
          simp only [ArgsParser.take_succ_sub argv start i sarg h1 hread,
            List.mem_append, List.mem_singleton]
          constructor
          · rintro (hx | hx | ⟨t, ht, hx⟩)
            · exact Or.inr ⟨sarg, Or.inr rfl, by rw [h, hx]⟩
            · exact Or.inl hx
            · exact Or.inr ⟨t, Or.inl ht, hx⟩
          · rintro (hx | ⟨t, ht | ht, hx⟩)
            · exact Or.inr (Or.inl hx)
            · exact Or.inr (Or.inr ⟨t, ht, hx⟩)
            · rw [ht, h] at hx
              cases hx
              exact Or.inl rfl
      | values sarg id hread h hid values hvalues hne hcheck hfit =>
        exact absurd (h6 _ (ArgsParser.mapFind_some_mem _ _ _ hvalues)) hne
    -- the call does not end in the loop
    · intro q i r ⟨h1, h2, h3, h4, h5, h6, h7, h8⟩ hi hs
      have hc := ArgsParser.parseStep_case q argv i hi
      rw [hs] at hc
      cases hc with
      | reject sarg hread h hfull =>
        rw [h3] at h
        have hf : (!p.isArgumentValid sarg) = true := by simp [hvalid, h]
        have hle := ArgsParser.length_filter_take_le (fun t => !p.isArgumentValid t)
          (i + 1 - start) (argv.drop start)
        rw [ArgsParser.take_succ_sub argv start i sarg h1 hread, List.filter_append,
          List.length_append, ← h7] at hle
        simp only [List.filter_cons, hf, if_true, List.filter_nil,
          List.length_singleton] at hle
        rw [h5] at hfull
        omega
      | help sarg hread h =>
        have hmem := ArgsParser.mapFind_some_mem _ _ _ h
        rw [h3, h4] at hmem
        exact absurd (hhelp _ hmem rfl)
          (hnohelp sarg (ArgsParser.mem_drop_of_getElem? argv start i sarg h1 hread))
      | insufficient sarg id hread h hid values hvalues hne hcheck =>
        exact absurd (h6 _ (ArgsParser.mapFind_some_mem _ _ _ hvalues)) hne
      | overrun sarg id hread h hid values hvalues hne hcheck hpast =>
        exact absurd (h6 _ (ArgsParser.mapFind_some_mem _ _ _ hvalues)) hne
    -- the loop ends
    · intro q i ⟨h1, h2, h3, h4, h5, h6, h7, h8⟩ hi
      have htake : (argv.drop start).take (i - start) = argv.drop start := by
        apply List.take_of_length_le
        rw [List.length_drop]
        omega
      rw [htake] at h7 h8
      exact ⟨rfl, h3, h7, h8⟩
  subst hPost
  obtain ⟨m1, m2, m3, m4⟩ := main
  refine ⟨m1, m3, ?_, ?_⟩
  · intro i v hv
    simp only [ArgsParser.getPositionalValue, m3, hv]
  · intro a id ha
    have hfind := ArgsParser.findArgID_of_some (p.parse argv.length argv start).state a id
      (by rw [m2]; exact ha)
    simp only [ArgsParser.hasArgument, hfind, ArgsParser.hasArgumentID, Outcome.ok.injEq]
    exact decide_eq_decide.mpr (m4 id)

/-- The amended claim C2 at the parser and the tokens of the spec. -/
theorem parse_flags_and_positionals_witness :
    (ArgsParser.verboseParser.parse 3
      ["foo.txt", "--verbose", "bar.txt"] 0).state.m_positional_values
      = ["foo.txt", "bar.txt"] :=
  (parse_flags_and_positionals ArgsParser.verboseParser ["foo.txt", "--verbose", "bar.txt"] 0
    (by decide) (by decide) (by decide) (by decide) (by decide) (by decide)).2.1

/-- The claim C2 as stated fails on a parser that has parsed before: the parser with the
flag `--verbose` that has parsed the token `--verbose` is a state a parser can be in, help
has not been triggered on it, it has no positional value and only options of arity 0; on
the empty token list `parse` succeeds, and `hasArgument "--verbose"` is true although no
token is an alias of that option. -/
theorem parse_flags_and_positionals_counterexample :
    ArgsParser.Reachable ArgsParser.flagParserParsed ∧
    ArgsParser.flagParserParsed.helpExclusive ∧
    ArgsParser.flagParserParsed.m_positional_values = [] ∧
    (∀ e ∈ ArgsParser.flagParserParsed.m_map_values, e.2 = []) ∧
    (ArgsParser.flagParserParsed.parse 0 [] 0).outcome = .ok () ∧
    (ArgsParser.flagParserParsed.parse 0 [] 0).state.hasArgument "--verbose" = .ok true ∧
    ¬ ∃ t ∈ ([] : List String), mapFind t ArgsParser.flagParserParsed.m_map_args
        = mapFind "--verbose" ArgsParser.flagParserParsed.m_map_args := by
  refine ⟨?_, by decide, by decide, by decide, by decide, by decide, by decide⟩
  exact ArgsParser.Reachable.parse _ ["--verbose"] 0
    (ArgsParser.Reachable.addArgument _ _ _ _ _ (ArgsParser.Reachable.construct _ _ _ _ _ _ _ _))

/-- C3.  For an option that is not the help option and is registered with `n ≥ 1` value
slots: when the loop of `parse` meets one of its aliases at the cursor `i`, in the state
`s`, and at least `n` tokens follow, the iteration marks the option, stores the tokens
`i+1 .. i+n` in order as its values and goes on at the cursor `i+n+1`; the positional
values, the marks of the other options and the output are as before, whatever the `n`
tokens are.  When the call succeeds and the loop meets no alias of the option after `i`,
then `hasArgument` and `hasValue` are true for every alias `a` of the option and `getValue`
returns these `n` tokens. -/
theorem parse_option_values (p : ArgsParser) (argv : List String) (start : Nat)
    (hstart : start ≤ argv.length) (hlen : argv.length < 2147483648)
    (a : String) (id n : Nat) (halias : mapFind a p.m_map_args = some id)
    (hid : id ≠ p.m_help_id)
    (harity : (mapFind id p.m_map_values).map List.length = some n) (hn : 1 ≤ n)
    (s : ArgsParser) (i : Nat) (hvisit : (s, i) ∈ p.parseVisits argv.length argv start)
    (t : String) (htok : argv[i]? = some t) (ht : mapFind t p.m_map_args = some id)
    (hfollow : i + n < argv.length) :
    ArgsParser.parseStep s argv.length argv i
      = .next { s with
          m_set_args := setInsert id s.m_set_args
          m_map_values := mapAssign id ((argv.drop (i + 1)).take n) s.m_map_values }
        (i + n + 1) "" ∧
    ((p.parse argv.length argv start).outcome = .ok () →
      (∀ e ∈ p.parseVisits argv.length argv start, i < e.2 →
        argv[e.2]?.bind (fun t' => mapFind t' p.m_map_args) ≠ some id) →
      (p.parse argv.length argv start).state.hasArgument a = .ok true ∧
      (p.parse argv.length argv start).state.hasValue a = .ok true ∧
      (p.parse argv.length argv start).state.getValue a
        = .ok ((argv.drop (i + 1)).take n)) := by
  obtain ⟨vs0, hvs0, hlen0⟩ : ∃ vs0, mapFind id p.m_map_values = some vs0 ∧ vs0.length = n := by
    cases hv : mapFind id p.m_map_values with
    | none => rw [hv] at harity; cases harity
    | some vs0 =>
      rw [hv] at harity
      simp only [Option.map_some', Option.some.injEq] at harity
      exact ⟨vs0, rfl, harity⟩
  have hvis := hvisit
  rw [ArgsParser.parseVisits_eq p argv start hstart] at hvis
  obtain ⟨name, hname⟩ := ArgsParser.setProgramName_frame p argv.length argv start
  rw [hname] at hvis
  have hfr := ArgsParser.parseTrace_frame argv _ _ _ s i hvis
  obtain ⟨vs, hvs, hvsl⟩ := ArgsParser.parseTrace_values argv _ _ _ s i hvis id vs0 hvs0
  have hvsn : vs.length = n := hvsl.trans hlen0
  have hne : vs ≠ [] := by
    intro e; rw [e] at hvsn; simp at hvsn; omega
  have hstep := ArgsParser.parseStep_values s argv i t id vs hlen htok
    (by rw [hfr.1]; exact ht) (by rw [hfr.2.1]; exact hid) hvs hne (by omega)
  rw [hvsn] at hstep
  refine ⟨hstep, ?_⟩
  intro hok hlast
  obtain ⟨Post, hPost⟩ : ∃ Post : Result → Prop, Post = fun r =>
      r.outcome = .ok () → r.state.m_map_args = p.m_map_args ∧ id ∈ r.state.m_set_args ∧
        mapFind id r.state.m_map_values = some ((argv.drop (i + 1)).take n) := ⟨_, rfl⟩
  have main : Post (p.parse argv.length argv start) := by
    rw [ArgsParser.parse_eq p argv start hstart, hname,
      ArgsParser.parseLoop_of_mem_trace argv "" _ _ _ s i hvis (le_refl _)]
    obtain ⟨f, hf⟩ : ∃ f, argv.length - i = f + 1 := ⟨argv.length - i - 1, by omega⟩
    rw [hf, ArgsParser.parseLoop_next argv f s i "" _ _ _ hfr.2.2.2.2 hstep]
    refine ArgsParser.parseLoop_rule argv ""
      (fun q j => (j < argv.length → (q, j) ∈ p.parseVisits argv.length argv start) ∧
        i < j ∧ q.m_map_args = p.m_map_args ∧ id ∈ q.m_set_args ∧
        mapFind id q.m_map_values = some ((argv.drop (i + 1)).take n))
      Post ?_ ?_ ?_ _ _ _ ⟨?_, by omega, hfr.1, ?_, ?_⟩ (by omega)
    · intro q j q' j' ⟨h1, h2, h3, h4, h5⟩ hj hs
      have hn := ArgsParser.parseStep_next q argv j q' j' "" hj hs
      have hoth : ∀ t', argv[j]? = some t' → mapFind t' q.m_map_args ≠ some id := by
        intro t' ht'
        rw [h3]
        have := hlast (q, j) (h1 hj) h2
        simpa only [ht', Option.some_bind] using this
      have hk := ArgsParser.parseStep_next_other q argv j q' j' "" hj hs id _ hoth h4 h5
      refine ⟨?_, by omega, hn.2.2.2.1.trans h3, hk.1, hk.2⟩
      intro hj'
      have hq := h1 hj
      rw [ArgsParser.parseVisits_eq p argv start hstart] at hq ⊢
      exact ArgsParser.parseTrace_step argv _ _ _ q j q' j' "" hq (le_refl _) hs hj'
    · intro q j r _ hj hs
      subst hPost
      intro hr
      exact absurd hr (ArgsParser.parseStep_stop q argv j r hj hs).2.2.2.2
    · intro q j ⟨_, _, h3, h4, h5⟩ _
      subst hPost
      exact fun _ => ⟨h3, h4, h5⟩
    · intro hj
      rw [ArgsParser.parseVisits_eq p argv start hstart, hname]
      exact ArgsParser.parseTrace_step argv _ _ _ s i _ _ "" hvis (le_refl _) hstep hj
    · simp only [mem_setInsert, true_or]
    · simp only [mapFind_mapAssign_self]
  subst hPost
  obtain ⟨m1, m2, m3⟩ := main hok
  have hfind := ArgsParser.findArgID_of_some (p.parse argv.length argv start).state a id
    (by rw [m1]; exact halias)
  have hnonempty : ((argv.drop (i + 1)).take n).isEmpty = false := by
    cases hl : (argv.drop (i + 1)).take n with
    | nil =>
      have := congrArg List.length hl
      simp only [List.length_take, List.length_drop, List.length_nil] at this
      omega
    | cons x xs => rfl
  refine ⟨?_, ?_, ?_⟩
  · simp only [ArgsParser.hasArgument, hfind, ArgsParser.hasArgumentID, m2, decide_True]
  · simp only [ArgsParser.hasValue, hfind, ArgsParser.hasArgumentID, m2, decide_True, if_true,
      m3, hnonempty, Bool.not_false]
  · simp only [ArgsParser.getValue, hfind, m3]

set_option maxHeartbeats 4000000 in
/-- The claim C3 at the sample parser, whose option `--size` has two value slots: the
tokens `--help` and `--bogus` that follow `--size` are stored as its values. -/
theorem parse_option_values_witness :
    (ArgsParser.sampleParser.parse 5
      ["in.txt", "--size", "--help", "--bogus", "out.txt"] 0).state.getValue "--size"
      = .ok ["--help", "--bogus"] :=
  ((parse_option_values ArgsParser.sampleParser
      ["in.txt", "--size", "--help", "--bogus", "out.txt"] 0 (by decide) (by decide)
      "--size" 2 2 (by decide) (by decide) (by decide) (by decide)
      { ArgsParser.sampleParser with m_positional_values := ["in.txt"] } 1 (by decide)
      "--size" (by decide) (by decide) (by decide)).2 (by decide) (by decide)).2.2

/-- C4, at the input on which the code departs from the claim.  The option `-x` is
registered with `n = 2^32` value slots and `parse` gets the single token `-x`: the loop
meets the alias at the cursor 0 and fewer than `n` tokens follow (`0 + n ≥ argc = 1`), but
the call does not throw the insufficient-parameters error.  `static_cast<int>(n)` is 0, the
check `0 + 0 >= 1` passes, and the copy loop reads `argv[1]`, past the end of `argv`. -/
theorem parse_insufficient_wraps :
    ArgsParser.hugeArityParser.getValue "-x" = .ok (List.replicate 4294967296 "") ∧
    (ArgsParser.hugeArityParser, 0) ∈ ArgsParser.hugeArityParser.parseVisits 1 ["-x"] 0 ∧
    (ArgsParser.hugeArityParser.parse 1 ["-x"] 0).outcome = .undefined ∧
    (ArgsParser.hugeArityParser.parse 1 ["-x"] 0).outcome
      ≠ .throw (.logic_error (ArgsParser.insufficientText "-x")) := by
  have hargs : mapFind "-x" ArgsParser.hugeArityParser.m_map_args = some 0 := by decide
  have hid : (0 : Nat) ≠ ArgsParser.hugeArityParser.m_help_id := by decide
  have hvs : mapFind 0 ArgsParser.hugeArityParser.m_map_values
      = some (List.replicate 4294967296 "") := rfl
  have hstep := ArgsParser.parseStep_wrapped ArgsParser.hugeArityParser "-x" 0 _ hargs hid hvs
    (List.length_replicate _ _)
  have hname : ArgsParser.hugeArityParser.setProgramName 1 ["-x"] 0
      = ArgsParser.hugeArityParser := rfl
  have hparse : (ArgsParser.hugeArityParser.parse 1 ["-x"] 0).outcome = .undefined := by
    have h := ArgsParser.parse_eq ArgsParser.hugeArityParser ["-x"] 0 (Nat.zero_le _)
    simp only [List.length_singleton, Nat.cast_one, Nat.cast_zero, Nat.sub_zero] at h
    rw [h, hname]
    exact congrArg Result.outcome
      (ArgsParser.parseLoop_stop ["-x"] 0 _ 0 "" _ (by decide) hstep)
  refine ⟨?_, ?_, hparse, ?_⟩
  · simp only [ArgsParser.getValue, ArgsParser.findArgID_of_some _ _ _ hargs, hvs]
  · have h := ArgsParser.parseVisits_eq ArgsParser.hugeArityParser ["-x"] 0 (Nat.zero_le _)
    simp only [List.length_singleton, Nat.cast_one, Nat.cast_zero, Nat.sub_zero] at h
    rw [h, hname]
    exact ArgsParser.parseTrace_start ["-x"] 1 _ 0 (by decide) (by decide)
  · rw [hparse]
    exact fun h => by cases h

/-- C5. For a parser with `k` positional registrations and no positional value captured yet,
and a token list (from the start index on) none of whose tokens is a registered alias: with
at most `k` tokens `parse` succeeds and captures all of them in order; with more than `k`
tokens it captures the first `k` and throws `InvalidArgument` for the token after them.
And in every state a parser can be in, the number of captured positional values is at most
the number of positional registrations. -/
theorem parse_positional_tokens (p : ArgsParser) (argv : List String) (start : Nat)
    (hstart : start ≤ argv.length) (hnone : p.m_positional_values = [])
    (hunknown : ∀ t ∈ argv.drop start, mapFind t p.m_map_args = none) :
    ((argv.drop start).length ≤ p.m_positional_args.length →
      (p.parse argv.length argv start).outcome = .ok () ∧
      (p.parse argv.length argv start).state.m_positional_values = argv.drop start) ∧
    (p.m_positional_args.length < (argv.drop start).length →
      (p.parse argv.length argv start).outcome
        = .throw (.InvalidArgument (ArgsParser.invalidArgumentText
            ((argv.drop start).getD p.m_positional_args.length ""))) ∧
      (p.parse argv.length argv start).state.m_positional_values
        = (argv.drop start).take p.m_positional_args.length) ∧
    (∀ q, ArgsParser.Reachable q →
      q.m_positional_values.length ≤ q.m_positional_args.length) := by
  obtain ⟨Post, hPost⟩ : ∃ Post : Result → Prop, Post = fun r =>
      ((argv.drop start).length ≤ p.m_positional_args.length →
        r.outcome = .ok () ∧ r.state.m_positional_values = argv.drop start) ∧
      (p.m_positional_args.length < (argv.drop start).length →
        r.outcome = .throw (.InvalidArgument (ArgsParser.invalidArgumentText
            ((argv.drop start).getD p.m_positional_args.length ""))) ∧
        r.state.m_positional_values = (argv.drop start).take p.m_positional_args.length) :=
    ⟨_, rfl⟩
  have main : Post (p.parse argv.length argv start) := by
    rw [ArgsParser.parse_eq p argv start hstart]
    obtain ⟨name, hname⟩ := ArgsParser.setProgramName_frame p argv.length argv start
    rw [hname]
    refine ArgsParser.parseLoop_rule argv ""
      (fun q i => start ≤ i ∧ i ≤ argv.length ∧ i - start ≤ p.m_positional_args.length ∧
        q.m_map_args = p.m_map_args ∧ q.m_positional_args = p.m_positional_args ∧
        q.m_positional_values = (argv.drop start).take (i - start))
      Post ?_ ?_ ?_ _ _ _
      ⟨le_refl _, hstart, by omega, rfl, rfl, by simp [hnone]⟩ (le_refl _)
    all_goals subst hPost
    -- the loop goes on: the token is captured
    · intro q i q' i' ⟨h1, h2, h3, h4, h5, h6⟩ hi hs
      have hc := ArgsParser.parseStep_case q argv i hi
      rw [hs] at hc
      cases hc with
      | positional sarg hread h hroom =>
        rw [h6, h5, List.length_take, List.length_drop] at hroom
        refine ⟨by omega, by omega, by omega, h4, h5, ?_⟩
        simp only [h6]
        exact (ArgsParser.take_succ_sub argv start i sarg h1 hread).symm
      | flag sarg id hread h hid hvalues =>
        rw [h4, hunknown sarg (ArgsParser.mem_drop_of_getElem? argv start i sarg h1 hread)] at h
        cases h
      | values sarg id hread h hid values hvalues hne hcheck hfit =>
        rw [h4, hunknown sarg (ArgsParser.mem_drop_of_getElem? argv start i sarg h1 hread)] at h
        cases h
    -- the call ends in the loop: the token is one too many
    · intro q i r ⟨h1, h2, h3, h4, h5, h6⟩ hi hs
      have hc := ArgsParser.parseStep_case q argv i hi
      rw [hs] at hc
      cases hc with
      | reject sarg hread h hfull =>
        rw [h6, h5, List.length_take, List.length_drop] at hfull
        have hik : i - start = p.m_positional_args.length := by omega
        have hget : (argv.drop start).getD p.m_positional_args.length "" = sarg := by
          rw [List.getD_eq_getElem?_getD, ← hik, ArgsParser.getElem?_drop_sub argv start i h1,
            hread]
          rfl
        refine ⟨fun hlen => ?_, fun _ => ?_⟩
        · rw [List.length_drop] at hlen
          omega
        · simp only [hget, h6, hik, and_self]
      | help sarg hread h =>
        rw [h4, hunknown sarg (ArgsParser.mem_drop_of_getElem? argv start i sarg h1 hread)] at h
        cases h
      | insufficient sarg id hread h hid values hvalues hne hcheck =>
        rw [h4, hunknown sarg (ArgsParser.mem_drop_of_getElem? argv start i sarg h1 hread)] at h
        cases h
      | overrun sarg id hread h hid values hvalues hne hcheck hpast =>
        rw [h4, hunknown sarg (ArgsParser.mem_drop_of_getElem? argv start i sarg h1 hread)] at h
        cases h
    -- the loop ends: every token is captured
    · intro q i ⟨h1, h2, h3, h4, h5, h6⟩ hi
      refine ⟨fun _ => ⟨rfl, ?_⟩, fun hlen => ?_⟩
      · simp only [h6]
        apply List.take_of_length_le
        rw [List.length_drop]
        omega
      · rw [List.length_drop] at hlen
        omega
  subst hPost
  exact ⟨main.1, main.2, reachable_positional_bound⟩

/-- The claim C5 at the parser with the positional arguments `input` and `output` and the
tokens `foo.txt`, `bar.txt`. -/
theorem parse_positional_tokens_witness :
    (ArgsParser.positionalParser.parse 2 ["foo.txt", "bar.txt"] 0).outcome = .ok () ∧
    (ArgsParser.positionalParser.parse 2 ["foo.txt", "bar.txt"] 0).state.m_positional_values
      = ["foo.txt", "bar.txt"] :=
  (parse_positional_tokens ArgsParser.positionalParser ["foo.txt", "bar.txt"] 0
    (by decide) (by decide) (by decide)).1 (by decide)

/-- C6, as amended.  For a parser constructed with `bshow_help` on which help has not been
triggered before (the help aliases are bound to the help identifier): when the loop of
`parse` meets one of the help aliases at the cursor `k`, in the state `s` that the tokens
before `k` have led to, the call ends there.  It clears the tables, writes the help text and
ends with `std::exit(0)` if `m_buse_exit` is set and with the exception `HelpShown`
otherwise.  The tokens after `k` are not read: the call has the same outcome, output and
final state on every token list with the same tokens up to and including `k`. -/
theorem parse_help_stops (p : ArgsParser) (argv : List String) (start : Nat)
    (hstart : start ≤ argv.length) (hlen : argv.length < 2147483648)
    (hreg : p.helpRegistered) (s : ArgsParser) (k : Nat)
    (hvisit : (s, k) ∈ p.parseVisits argv.length argv start) (h : String)
    (hh : h ∈ ArgsParser.helpAliases) (htok : argv[k]? = some h) :
    p.parse argv.length argv start
      = ⟨if p.m_buse_exit then .exit 0 else .throw (.HelpShown "Help requested."),
          s.cleared, s.cleared.showHelpText⟩ ∧
    ∀ argv' : List String, argv'.take (k + 1) = argv.take (k + 1) →
      p.parse argv'.length argv' start = p.parse argv.length argv start := by
  have h1 := ArgsParser.parse_help_at p argv start hstart s k hvisit h htok (hreg h hh)
  refine ⟨h1, ?_⟩
  intro B hB
  have hvis := hvisit
  rw [ArgsParser.parseVisits_eq p argv start hstart] at hvis
  have hfr := ArgsParser.parseTrace_frame argv _ _ _ s k hvis
  have hkB : k < B.length := by
    have := congrArg List.length hB
    simp only [List.length_take] at this
    omega
  have hstartB : start ≤ B.length := by omega
  have hvisB : (s, k) ∈ p.parseVisits B.length B start := by
    rw [ArgsParser.parseVisits_eq p B start hstartB,
      ← ArgsParser.setProgramName_local argv B p start k hfr.2.2.2.2 hkB hB.symm]
    exact ArgsParser.parseTrace_local argv B hlen k hkB hB.symm _ _ _ _ s hvis (le_refl _)
      (le_refl _)
  have htokB : B[k]? = some h := by
    rw [ArgsParser.getElem?_of_take_eq B argv (k + 1) k hB (by omega)]
    exact htok
  rw [h1]
  exact ArgsParser.parse_help_at p B start hstartB s k hvisB h htokB (hreg h hh)

/-- The amended claim C6 at the sample parser and the token `--help`: the call throws
`HelpShown`, also when unknown tokens and an option without its values follow. -/
theorem parse_help_stops_witness :
    (ArgsParser.sampleParser.parse 1 ["--help"] 0).outcome
        = .throw (.HelpShown "Help requested.") ∧
    ArgsParser.sampleParser.parse 3 ["--help", "--bogus", "--size"] 0
        = ArgsParser.sampleParser.parse 1 ["--help"] 0 :=
  ⟨congrArg Result.outcome
      (parse_help_stops ArgsParser.sampleParser ["--help"] 0 (by decide) (by decide)
        (by decide) ArgsParser.sampleParser 0 (by decide) "--help" (by decide) (by decide)).1,
    (parse_help_stops ArgsParser.sampleParser ["--help"] 0 (by decide) (by decide)
        (by decide) ArgsParser.sampleParser 0 (by decide) "--help" (by decide) (by decide)).2
      ["--help", "--bogus", "--size"] (by decide)⟩

/-- The claim C6 as stated fails on a parser on which help has been shown before: the parser
constructed with `bshow_help` that has shown help once is a state a parser can be in; the
loop of `parse` meets the token `--help` at the cursor 0, and the call throws
`InvalidArgument` for it and writes no help. -/
theorem parse_help_stops_counterexample :
    ArgsParser.Reachable ArgsParser.helpParserShown ∧
    (ArgsParser.helpParserShown, 0) ∈ ArgsParser.helpParserShown.parseVisits 1 ["--help"] 0 ∧
    ArgsParser.helpParserShown.parse 1 ["--help"] 0
      = ⟨.throw (.InvalidArgument "Invalid argument: \"--help\"."),
          ArgsParser.helpParserShown, ""⟩ := by
  refine ⟨?_, by decide, by decide⟩
  exact ArgsParser.Reachable.parse _ ["--help"] 0 (ArgsParser.Reachable.construct _ _ _ _ _ _ _ _)

/-- C7.  On a parser whose earlier registrations all succeeded, `k` of them for options
(the help option of the constructor counts), and on which help has not been triggered, a
successful `addArgument` binds every alias of its list to the identifier `k`; the aliases
registered before keep their identifiers, which are smaller than `k`.  After any call of
`parse` on the new state, `hasArgument` gives the same answer for any two aliases of the
list (the same truth value, or for both the exception `InvalidArgument` when the call has
shown help and cleared the table), and a call of `parse` marks only identifiers to which one
of its tokens is bound, so that an alias of one option never marks another option. -/
theorem addArgument_shared_identifier (p : ArgsParser) (k : Nat)
    (hreg : ArgsParser.Registered p k) (args : List String) (n : Nat)
    (params_help help_text : String)
    (hok : (p.addArgument args n params_help help_text).1 = .ok ()) :
    (∀ a ∈ args, (p.addArgument args n params_help help_text).2.findArgID a = .ok k) ∧
    (∀ b, p.isArgumentValid b = true → ∃ j, j < k ∧ p.findArgID b = .ok j ∧
      (p.addArgument args n params_help help_text).2.findArgID b = .ok j) ∧
    (∀ (argv : List String) (start_index : Int), ∀ a ∈ args, ∀ b ∈ args,
      (∃ v,
        ((p.addArgument args n params_help help_text).2.parse argv.length argv
            start_index).state.hasArgument a = .ok v ∧
        ((p.addArgument args n params_help help_text).2.parse argv.length argv
            start_index).state.hasArgument b = .ok v) ∨
      (((p.addArgument args n params_help help_text).2.parse argv.length argv
            start_index).state.hasArgument a
          = .throw (.InvalidArgument (ArgsParser.invalidArgumentText a)) ∧
        ((p.addArgument args n params_help help_text).2.parse argv.length argv
            start_index).state.hasArgument b
          = .throw (.InvalidArgument (ArgsParser.invalidArgumentText b)))) ∧
    (∀ (argv : List String) (start : Nat), start ≤ argv.length →
      ∀ y ∈ ((p.addArgument args n params_help help_text).2.parse argv.length argv
          start).state.m_set_args,
        y ∈ (p.addArgument args n params_help help_text).2.m_set_args ∨
        ∃ t ∈ argv.drop start,
          (p.addArgument args n params_help help_text).2.findArgID t = .ok y) := by
  have htab := ArgsParser.registered_tables p k hreg
  have hlen : p.m_map_values.length = k := by
    have := congrArg List.length htab.1
    simpa using this
  have hadd := ArgsParser.add_ok p args n params_help help_text hok
  rw [hlen] at hadd
  have hbound := ArgsParser.addLoop_bound k args p.m_map_args [] hadd.1
  have hnew : ∀ a ∈ args,
      mapFind a (p.addArgument args n params_help help_text).2.m_map_args = some k := by
    intro a ha
    simp only [ArgsParser.addArgument]
    rw [hadd.2.1]
    exact hbound a ha
  refine ⟨?_, ?_, ?_, ?_⟩
  · intro a ha
    exact ArgsParser.findArgID_of_some _ a k (hnew a ha)
  · intro b hb
    unfold ArgsParser.isArgumentValid at hb
    cases hj : mapFind b p.m_map_args with
    | none => rw [hj] at hb; cases hb
    | some j =>
      refine ⟨j, htab.2 _ (ArgsParser.mapFind_some_mem _ _ _ hj),
        ArgsParser.findArgID_of_some p b j hj, ?_⟩
      apply ArgsParser.findArgID_of_some
      simp only [ArgsParser.addArgument]
      rw [hadd.2.1]
      exact ArgsParser.addLoop_persist k args p.m_map_args [] b j hj
  · intro argv start_index a ha b hb
    rcases ArgsParser.parse_map_args (p.addArgument args n params_help help_text).2 argv
      start_index with h | h
    · left
      refine ⟨((p.addArgument args n params_help help_text).2.parse argv.length argv
        start_index).state.hasArgumentID k, ?_, ?_⟩
      · simp only [ArgsParser.hasArgument,
          ArgsParser.findArgID_of_some _ a k (by rw [h]; exact hnew a ha)]
      · simp only [ArgsParser.hasArgument,
          ArgsParser.findArgID_of_some _ b k (by rw [h]; exact hnew b hb)]
    · right
      constructor
      · simp only [ArgsParser.hasArgument,
          ArgsParser.findArgID_of_none _ a (by rw [h]; rfl)]
      · simp only [ArgsParser.hasArgument,
          ArgsParser.findArgID_of_none _ b (by rw [h]; rfl)]
  · intro argv start hstart y hy
    rcases ArgsParser.parse_marks _ argv start hstart y hy with h | ⟨t, ht, h⟩
    · exact Or.inl h
    · exact Or.inr ⟨t, ht, ArgsParser.findArgID_of_some _ t y h⟩

/-- The claim C7 at the parser constructed with the help option, which is its first option:
the aliases `--verbose` and `-v` of the next registration are both bound to 1. -/
theorem addArgument_shared_identifier_witness :
    (ArgsParser.helpParser.addArgument ["--verbose", "-v"] 0 "" "Be verbose.").2.findArgID
        "--verbose" = .ok 1 ∧
    (ArgsParser.helpParser.addArgument ["--verbose", "-v"] 0 "" "Be verbose.").2.findArgID
        "-v" = .ok 1 :=
  ⟨(addArgument_shared_identifier ArgsParser.helpParser 1
      (ArgsParser.Registered.construct true "" "" "prog" false 0 80 "program")
      ["--verbose", "-v"] 0 "" "Be verbose." (by decide)).1 "--verbose" (by decide),
    (addArgument_shared_identifier ArgsParser.helpParser 1
      (ArgsParser.Registered.construct true "" "" "prog" false 0 80 "program")
      ["--verbose", "-v"] 0 "" "Be verbose." (by decide)).1 "-v" (by decide)⟩

/-- C8. In every parser state and for every string that is no key of the alias table
`m_map_args`, the queries `getValue`, `hasValue` and `hasArgument` throw `InvalidArgument`
with the text naming that string, and `isArgumentValid` returns false without throwing.
The four are `const` members: they are functions of the state and return no new state. -/
theorem queries_on_unknown_alias (p : ArgsParser) (arg : String)
    (h : mapFind arg p.m_map_args = none) :
    p.getValue arg = .throw (.InvalidArgument ("Invalid argument: \"" ++ arg ++ "\".")) ∧
    p.hasValue arg = .throw (.InvalidArgument ("Invalid argument: \"" ++ arg ++ "\".")) ∧
    p.hasArgument arg = .throw (.InvalidArgument ("Invalid argument: \"" ++ arg ++ "\".")) ∧
    p.isArgumentValid arg = false := by
  have hf := ArgsParser.findArgID_of_none p arg h
  simp only [ArgsParser.invalidArgumentText] at hf
  refine ⟨?_, ?_, ?_, ?_⟩
  · simp only [ArgsParser.getValue, hf]
  · simp only [ArgsParser.hasValue, hf]
  · simp only [ArgsParser.hasArgument, hf]
  · simp [ArgsParser.isArgumentValid, h]

/-- The claim C8 at the sample parser and the string `--nope`. -/
theorem queries_on_unknown_alias_witness :
    ArgsParser.sampleParser.getValue "--nope"
      = .throw (.InvalidArgument "Invalid argument: \"--nope\".") :=
  (queries_on_unknown_alias ArgsParser.sampleParser "--nope" (by decide)).1

/-- C9. For `margin < lineWidth` (both `std::size_t` values) and every non-empty text that
contains no line break and is at most `lineWidth - margin` long, `fixHelpText` returns
`margin` blanks followed by the unchanged text; with margin 0 it returns the text itself. -/
theorem fixHelpText_short_text (text : String) (margin lineWidth : Nat)
    (hm : margin < lineWidth) (hl : lineWidth < 2 ^ 64) (hne : text ≠ "")
    (hnl : '\n' ∉ text.data) (hlen : text.length ≤ lineWidth - margin) :
    fixHelpText text margin lineWidth = ArgsParser.blanks margin ++ text ∧
    (margin = 0 → fixHelpText text margin lineWidth = text) := by
  have key : fixHelpText text margin lineWidth
      = String.mk (List.replicate margin ' ' ++ text.data) := by
    apply fixHelpText_whole _ _ _ hne hnl
    intro w hw
    apply cutLine_short
    have hpos : lineWidth > 0 := by omega
    rw [if_pos hpos, size_t_sub_of_lt _ _ hm hl] at hw
    rw [hw]
    exact hlen
  refine ⟨?_, ?_⟩
  · rw [key]; rfl
  · intro h0
    rw [key, h0]
    rfl

/-- The claim C9 at the text "Shows this help." with margin 4 and line width 80. -/
theorem fixHelpText_short_text_witness :
    fixHelpText "Shows this help." 4 80 = "    Shows this help." :=
  (fixHelpText_short_text "Shows this help." 4 80 (by decide) (by decide) (by decide)
    (by decide) (by decide)).1

/-- C10. For every non-empty text without any of the blanks space, tab, newline, carriage
return, form feed, vertical tab, and for every margin and line width, `fixHelpText` returns
one single line: `margin` blanks followed by the whole text. -/
theorem fixHelpText_single_word (text : String) (margin lineWidth : Nat)
    (hne : text ≠ "") (hword : ∀ c ∈ text.data, c ∉ BlankTrim) :
    fixHelpText text margin lineWidth = ArgsParser.blanks margin ++ text ∧
    '\n' ∉ (fixHelpText text margin lineWidth).data := by
  have hnl : '\n' ∉ text.data := fun h => hword _ h (by decide)
  have key : fixHelpText text margin lineWidth
      = String.mk (List.replicate margin ' ' ++ text.data) := by
    apply fixHelpText_whole _ _ _ hne hnl
    intro w _
    exact cutLine_no_blank _ _ hword
  refine ⟨?_, ?_⟩
  · rw [key]; rfl
  · rw [key]
    simp only [List.mem_append, not_or]
    refine ⟨?_, hnl⟩
    intro h
    have := List.eq_of_mem_replicate h
    exact absurd this (by decide)

/-- The claim C10 at the word of the spec, with margin 2 and the line width 12, which is
smaller than the 34 characters of the word. -/
theorem fixHelpText_single_word_witness :
    fixHelpText "supercalifragilisticexpialidocious" 2 12
      = "  supercalifragilisticexpialidocious" :=
  (fixHelpText_single_word "supercalifragilisticexpialidocious" 2 12 (by decide)
    (by decide)).1

/-- C11. The number of value slots of an option does not change: after a registration
that succeeds, of the aliases `args` with `n` value slots on a parser in any state it can
be in, `getValue` returns `n` strings for every alias of `args` in every state that
follows by registrations and calls of `parse`, whether they succeed or fail, that do not
show help; and it returns `n` empty strings as long as no call of `parse` has met a token
bound to the option. -/
theorem addArgument_slots (p : ArgsParser) (hp : ArgsParser.Reachable p)
    (args : List String) (n : Nat) (params_help help_text : String)
    (hok : (p.addArgument args n params_help help_text).1 = .ok ())
    (a : String) (ha : a ∈ args) :
    (∀ q, ArgsParser.Follows (p.addArgument args n params_help help_text).2 none q →
      ∃ vs, q.getValue a = .ok vs ∧ vs.length = n) ∧
    (∀ id q, (p.addArgument args n params_help help_text).2.findArgID a = .ok id →
      ArgsParser.Follows (p.addArgument args n params_help help_text).2 (some id) q →
      q.getValue a = .ok (List.replicate n "")) := by
  have hadd := ArgsParser.add_ok p args n params_help help_text hok
  have hbound := ArgsParser.addLoop_bound _ _ _ _ hadd.1 a ha
  have hreach : ArgsParser.Reachable (p.addArgument args n params_help help_text).2 :=
    ArgsParser.Reachable.addArgument p args n params_help help_text hp
  have hargs : mapFind a (p.addArgument args n params_help help_text).2.m_map_args
      = some p.m_map_values.length := by
    show mapFind a (p.add args n params_help help_text).2.m_map_args = _
    rw [hadd.2.1]
    exact hbound
  have hvals : mapFind p.m_map_values.length
      (p.addArgument args n params_help help_text).2.m_map_values
      = some (List.replicate n "") := by
    show mapFind _ (p.add args n params_help help_text).2.m_map_values = _
    rw [hadd.2.2.1]
    exact mapFind_mapAssign_self _ _ _
  constructor
  · intro q hq
    obtain ⟨ha', vs', hvs', hlen, _⟩ :=
      ArgsParser.follows_slots _ none q hreach hq a _ _ hargs hvals
    exact ⟨vs', ArgsParser.getValue_of_slots q a _ vs' ha' hvs', by simpa using hlen⟩
  · intro id q hid hq
    rw [ArgsParser.findArgID_of_some _ a _ hargs] at hid
    cases hid
    obtain ⟨ha', vs', hvs', _, hsame⟩ :=
      ArgsParser.follows_slots _ (some p.m_map_values.length) q hreach hq a _ _ hargs hvals
    rw [hsame rfl] at hvs'
    exact ArgsParser.getValue_of_slots q a _ _ ha' hvs'

set_option maxHeartbeats 4000000 in
/-- The claim C11 at the option `--size`, also `-s`, of two values, registered on the parser
with the flag `--verbose`: after a call of `parse` that stores the values `3` and `4` and a
registration of `-s` that fails, `getValue` returns two strings. -/
theorem addArgument_slots_witness :
    (ArgsParser.flagParser.addArgument ["--size", "-s"] 2 "<w> <h>" "The size.").1 = .ok () ∧
    (((ArgsParser.flagParser.addArgument ["--size", "-s"] 2 "<w> <h>" "The size.").2.parse 3
        ["-s", "3", "4"] 0).state.addArgument ["-s"] 1 "" "").1 ≠ .ok () ∧
    ∃ vs,
      (((ArgsParser.flagParser.addArgument ["--size", "-s"] 2 "<w> <h>" "The size.").2.parse 3
        ["-s", "3", "4"] 0).state.addArgument ["-s"] 1 "" "").2.getValue "--size" = .ok vs
      ∧ vs.length = 2 :=
  ⟨by decide, by decide,
    (addArgument_slots ArgsParser.flagParser
      (ArgsParser.Reachable.addArgument _ _ _ _ _
        (ArgsParser.Reachable.construct false "" "" "prog" false 0 80 "program"))
      ["--size", "-s"] 2 "<w> <h>" "The size." (by decide) "--size" (by decide)).1 _
      (ArgsParser.Follows.addArgument _ ["-s"] 1 "" ""
        (ArgsParser.Follows.parse _ ["-s", "3", "4"] 0 ArgsParser.Follows.refl (by decide)
          (by decide) (fun _ h => Option.noConfusion h)))⟩

/-- C12. Reflow keeps the words of the text: for every text, margin size and line size, the
words of `fixHelpText text margin_size line_size` are the words of `text`, in the same
order. No word is cut in two, joined to its neighbour, lost, repeated or moved. -/
theorem fixHelpText_words (text : String) (margin_size line_size : Nat) :
    words (fixHelpText text margin_size line_size).data = words text.data := by
  unfold fixHelpText
  simp only [fixTokens_eq, List.nil_append, Bool.not_false]
  rw [words_joinLines, List.map_map]
  rw [← words_tokenize _ _ (le_refl _)]
  congr 1
  apply List.map_congr_left
  intro t _
  simp only [Function.comp]
  rw [words_joinLines, List.map_map]
  rw [← words_cutLines _ _ t (le_refl _)]
  congr 1
  apply List.map_congr_left
  intro l _
  simp only [Function.comp]
  exact words_replicate _ _

/-- C13. The width bound: for a margin smaller than the line size (a `std::size_t`), every
line of the text written, split at its line breaks, has at most `line_size` characters,
unless it is the margin followed by one word without a blank that is longer than
`line_size - margin_size`. -/
theorem fixHelpText_width (text : String) (margin_size line_size : Nat)
    (hm : margin_size < line_size) (hl : line_size < 2 ^ 64) :
    ∀ line ∈ (fixHelpText text margin_size line_size).data.splitOn '\n',
      line.length ≤ line_size
        ∨ ∃ word, line = List.replicate margin_size ' ' ++ word
            ∧ (∀ c ∈ word, c ∉ BlankTrim) ∧ line_size - margin_size < word.length := by
  intro line hline
  have hw : (if line_size > 0 then size_t_sub line_size margin_size else 0)
      = line_size - margin_size := by
    rw [if_pos (by omega), size_t_sub_of_lt _ _ hm hl]
  rcases mem_lines_fixHelpText text margin_size line_size line hline with h | ⟨rest, _, h⟩
  · left; rw [h]; simp
  · rw [hw] at h
    rcases cutLine_width (line_size - margin_size) rest (by omega) with hfit | ⟨hword, hlong⟩
    · left
      rw [h]
      simp only [List.length_append, List.length_replicate]
      omega
    · exact Or.inr ⟨_, h, hword, hlong⟩

/-- The claim C13 at a text of two original lines, with margin 1 and line size 6: the
lines are ` ab cd`, ` ef` and ` abcdefgh`, the last one being a word of 8 characters. -/
theorem fixHelpText_width_witness :
    (1 : Nat) < 6 ∧ (6 : Nat) < 2 ^ 64 ∧
    ∀ line ∈ (fixHelpText "ab cd ef\nabcdefgh" 1 6).data.splitOn '\n',
      line.length ≤ 6
        ∨ ∃ word, line = List.replicate 1 ' ' ++ word
            ∧ (∀ c ∈ word, c ∉ BlankTrim) ∧ 6 - 1 < word.length :=
  ⟨by decide, by decide, fixHelpText_width "ab cd ef\nabcdefgh" 1 6 (by decide) (by decide)⟩

/-- C14. Every original line is reflowed on its own and the line breaks of the text are
kept: for a text `a` that does not end with a line break and a text `b` that is not empty,
the reflow of `a`, a line break and `b` is the reflow of `a`, a line break and the reflow
of `b`, for every margin size and line size. -/
theorem fixHelpText_append (a b : String) (margin_size line_size : Nat)
    (ha : a.data.getLast? ≠ some '\n') (hb : b ≠ "") :
    fixHelpText (a ++ "\n" ++ b) margin_size line_size
      = fixHelpText a margin_size line_size ++ "\n" ++ fixHelpText b margin_size line_size := by
  have hb' : b.data ≠ [] := by
    intro h
    apply hb
    cases b
    simp_all
  have hbt : tokenize b.data ['\n'] ≠ [] := by
    rw [tokenize_ne_nil _ hb']
    simp
  apply String.ext
  simp only [String.data_append, fixHelpText_data]
  obtain ⟨F, hF⟩ : ∃ F : List Char → List Char, F = fun t => List.intercalate ['\n']
      ((cutLines (if line_size > 0 then size_t_sub line_size margin_size else 0) t.length t).map
        (List.replicate margin_size ' ' ++ ·)) := ⟨_, rfl⟩
  rw [← hF]
  have hF0 : F [] = [] := by rw [hF]; simp [cutLines, List.intercalate]
  rw [List.append_assoc, List.singleton_append]
  by_cases hane : a.data = []
  · rw [hane, List.nil_append]
    have : tokenize ('\n' :: b.data) ['\n'] = [] :: tokenize b.data ['\n'] :=
      tokenize_piece [] b.data (by simp)
    rw [this, tokenize_nil]
    cases htb : tokenize b.data ['\n'] with
    | nil => exact absurd htb hbt
    | cons t ts =>
      rw [List.map_cons, List.map_cons, intercalate_cons_cons, hF0]
      simp [List.intercalate]
  · rw [tokenize_append _ _ _ (le_refl _) hane ha hb', List.map_append]
    have hat : tokenize a.data ['\n'] ≠ [] := by
      rw [tokenize_ne_nil _ hane]
      simp
    rw [intercalate_append _ _ _ (by simpa using hat) (by simpa using hbt)]

/-- The claim C14 at the texts `ab cd` and `ef gh`, line break, `ij`, with margin 1 and
line size 4. -/
theorem fixHelpText_append_witness :
    "ab cd".data.getLast? ≠ some '\n' ∧ "ef gh\nij" ≠ ""
      ∧ fixHelpText ("ab cd" ++ "\n" ++ "ef gh\nij") 1 4
        = fixHelpText "ab cd" 1 4 ++ "\n" ++ fixHelpText "ef gh\nij" 1 4 :=
  ⟨by decide, by decide, fixHelpText_append "ab cd" "ef gh\nij" 1 4 (by decide) (by decide)⟩

/-- The claim C15 is false as stated: the text `a`, two line breaks, `b` is not empty, and
with margin 2 its reflow has an empty second line, which does not begin with two blanks.
The margin is written in the inner loop only, once for each line cut, and an empty
original line has no line to cut. -/
theorem fixHelpText_margin_counterexample :
    "a\n\nb" ≠ "" ∧ fixHelpText "a\n\nb" 2 80 = "  a\n\n  b"
      ∧ ¬ ∀ line ∈ (fixHelpText "a\n\nb" 2 80).data.splitOn '\n',
          List.replicate 2 ' ' <+: line := by
  decide

/-- C15, amended. For every text that is not empty, every margin size and line size, the
lines of the text written, split at its line breaks, are those of the original lines of
the text, one original line after the other: an original line that is not empty gives one
line or more, each of which begins with `margin_size` blanks, and an empty original line
gives one empty line, without margin.  So every line is empty or begins with `margin_size`
blanks. -/
theorem fixHelpText_margin (text : String) (margin_size line_size : Nat) (hne : text ≠ "") :
    (∃ blocks : List (List (List Char)),
      (fixHelpText text margin_size line_size).data.splitOn '\n' = blocks.flatten
        ∧ List.Forall₂ (fun original block =>
            (original = [] → block = [[]])
              ∧ (original ≠ [] →
                  block ≠ [] ∧ ∀ line ∈ block, List.replicate margin_size ' ' <+: line))
          (tokenize text.data ['\n']) blocks)
      ∧ ∀ line ∈ (fixHelpText text margin_size line_size).data.splitOn '\n',
          line = [] ∨ List.replicate margin_size ' ' <+: line := by
  have hne' : text.data ≠ [] := by
    intro h
    apply hne
    cases text
    simp_all
  have htne : tokenize text.data ['\n'] ≠ [] := by
    rw [tokenize_ne_nil _ hne']
    simp
  refine ⟨⟨_, lines_fixTokens margin_size _ _ htne
    (fun t ht => (mem_tokenize _ _ (le_refl _) t ht).1), ?_⟩, ?_⟩
  · apply forall₂_map_of_forall
    intro t _
    constructor
    · intro ht
      subst ht
      simp [cutLines]
    · intro ht
      have hc := (length_cutLines (if line_size > 0 then size_t_sub line_size margin_size else 0)
        _ t (le_refl _) ht).1
      have hm : (cutLines (if line_size > 0 then size_t_sub line_size margin_size else 0)
          t.length t).map (List.replicate margin_size ' ' ++ ·) ≠ [] := by
        simpa using hc
      rw [if_neg hm]
      refine ⟨hm, ?_⟩
      intro line hline
      simp only [List.mem_map] at hline
      obtain ⟨cl, _, rfl⟩ := hline
      exact ⟨cl, rfl⟩
  · intro line hline
    rcases mem_lines_fixHelpText text margin_size line_size line hline with h | ⟨rest, _, h⟩
    · exact Or.inl h
    · exact Or.inr ⟨_, h.symm⟩

/-- The amended claim C15 at the text `a`, two line breaks, `b`, with margin 2: there are
three original lines, the second one empty, and three lines written. -/
theorem fixHelpText_margin_witness :
    "a\n\nb" ≠ ""
      ∧ (∃ blocks : List (List (List Char)),
          (fixHelpText "a\n\nb" 2 80).data.splitOn '\n' = blocks.flatten
            ∧ List.Forall₂ (fun original block =>
                (original = [] → block = [[]])
                  ∧ (original ≠ [] →
                      block ≠ [] ∧ ∀ line ∈ block, List.replicate 2 ' ' <+: line))
              (tokenize "a\n\nb".data ['\n']) blocks)
      ∧ ∀ line ∈ (fixHelpText "a\n\nb" 2 80).data.splitOn '\n',
          line = [] ∨ List.replicate 2 ' ' <+: line :=
  ⟨by decide, fixHelpText_margin "a\n\nb" 2 80 (by decide)⟩

/-- C17. For a margin size that is not smaller than the line size, the line size 0
included, `fixHelpText` adds no line break, the width being computed modulo `2^64`: the
text written is the original lines of the text, one on each line, each one that is not
empty after `margin_size` blanks. The margin size is a `std::size_t` and the text written
a `std::string`, so both the margin size and the length of that text are below `2^64`. -/
theorem fixHelpText_no_width (text : String) (margin_size line_size : Nat)
    (hm : line_size ≤ margin_size) (hmargin : margin_size < 2 ^ 64)
    (hout : (fixHelpText text margin_size line_size).length < 2 ^ 64) :
    fixHelpText text margin_size line_size
      = String.mk (List.intercalate ['\n'] ((tokenize text.data ['\n']).map (fun t =>
          if t.isEmpty then [] else List.replicate margin_size ' ' ++ t))) := by
  have hdata := fixHelpText_data text margin_size line_size
  have hstr : ∀ (s : String) (d : List Char), s.data = d → s = String.mk d := by
    intro s d h; cases s; simp_all
  apply hstr
  rw [hdata]
  congr 1
  apply List.map_congr_left
  intro t ht
  cases t with
  | nil => simp [cutLines, List.intercalate]
  | cons c s =>
    have hlen := length_fixHelpText text margin_size line_size (c :: s) ht (by simp)
    have hcut : cutLine (if line_size > 0 then size_t_sub line_size margin_size else 0) (c :: s)
        = c :: s := by
      unfold cutLine
      rw [if_pos]
      by_cases hl : line_size > 0
      · rw [if_pos hl]
        unfold size_t_sub
        rw [Nat.mod_eq_of_lt (lt_of_le_of_lt hm hmargin), Nat.mod_eq_of_lt hmargin]
        by_cases he : line_size = margin_size
        · left
          rw [he, Nat.add_sub_cancel_left, Nat.mod_self]
        · right
          rw [Nat.mod_eq_of_lt (by omega)]
          omega
      · rw [if_neg hl]
        exact Or.inl (le_refl _)
    rw [cutLines_whole _ _ (by simp) hcut]
    simp [List.intercalate]

/-- The claim C17 at a text of three original lines, the second one empty, with margin 4
and line size 3: the width wraps to `2^64 - 1`. -/
theorem fixHelpText_no_width_witness :
    (3 : Nat) ≤ 4 ∧ (4 : Nat) < 2 ^ 64 ∧ (fixHelpText "ab cd\n\nef" 4 3).length < 2 ^ 64
      ∧ fixHelpText "ab cd\n\nef" 4 3 = "    ab cd\n\n    ef" :=
  ⟨by decide, by decide, by decide,
    (fixHelpText_no_width "ab cd\n\nef" 4 3 (by decide) (by decide) (by decide)).trans
      (by decide)⟩

/-- C18. Calls of `parse` one after the other merge into the state: on a parser with a
program name, when `parse` succeeds on the tokens `a` and then succeeds on the tokens `b`,
one call of `parse` on `a` followed by `b` succeeds too and ends in the same state, with
the same text written.  The number of tokens of that call is its `argc`, an `int`. -/
theorem parse_merge (p : ArgsParser) (a b : List String)
    (hname : p.m_program_name.isEmpty = false) (hlen : (a ++ b).length < 2147483648)
    (ha : (p.parse a.length a 0).outcome = .ok ())
    (hb : ((p.parse a.length a 0).state.parse b.length b 0).outcome = .ok ()) :
    p.parse (a ++ b).length (a ++ b) 0 = (p.parse a.length a 0).state.parse b.length b 0 := by
  have ea : p.parse a.length a 0
      = ArgsParser.parseLoop a.length a (a.length - 0) p 0 "" := by
    have := ArgsParser.parse_eq p a 0 (Nat.zero_le _)
    rw [ArgsParser.setProgramName_named p _ _ _ hname] at this
    exact this
  have eab : p.parse (a ++ b).length (a ++ b) 0
      = ArgsParser.parseLoop (a ++ b).length (a ++ b) ((a ++ b).length - 0) p 0 "" := by
    have := ArgsParser.parse_eq p (a ++ b) 0 (Nat.zero_le _)
    rw [ArgsParser.setProgramName_named p _ _ _ hname] at this
    exact this
  rw [ea] at ha hb ⊢
  obtain ⟨h1, h2⟩ := ArgsParser.parseLoop_append_left a b hlen "" _ (a.length - 0) p 0
    (Nat.zero_le _) (le_refl _) rfl ha
  obtain ⟨s, hs⟩ : ∃ s, s = (ArgsParser.parseLoop a.length a (a.length - 0) p 0 "").state :=
    ⟨_, rfl⟩
  rw [← hs] at h1 h2 hb ⊢
  have hname1 : s.m_program_name.isEmpty = false := by rw [h2]; exact hname
  have eb : s.parse b.length b 0 = ArgsParser.parseLoop b.length b b.length s 0 "" := by
    have := ArgsParser.parse_eq s b 0 (Nat.zero_le _)
    rw [ArgsParser.setProgramName_named _ _ _ _ hname1] at this
    exact this
  rw [eb] at hb ⊢
  rw [eab, ← h1]
  exact ArgsParser.parseLoop_append_right a b hlen "" b.length _ 0 (by omega) hb

set_option maxHeartbeats 4000000 in
/-- The claim C18 at the sample parser, for the tokens `in -v` and then `--size 3 4 out`. -/
theorem parse_merge_witness :
    ArgsParser.sampleParser.m_program_name.isEmpty = false
      ∧ (["in", "-v"] ++ ["--size", "3", "4", "out"]).length < 2147483648
      ∧ (ArgsParser.sampleParser.parse 2 ["in", "-v"] 0).outcome = .ok ()
      ∧ ((ArgsParser.sampleParser.parse 2 ["in", "-v"] 0).state.parse 4
          ["--size", "3", "4", "out"] 0).outcome = .ok ()
      ∧ ArgsParser.sampleParser.parse 6 ["in", "-v", "--size", "3", "4", "out"] 0
        = (ArgsParser.sampleParser.parse 2 ["in", "-v"] 0).state.parse 4
            ["--size", "3", "4", "out"] 0 :=
  ⟨by decide, by decide, by decide, by decide,
    parse_merge ArgsParser.sampleParser ["in", "-v"] ["--size", "3", "4", "out"]
      (by decide) (by decide) (by decide) (by decide)⟩

set_option maxHeartbeats 4000000 in
/-- C19. A registration that fails at a repeated alias is not undone: on the parser with
the flag `--verbose`, the registration of `-v` and `--verbose` throws for `--verbose`, and
`-v`, entered into `m_map_args` before, stays a valid alias.  The next option registered,
`--size`, gets the identifier that `-v` is bound to, so that `-v` is an alias of `--size`:
the tokens `-v 7` are parsed and store `7` for `--size`, whereas without the failed call
`parse` throws `InvalidArgument` for `-v`. -/
theorem addArgument_failure_not_atomic :
    (ArgsParser.flagParser.addArgument ["-v", "--verbose"] 0 "" "Be verbose.").1
        = .throw (.invalid_argument "Invalid duplicated argument: \"--verbose\".")
      ∧ ArgsParser.flagParser.isArgumentValid "-v" = false
      ∧ ArgsParser.failedParser.isArgumentValid "-v" = true
      ∧ (ArgsParser.failedParser.addArgument ["--size"] 1 "<n>" "The size.").1 = .ok ()
      ∧ ArgsParser.failedParserSize.findArgID "-v"
          = ArgsParser.failedParserSize.findArgID "--size"
      ∧ (ArgsParser.failedParserSize.parse 2 ["-v", "7"] 0).outcome = .ok ()
      ∧ (ArgsParser.failedParserSize.parse 2 ["-v", "7"] 0).state.getValue "--size"
          = .ok ["7"]
      ∧ ((ArgsParser.flagParser.addArgument ["--size"] 1 "<n>" "The size.").2.parse 2
          ["-v", "7"] 0).outcome = .throw (.InvalidArgument "Invalid argument: \"-v\".") := by
  decide

/-- C20. `fixHelpText` ends for every text, margin size and line size. Every iteration of
the inner loop shortens what is left of the original line: the line cut off is not empty,
or it is empty and the one blank at the front is removed. Every iteration of the loop of
`tokenize` on the delimiter of one line break shortens its input. So what is left is empty
after as many iterations as it has characters, and both loops end. -/
theorem fixHelpText_terminates :
    (∀ (w : Nat) (token : List Char), token ≠ [] →
      (dropLine token (cutLine w token)).length < token.length
        ∧ (cutLine w token ≠ []
          ∨ ∃ c s, token = c :: s ∧ c ∈ BlankTrim ∧ dropLine token (cutLine w token) = s))
    ∧ (∀ s : List Char, s ≠ [] → (tokenizeStep s ['\n']).2.length < s.length)
    ∧ (∀ (w : Nat) (token : List Char), fixLoopRest w token.length token = [])
    ∧ (∀ s : List Char, tokenizeLoopRest ['\n'] s.length s = []) := by
  refine ⟨?_, fun s hs => tokenizeStep_lt s ['\n'] hs (by simp),
    fun w token => fixLoopRest_nil w _ token (le_refl _),
    fun s => tokenizeLoopRest_nil ['\n'] (by simp) _ s (le_refl _)⟩
  intro w token hne
  refine ⟨dropLine_cutLine_lt w token hne, ?_⟩
  by_cases hline : cutLine w token = []
  · right
    obtain ⟨rest, hsplit, hrest, hdrop⟩ := cutLine_split w token
    rw [hline, List.nil_append] at hsplit
    subst hsplit
    rcases hrest with h | ⟨c, r, h, hc⟩
    · exact absurd h hne
    · exact ⟨c, r, h, hc, by rw [hdrop, h]; rfl⟩
  · exact Or.inl hline

end hebench
